import Mathlib

/-!
Verification development for the control-loop and recovery layer of
`code_agent.py` (class `CodeAgent`).

The Python source is shallowly embedded: pure string-processing functions
(`_clean_json`, `_fix_truncated_json`, `_normalize_test_error`,
`_is_environment_error`, `_should_restart_vs_continue`,
`_calculate_accuracy_percentage`) are translated into executable Lean
functions over `List Char`; the effectful driver loops (`CodeAgent.run`,
`_execute_feature_plan`) are translated into explicit state-passing
functions whose external collaborators (oracle, sandbox, VCS) are
uninterpreted parameters.

Python regular expressions are hand-compiled into character-level scanning
functions with the same matching semantics (leftmost match, greedy or lazy
quantifiers as in the original pattern); `json.loads` is modelled by a
recursive-descent parser for the JSON subset exercised by the program
(strings, integers, booleans, null, arrays, objects), carrying the CPython
error-message prefixes that `_clean_json` inspects by substring testing.
Bounded recursion is expressed with an explicit fuel parameter where the
Python loop is bounded by the input length.
-/

namespace CodeAgent

/-- Characters that are special in JSON or Python string syntax, written via
code points so they can be used freely in definitions and proofs. -/
def lbrace : Char := Char.ofNat 123

/-- Closing curly brace. -/
def rbrace : Char := Char.ofNat 125

/-- Opening square bracket. -/
def lbrack : Char := Char.ofNat 91

/-- Closing square bracket. -/
def rbrack : Char := Char.ofNat 93

/-- Double-quote character. -/
def dquote : Char := Char.ofNat 34

/-- Backslash character. -/
def bslash : Char := Char.ofNat 92

/-- Single-quote character. -/
def squote : Char := Char.ofNat 39

/-- Newline character. -/
def nlChar : Char := Char.ofNat 10

/-- Colon character. -/
def colonChar : Char := ':'

/-- Comma character. -/
def commaChar : Char := ','

/-- Python `\s` character class over ASCII: space, tab, newline, carriage
return, vertical tab, form feed. Also the default `str.strip()` set. -/
def isPyWs (c : Char) : Bool :=
  c = ' ' ∨ c = Char.ofNat 9 ∨ c = Char.ofNat 10 ∨ c = Char.ofNat 13 ∨
  c = Char.ofNat 11 ∨ c = Char.ofNat 12

/-- ASCII digit test. -/
def isDig (c : Char) : Bool := 48 ≤ c.toNat ∧ c.toNat ≤ 57

/-- Model of Python `str.strip()` on the left: drop leading whitespace. -/
def trimLeft (l : List Char) : List Char := l.dropWhile isPyWs

/-- Model of Python `str.strip()` on the right: drop trailing whitespace. -/
def trimRight (l : List Char) : List Char := (l.reverse.dropWhile isPyWs).reverse

/-- Model of Python `str.strip()`. -/
def pyStrip (l : List Char) : List Char := trimRight (trimLeft l)

/-- Match a literal character sequence at the head of the input, returning
the remainder on success. -/
def matchLit : List Char → List Char → Option (List Char)
  | [], cs => some cs
  | _ :: _, [] => none
  | p :: ps, c :: cs => if c = p then matchLit ps cs else none

/-- Boolean substring containment, modelling Python `in` on `str`. -/
def containsSub (pat : List Char) : List Char → Bool
  | [] => (matchLit pat []).isSome
  | c :: cs => (matchLit pat (c :: cs)).isSome || containsSub pat cs

/-- Lowercase a character list, modelling Python `str.lower()` on ASCII. -/
def lowerL (l : List Char) : List Char := l.map Char.toLower

/-- Index of the first occurrence of a character, modelling `str.find`
(`none` for `-1`). -/
def findCharIdx (c : Char) (l : List Char) : Option Nat :=
  l.findIdx? (· = c)

/-- Index of the last occurrence of a character, modelling `str.rfind`. -/
def rfindCharIdx (c : Char) (l : List Char) : Option Nat :=
  match findCharIdx c l.reverse with
  | none => none
  | some i => some (l.length - 1 - i)

/-- Index of the last occurrence of a two-character substring, modelling
`str.rfind` on a two-character needle. -/
def rfindSub2 (a b : Char) : List Char → Option Nat
  | [] => none
  | [_] => none
  | c :: d :: rest =>
    match rfindSub2 a b (d :: rest) with
    | some i => some (i + 1)
    | none => if c = a ∧ d = b then some 0 else none

/-- Count occurrences of a character, modelling `str.count`. -/
def countChar (c : Char) (l : List Char) : Nat := l.countP (· = c)

/-- `n` copies of a character, modelling Python string repetition. -/
def repChar (c : Char) (n : Nat) : List Char := List.replicate n c

/-- Intercalate a comma between chunks, modelling `','.join(...)`. -/
def joinComma : List (List Char) → List Char
  | [] => []
  | [x] => x
  | x :: y :: rest => x ++ commaChar :: joinComma (y :: rest)

/-! ### JSON values and a model of `json.loads`

`json.loads` is modelled for the grammar the agent exchanges with the
planner: arrays of flat objects with string keys and string/integer
values (plus booleans and null for totality). Floats and `\uXXXX` escapes
beyond the basic multilingual plane are outside the modelled subset.
Error values carry the CPython message prefix (without position suffix),
because `_clean_json` dispatches on `"Unterminated string" in str(e) or
"Expecting" in str(e)`. -/

/-- JSON values as decoded by the modelled `json.loads`. -/
inductive Json where
  | jstr (s : List Char)
  | jnum (n : Int)
  | jtrue
  | jfalse
  | jnull
  | jarr (l : List Json)
  | jobj (ms : List (List Char × Json))

/-- Skip JSON whitespace (space, tab, newline, carriage return). -/
def skipWs (l : List Char) : List Char :=
  l.dropWhile (fun c => c = ' ' ∨ c = Char.ofNat 9 ∨ c = Char.ofNat 10 ∨ c = Char.ofNat 13)

/-- CPython message for a truncated string literal. -/
def msgUnterminated : List Char := "Unterminated string starting at".data

/-- CPython message for a missing value. -/
def msgExpValue : List Char := "Expecting value".data

/-- CPython message for a missing comma delimiter. -/
def msgExpComma : List Char := "Expecting \x27,\x27 delimiter".data

/-- CPython message for a missing colon delimiter. -/
def msgExpColon : List Char := "Expecting \x27:\x27 delimiter".data

/-- CPython message for a missing property name. -/
def msgExpProp : List Char := "Expecting property name enclosed in double quotes".data

/-- CPython message for trailing content after the top-level value. -/
def msgExtraData : List Char := "Extra data".data

/-- CPython message for a raw control character inside a string. -/
def msgInvalidControl : List Char := "Invalid control character at".data

/-- CPython message for an unknown backslash escape. -/
def msgInvalidEscape : List Char := "Invalid escape".data

/-- Out-of-fuel marker; unreachable when the fuel is at least twice the
input length plus two, which `jsonParse` always supplies. -/
def msgFuel : List Char := "recursion limit".data

/-- The exception class of a failed `json.loads`: a `json.JSONDecodeError`
carrying its message, or the `RecursionError` that CPython raises when the
nesting of the input exceeds the interpreter recursion limit. Only the
former is caught by the `except json.JSONDecodeError` handlers of
`_clean_json` (lines 744, 754, 795, 814) and `_fix_truncated_json`
(line 968); a `RecursionError` propagates out of those functions. -/
inductive JsonErr where
  | decodeError (msg : List Char)
  | recursionError
deriving DecidableEq

/-- CPython's default interpreter recursion limit
(`sys.getrecursionlimit()`), which bounds the container nesting that
`json.loads` accepts before raising `RecursionError`. -/
def recursionLimit : Nat := 1000

/-- Parse the body of a JSON string literal after the opening quote,
modelling CPython `py_scanstring` on the supported escapes. -/
def parseStringBody : List Char → List Char → Except JsonErr (List Char × List Char)
  | [], _ => .error (.decodeError msgUnterminated)
  | c :: rest, acc =>
    if c = dquote then .ok (acc.reverse, rest)
    else if c = bslash then
      match rest with
      | [] => .error (.decodeError msgUnterminated)
      | e :: r2 =>
        if e = dquote then parseStringBody r2 (dquote :: acc)
        else if e = bslash then parseStringBody r2 (bslash :: acc)
        else if e = '/' then parseStringBody r2 ('/' :: acc)
        else if e = 'b' then parseStringBody r2 (Char.ofNat 8 :: acc)
        else if e = 'f' then parseStringBody r2 (Char.ofNat 12 :: acc)
        else if e = 'n' then parseStringBody r2 (Char.ofNat 10 :: acc)
        else if e = 'r' then parseStringBody r2 (Char.ofNat 13 :: acc)
        else if e = 't' then parseStringBody r2 (Char.ofNat 9 :: acc)
        else .error (.decodeError msgInvalidEscape)
    else if c.toNat < 32 then .error (.decodeError msgInvalidControl)
    else parseStringBody rest (c :: acc)

/-- Read a run of decimal digits into a natural number accumulator. -/
def readDigits : List Char → Nat → (Nat × List Char)
  | [], acc => (acc, [])
  | c :: rest, acc =>
    if isDig c then readDigits rest (acc * 10 + (c.toNat - 48))
    else (acc, c :: rest)

/-- Parse a JSON integer (CPython grammar `-?(0|[1-9][0-9]*)`, with the
fraction/exponent part outside the modelled subset). -/
def parseNumber (l : List Char) : Except JsonErr (Json × List Char) :=
  match l with
  | '-' :: rest =>
    (match rest with
     | c :: _ =>
       if c = '0' then .ok (.jnum 0, rest.drop 1)
       else if isDig c then
         let (n, r) := readDigits rest 0
         .ok (.jnum (-(n : Int)), r)
       else .error (.decodeError msgExpValue)
     | [] => .error (.decodeError msgExpValue))
  | c :: rest =>
    if c = '0' then .ok (.jnum 0, rest)
    else if isDig c then
      let (n, r) := readDigits (c :: rest) 0
      .ok (.jnum (n : Int), r)
    else .error (.decodeError msgExpValue)
  | [] => .error (.decodeError msgExpValue)

mutual

/-- Parse one JSON value at a given container-nesting depth; entering a
container past `recursionLimit` raises `RecursionError`, as CPython's
scanner does, and fuel bounds the structural recursion. -/
def parseValue : Nat → Nat → List Char → Except JsonErr (Json × List Char)
  | depth, fuel, l =>
    match skipWs l with
    | [] => .error (.decodeError msgExpValue)
    | c :: rest =>
      if c = dquote then
        match parseStringBody rest [] with
        | .ok (s, r) => .ok (.jstr s, r)
        | .error e => .error e
      else if c = lbrack then
        if recursionLimit ≤ depth then .error .recursionError
        else match fuel with
        | 0 => .error (.decodeError msgFuel)
        | fuel' + 1 =>
          match skipWs rest with
          | d :: r2 =>
            if d = rbrack then .ok (.jarr [], r2)
            else parseElems (depth + 1) fuel' (d :: r2) []
          | [] => .error (.decodeError msgExpValue)
      else if c = lbrace then
        if recursionLimit ≤ depth then .error .recursionError
        else match fuel with
        | 0 => .error (.decodeError msgFuel)
        | fuel' + 1 =>
          match skipWs rest with
          | d :: r2 =>
            if d = rbrace then .ok (.jobj [], r2)
            else parseMembers (depth + 1) fuel' (d :: r2) []
          | [] => .error (.decodeError msgExpProp)
      else if c = 't' then
        match matchLit "rue".data rest with
        | some r => .ok (.jtrue, r)
        | none => .error (.decodeError msgExpValue)
      else if c = 'f' then
        match matchLit "alse".data rest with
        | some r => .ok (.jfalse, r)
        | none => .error (.decodeError msgExpValue)
      else if c = 'n' then
        match matchLit "ull".data rest with
        | some r => .ok (.jnull, r)
        | none => .error (.decodeError msgExpValue)
      else parseNumber (c :: rest)

/-- Parse the elements of a non-empty JSON array after `[`, the elements
sitting at the given depth. -/
def parseElems : Nat → Nat → List Char → List Json → Except JsonErr (Json × List Char)
  | _, 0, _, _ => .error (.decodeError msgFuel)
  | depth, fuel + 1, l, acc =>
    match parseValue depth fuel l with
    | .error e => .error e
    | .ok (v, rest) =>
      match skipWs rest with
      | [] => .error (.decodeError msgExpComma)
      | c :: r2 =>
        if c = rbrack then .ok (.jarr (acc ++ [v]), r2)
        else if c = commaChar then parseElems depth fuel r2 (acc ++ [v])
        else .error (.decodeError msgExpComma)

/-- Parse the members of a non-empty JSON object after `{`, the member
values sitting at the given depth. -/
def parseMembers : Nat → Nat → List Char → List (List Char × Json) →
    Except JsonErr (Json × List Char)
  | _, 0, _, _ => .error (.decodeError msgFuel)
  | depth, fuel + 1, l, acc =>
    match l with
    | [] => .error (.decodeError msgExpProp)
    | c :: rest =>
      if c = dquote then
        match parseStringBody rest [] with
        | .error e => .error e
        | .ok (k, r2) =>
          match skipWs r2 with
          | [] => .error (.decodeError msgExpColon)
          | d :: r3 =>
            if d = colonChar then
              match parseValue depth fuel r3 with
              | .error e => .error e
              | .ok (v, r4) =>
                match skipWs r4 with
                | [] => .error (.decodeError msgExpComma)
                | e :: r5 =>
                  if e = rbrace then .ok (.jobj (acc ++ [(k, v)]), r5)
                  else if e = commaChar then
                    parseMembers depth fuel (skipWs r5) (acc ++ [(k, v)])
                  else .error (.decodeError msgExpComma)
            else .error (.decodeError msgExpColon)
      else .error (.decodeError msgExpProp)

end

/-- Model of `json.loads` over character lists: parse one value at depth
zero, then require only whitespace to follow. The fuel is large enough
that the depth guard, not the fuel, bounds deeply nested input. -/
def jsonParse (l : List Char) : Except JsonErr Json :=
  match parseValue 0 (2 * l.length + 2) l with
  | .error e => .error e
  | .ok (v, rest) =>
    match skipWs rest with
    | [] => .ok v
    | _ => .error (.decodeError msgExtraData)

/-! ### Plan records and their canonical serialization

The wire contract (spec section 6) is a JSON array of objects with fields
`step:int, action, target, content_instruction` (the optional
`feature_name` is omitted in the modelled records). `serializePlan`
produces the compact serialization used in the specification examples,
escaping double quotes and backslashes as `json.dumps` does; the validity
predicate restricts field strings to characters at code point 32 and
above, the range for which this escaping is exactly the `json.dumps`
escaping. -/

/-- Render a natural number in decimal, with fuel for termination. -/
def natDigitsAux : Nat → Nat → List Char
  | 0, _ => []
  | fuel + 1, n =>
    if n < 10 then [Char.ofNat (48 + n)]
    else natDigitsAux fuel (n / 10) ++ [Char.ofNat (48 + n % 10)]

/-- Decimal digits of a natural number. -/
def natDigits (n : Nat) : List Char := natDigitsAux (n + 1) n

/-- JSON string escaping of one character (quote and backslash). -/
def escChar (c : Char) : List Char :=
  if c = dquote ∨ c = bslash then [bslash, c] else [c]

/-- JSON string escaping of a field value. -/
def escStr (s : List Char) : List Char := s.flatMap escChar

/-- A scalar member value of a plan object. -/
inductive JVal where
  | vnum (n : Nat)
  | vstr (s : List Char)

/-- Serialize one `"key":value` member. -/
def memberChars : List Char × JVal → List Char
  | (k, .vnum n) => dquote :: k ++ [dquote, colonChar] ++ natDigits n
  | (k, .vstr s) => dquote :: k ++ [dquote, colonChar, dquote] ++ escStr s ++ [dquote]

/-- Serialize an object from its member list. -/
def objChars (ms : List (List Char × JVal)) : List Char :=
  lbrace :: joinComma (ms.map memberChars) ++ [rbrace]

/-- One Action record of a Plan (spec section 3), with the required wire
fields. -/
structure PlanRec where
  step : Nat
  action : List Char
  target : List Char
  content_instruction : List Char

/-- Member list of a record in wire order. -/
def recMembers (r : PlanRec) : List (List Char × JVal) :=
  [("step".data, .vnum r.step),
   ("action".data, .vstr r.action),
   ("target".data, .vstr r.target),
   ("content_instruction".data, .vstr r.content_instruction)]

/-- Compact serialization of one record. -/
def serializeRec (r : PlanRec) : List Char := objChars (recMembers r)

/-- Compact serialization of a plan. -/
def serializePlan (p : List PlanRec) : List Char :=
  lbrack :: joinComma (p.map serializeRec) ++ [rbrack]

/-- The JSON value a record decodes to. -/
def recToJson (r : PlanRec) : Json :=
  .jobj [("step".data, .jnum (r.step : Int)),
         ("action".data, .jstr r.action),
         ("target".data, .jstr r.target),
         ("content_instruction".data, .jstr r.content_instruction)]

/-- A field string is valid when every character is at code point 32 or
above (no raw control characters, which `json.dumps` would escape with
`\uXXXX` outside the modelled subset). -/
def ValidStr (s : List Char) : Prop := ∀ c ∈ s, 32 ≤ c.toNat

instance (s : List Char) : Decidable (ValidStr s) := by
  unfold ValidStr; infer_instance

/-- A record is valid when all its string fields are valid. -/
def ValidRec (r : PlanRec) : Prop :=
  ValidStr r.action ∧ ValidStr r.target ∧ ValidStr r.content_instruction

instance (r : PlanRec) : Decidable (ValidRec r) := by
  unfold ValidRec; infer_instance

/-! ### `_fix_truncated_json` (code_agent.py lines 915-999)

The Python function records `(obj_start, i)` index pairs and later slices
`text[obj_start:i+1]`; the model accumulates the same characters in a
buffer (`buf`), which holds exactly `text[obj_start:i]` whenever
`obj_start != -1`. The brace depth is an `Int` because the Python counter
can go negative on a stray closing brace. -/

/-- Scanner state for the balanced-object scan of `_fix_truncated_json`
(and of the equivalent inline scan in `_clean_json`). The `faulted` flag
records that the candidate validation `json.loads(obj_str)` at line 966
raised an uncaught `RecursionError`, aborting the scan loop. -/
structure ScanSt where
  depth : Int
  inString : Bool
  escapeNext : Bool
  buf : Option (List Char)
  collected : List (List Char)
  faulted : Bool

/-- Initial scanner state. -/
def scanInit : ScanSt := ⟨0, false, false, none, [], false⟩

/-- Append the current character to the active object buffer, mirroring the
index range `text[obj_start:i+1]` of the Python code. -/
def bufPush (b : Option (List Char)) (c : Char) : Option (List Char) :=
  b.map (· ++ [c])

/-- One step of the balanced-object scan (lines 940-971). A candidate
whose validation load raises `RecursionError` sets `faulted`, after which
the remaining steps are inert (the Python loop is aborted by the
propagating exception). -/
def scanStep (st : ScanSt) (c : Char) : ScanSt :=
  if st.faulted then st
  else if st.escapeNext then
    { st with escapeNext := false, buf := bufPush st.buf c }
  else if c = bslash then
    { st with escapeNext := true, buf := bufPush st.buf c }
  else if c = dquote then
    { st with inString := !st.inString, buf := bufPush st.buf c }
  else if st.inString then
    { st with buf := bufPush st.buf c }
  else if c = lbrace then
    if st.depth = 0 then
      { st with depth := 1, buf := some [c] }
    else
      { st with depth := st.depth + 1, buf := bufPush st.buf c }
  else if c = rbrace then
    let d := st.depth - 1
    if d = 0 then
      match st.buf with
      | some b =>
        let cand := b ++ [c]
        match jsonParse cand with
        | .ok _ =>
          { depth := d, inString := st.inString, escapeNext := false,
            buf := none, collected := st.collected ++ [cand],
            faulted := st.faulted }
        | .error (.decodeError _) =>
          { depth := d, inString := st.inString, escapeNext := false,
            buf := none, collected := st.collected, faulted := st.faulted }
        | .error .recursionError => { st with faulted := true }
      | none => { st with depth := d }
    else
      { st with depth := d, buf := bufPush st.buf c }
  else
    { st with buf := bufPush st.buf c }

/-- Run the balanced-object scan over the whole text. -/
def scanRun (l : List Char) : ScanSt := l.foldl scanStep scanInit

/-- `_fix_truncated_json` (lines 915-999): extract the complete top-level
objects if any, otherwise aggressively close the truncated text. Returns
`none` when the scan's candidate validation raised an uncaught
`RecursionError`, which then propagates out of the function. -/
def fixTruncatedJson (input : List Char) : Option (List Char) :=
  let text0 := pyStrip input
  match findCharIdx lbrack text0 with
  | none => some [lbrack, rbrack]
  | some arrayStart =>
    let text := text0.drop arrayStart
    let st := scanRun text
    if st.faulted then none
    else if st.collected ≠ [] then
      some (lbrack :: joinComma st.collected ++ [rbrack])
    else if ¬ (text ≠ [] ∧ text.getLast? = some rbrack) then
      let openBrackets : Int := (countChar lbrack text : Int) - (countChar rbrack text : Int)
      let openBraces : Int := (countChar lbrace text : Int) - (countChar rbrace text : Int)
      match rfindSub2 rbrace commaChar text with
      | some lastComplete => some (text.take (lastComplete + 1) ++ [rbrack])
      | none =>
        match rfindCharIdx rbrace text with
        | some lastBrace =>
          some (text.take (lastBrace + 1) ++
            repChar rbrace (max 0 (openBraces - 1)).toNat ++
            repChar rbrack (max 1 openBrackets).toNat)
        | none => some [lbrack, rbrack]
    else some text

/-! ### `_clean_json` (code_agent.py lines 721-913)

Try 1 parses directly, repairing truncation when the decode-error message
contains `"Unterminated string"` or `"Expecting"` (and rebinding the
working text to the repaired text, as the Python does at line 748). Tries
2-5 are the markdown-block regexes, the manual bracket slice, the textual
cleanup, and the inline balanced-object scan. The final failure raises
`ValueError` with the first 1000 characters of the working text. -/

/-- Decode-error test of line 746: `"Unterminated string" in str(e) or
"Expecting" in str(e)`. -/
def truncLike (e : List Char) : Bool :=
  containsSub "Unterminated string".data e || containsSub "Expecting".data e

/-- Case-insensitive literal match at the head of the input. -/
def matchLitCI : List Char → List Char → Option (List Char)
  | [], cs => some cs
  | _ :: _, [] => none
  | p :: ps, c :: cs => if c.toLower = p.toLower then matchLitCI ps cs else none

/-- Find the first occurrence of a literal, returning the text after it. -/
def findLit : Nat → List Char → List Char → Option (List Char × List Char)
  | 0, _, _ => none
  | _ + 1, _, [] => none
  | fuel + 1, pat, c :: cs =>
    match matchLit pat (c :: cs) with
    | some rest => some ([], rest)
    | none =>
      match findLit fuel pat cs with
      | some (pre, rest) => some (c :: pre, rest)
      | none => none

/-- Model of `re.findall(r'```TAG\s*(.*?)\s*```', text, DOTALL|IGNORECASE)`:
the lazy group between a fence opening and the next fence yields the
whitespace-trimmed enclosed span. -/
def findFenced (tag : List Char) : Nat → List Char → List (List Char)
  | 0, _ => []
  | _ + 1, [] => []
  | fuel + 1, c :: cs =>
    match matchLitCI (('`' :: '`' :: '`' :: tag)) (c :: cs) with
    | some afterOpen =>
      (match findLit (afterOpen.length + 1) "```".data afterOpen with
       | some (content, rem) => pyStrip content :: findFenced tag fuel rem
       | none => [])
    | none => findFenced tag fuel cs

/-- Model of `re.findall(r'\[.*\]', text, DOTALL)`: the single greedy match
from the first opening bracket to the last closing bracket, when the
latter comes after the former. -/
def arrayLike (text : List Char) : List (List Char) :=
  match findCharIdx lbrack text, rfindCharIdx rbrack text with
  | some i, some j => if i < j then [(text.drop i).take (j - i + 1)] else []
  | _, _ => []

/-- Model of `re.sub(r',\s*C', 'C', text)` for a closing character `C`. -/
def subCommaCloseF (close : Char) : Nat → List Char → List Char
  | 0, l => l
  | _ + 1, [] => []
  | fuel + 1, c :: rest =>
    if c = commaChar then
      match rest.dropWhile isPyWs with
      | d :: r3 =>
        if d = close then close :: subCommaCloseF close fuel r3
        else c :: subCommaCloseF close fuel rest
      | [] => c :: subCommaCloseF close fuel rest
    else c :: subCommaCloseF close fuel rest

/-- Fuel wrapper for `subCommaCloseF`. -/
def subCommaClose (close : Char) (l : List Char) : List Char :=
  subCommaCloseF close (l.length + 1) l

/-- The non-JSON preamble strip of Try 4 (lines 800-804). -/
def stripPreambles (text : List Char) : List Char :=
  let step := fun (t : List Char) (p : String) =>
    match matchLit p.data t with
    | some rest => pyStrip rest
    | none => t
  (["Here is the plan:", "Plan:", "JSON:", "```"] : List String).foldl step text

/-- Scanner state for the inline balanced-object scan of Try 5
(lines 827-860), which records candidate ranges without validating them
and tracks the position of the last completed object. -/
structure Scan5St where
  braceCount : Int
  bracketCount : Int
  inString : Bool
  escapeNext : Bool
  buf : Option (List Char)
  cands : List (List Char)
  lastCompletePos : Option Nat
  pos : Nat

/-- Initial Try-5 scanner state. -/
def scan5Init : Scan5St := ⟨0, 0, false, false, none, [], none, 0⟩

/-- One step of the Try-5 scan. -/
def scan5Step (st : Scan5St) (c : Char) : Scan5St :=
  let next := fun (st' : Scan5St) => { st' with pos := st.pos + 1 }
  if st.escapeNext then
    next { st with escapeNext := false, buf := bufPush st.buf c }
  else if c = bslash then
    next { st with escapeNext := true, buf := bufPush st.buf c }
  else if c = dquote then
    next { st with inString := !st.inString, buf := bufPush st.buf c }
  else if st.inString then
    next { st with buf := bufPush st.buf c }
  else if c = lbrace then
    if st.braceCount = 0 then
      next { st with braceCount := 1, buf := some [c] }
    else
      next { st with braceCount := st.braceCount + 1, buf := bufPush st.buf c }
  else if c = rbrace then
    let d := st.braceCount - 1
    if d = 0 then
      match st.buf with
      | some b =>
        next { st with braceCount := d, buf := none,
                       cands := st.cands ++ [b ++ [c]],
                       lastCompletePos := some st.pos }
      | none => next { st with braceCount := d }
    else
      next { st with braceCount := d, buf := bufPush st.buf c }
  else if c = lbrack then
    next { st with bracketCount := st.bracketCount + 1, buf := bufPush st.buf c }
  else if c = rbrack then
    next { st with bracketCount := st.bracketCount - 1, buf := bufPush st.buf c }
  else
    next { st with buf := bufPush st.buf c }

/-- Run the Try-5 scan. -/
def scan5Run (l : List Char) : Scan5St := l.foldl scan5Step scan5Init

/-- The outcome of one of tries 2-5 of `_clean_json`: a returned list, no
result (control falls through to the next stage), or an uncaught exception
(a `RecursionError` that none of the `except json.JSONDecodeError`
handlers of the try catches) propagating out of `_clean_json`. -/
inductive TryOut where
  | found (l : List Json)
  | nothing
  | fault

/-- Parse a candidate: a decoded array is kept, any other decode result or
a `JSONDecodeError` falls through, and a `RecursionError` escapes. -/
def parseAsList (cand : List Char) : TryOut :=
  match jsonParse cand with
  | .ok (.jarr l) => .found l
  | .ok _ => .nothing
  | .error (.decodeError _) => .nothing
  | .error .recursionError => .fault

/-- Run a per-candidate load over candidates in order: the first returned
list wins, and an exception escaping a candidate aborts the loop. -/
def firstTry : List (List Char) → (List Char → TryOut) → TryOut
  | [], _ => .nothing
  | c :: cs, f =>
    match f c with
    | .found l => .found l
    | .fault => .fault
    | .nothing => firstTry cs f

/-- Try 2 (lines 757-776): fenced code blocks, then any bracketed span.
The `except (json.JSONDecodeError, IndexError, AttributeError)` of
line 776 lets a `RecursionError` escape. -/
def try2 (text : List Char) : TryOut :=
  let cands := findFenced "json".data (text.length + 1) text ++
               findFenced [] (text.length + 1) text ++
               arrayLike text
  firstTry cands (fun c => parseAsList (pyStrip c))

/-- Try 3 (lines 778-796): slice between the first `[` and the last `]`,
repairing truncation when the latter is missing. The
`except json.JSONDecodeError` of line 795 lets a `RecursionError` (from
the load or from `_fix_truncated_json`) escape. -/
def try3 (text : List Char) : TryOut :=
  match findCharIdx lbrack text with
  | none => .nothing
  | some s =>
    match rfindCharIdx rbrack text with
    | some e =>
      if s < e then parseAsList ((text.drop s).take (e - s + 1))
      else
        match fixTruncatedJson (text.drop s) with
        | none => .fault
        | some jstr => parseAsList jstr
    | none =>
      match fixTruncatedJson (text.drop s) with
      | none => .fault
      | some jstr => parseAsList jstr

/-- Try 4 (lines 798-815): strip preambles and trailing commas. The
`except json.JSONDecodeError` of line 814 lets a `RecursionError`
escape. -/
def try4 (text : List Char) : TryOut :=
  let cleaned := stripPreambles text
  let cleaned := subCommaClose rbrace cleaned
  let cleaned := subCommaClose rbrack cleaned
  parseAsList cleaned

/-- Whether loading a candidate raises `RecursionError` (aborting the
candidate loop of lines 866-873, whose `except json.JSONDecodeError`
does not catch it). -/
def loadsFaults (cand : List Char) : Bool :=
  match jsonParse cand with
  | .error .recursionError => true
  | _ => false

/-- Try 5 (lines 817-907): inline balanced-object extraction. The whole
block sits under `except (json.JSONDecodeError, ValueError, Exception)`
(line 908), so an exception raised anywhere inside aborts the rest of the
try and control falls through to the final raise: this try never lets a
fault escape. -/
def try5 (text : List Char) : TryOut :=
  match findCharIdx lbrack text with
  | none => .nothing
  | some s =>
    let partialJson := text.drop s
    let st := scan5Run partialJson
    if st.cands.any loadsFaults then .nothing
    else match st.cands.filterMap (fun c => (jsonParse c).toOption) with
    | v :: l => .found (v :: l)
    | [] =>
      let afterExtract : TryOut :=
        match st.lastCompletePos with
        | some p =>
          if 0 < p then
            let e0 := partialJson.take (p + 1)
            let e1 := if (matchLit [lbrack] e0).isSome then e0 else lbrack :: e0
            let e2 := if e1.getLast? = some rbrack then e1 else e1 ++ [rbrack]
            match parseAsList e2 with
            | .found [] => .nothing
            | .found (v :: l) => .found (v :: l)
            | .nothing => .nothing
            | .fault => .fault
          else .nothing
        | none => .nothing
      match afterExtract with
      | .found l => .found l
      | .fault => .nothing
      | .nothing =>
        match fixTruncatedJson partialJson with
        | none => .nothing
        | some fixedJson =>
          match parseAsList fixedJson with
          | .found [] => .nothing
          | .found (v :: l) => .found (v :: l)
          | _ => .nothing

/-- The `ValueError` raised at line 913, carrying the working text whose
first 1000 characters form the diagnostic excerpt. -/
structure CleanErr where
  textAtFailure : List Char
deriving DecidableEq

/-- The raised message (lines 910-912). -/
def cleanErrMsg (e : CleanErr) : List Char :=
  "Could not extract valid JSON from Planner response:\n".data ++
  e.textAtFailure.take 1000 ++
  (if 1000 < e.textAtFailure.length then
     "\n... (truncated, total length: ".data ++
       natDigits e.textAtFailure.length ++ " chars)".data
   else [])

/-- Tries 2 through 5 in order; a fault escaping one of them propagates
out of `_clean_json`. -/
def tries2to5 (text : List Char) : TryOut :=
  match try2 text with
  | .found l => .found l
  | .fault => .fault
  | .nothing =>
    match try3 text with
    | .found l => .found l
    | .fault => .fault
    | .nothing =>
      match try4 text with
      | .found l => .found l
      | .fault => .fault
      | .nothing => try5 text

/-- The outcome of `_clean_json`: a returned list, the `ValueError`
raised at line 913, or an uncaught `RecursionError` propagating out of
the function. -/
inductive CleanOut where
  | ok (l : List Json)
  | raise (e : CleanErr)
  | fault

/-- `_clean_json` (lines 721-913). Try 1 catches only
`json.JSONDecodeError` (line 744), so a `RecursionError` from the direct
load, from `_fix_truncated_json`, or from the repaired load (whose
handler at line 754 is equally narrow) propagates out as a fault. -/
def cleanJson (input : List Char) : CleanOut :=
  let text := pyStrip input
  let finish := fun (t : List Char) =>
    match tries2to5 t with
    | .found l => CleanOut.ok l
    | .nothing => CleanOut.raise ⟨t⟩
    | .fault => CleanOut.fault
  match jsonParse text with
  | .ok (.jarr l) => .ok l
  | .ok _ => finish text
  | .error .recursionError => .fault
  | .error (.decodeError e) =>
    if truncLike e then
      match fixTruncatedJson text with
      | none => .fault
      | some text' =>
        match jsonParse text' with
        | .ok (.jarr l) => .ok l
        | .error .recursionError => .fault
        | _ => finish text'
    else finish text

/-! ### `_normalize_test_error` (code_agent.py lines 4458-4539)

Each `re.sub` of the source is compiled to a matcher (recognizing one
match at the head of the input, returning the replacement and the
remainder) run under a global-substitution engine with `re.sub`
scanning semantics: leftmost match, continue after the match end. -/

/-- Global substitution: at each position, apply the matcher or keep the
character. Fuel at least the input length plus one suffices because every
matcher consumes at least one character. -/
def gsubF (m : List Char → Option (List Char × List Char)) :
    Nat → List Char → List Char
  | 0, l => l
  | _ + 1, [] => []
  | fuel + 1, c :: rest =>
    match m (c :: rest) with
    | some (rep, rem) => rep ++ gsubF m fuel rem
    | none => c :: gsubF m fuel rest

/-- Fuel wrapper for `gsubF`. -/
def gsub (m : List Char → Option (List Char × List Char)) (l : List Char) :
    List Char := gsubF m (l.length + 1) l

/-- Position scan: apply a recognizer at each position, returning the first
hit, modelling `re.search`. -/
def searchPos (f : List Char → Option α) : Nat → List Char → Option α
  | 0, _ => none
  | _ + 1, [] => f []
  | fuel + 1, c :: cs =>
    match f (c :: cs) with
    | some a => some a
    | none => searchPos f fuel cs

/-- Matcher for `line \d+` (replaced by the empty string). -/
def lineNumM (cs : List Char) : Option (List Char × List Char) :=
  match matchLit "line ".data cs with
  | some r =>
    match r.takeWhile isDig with
    | [] => none
    | _ :: _ => some ([], r.dropWhile isDig)
  | none => none

/-- Matcher for `File "[^"]+", ` (replaced by the empty string). -/
def fileQuotedM (cs : List Char) : Option (List Char × List Char) :=
  match matchLit ("File ".data ++ [dquote]) cs with
  | some r =>
    match r.takeWhile (· ≠ dquote) with
    | [] => none
    | _ :: _ =>
      match r.dropWhile (· ≠ dquote) with
      | q :: r2 =>
        if q = dquote then
          match matchLit ", ".data r2 with
          | some rem => some ([], rem)
          | none => none
        else none
      | [] => none
  | none => none

/-- Largest prefix length of `run` that ends with `ext` and has at least
one character before `ext`, for the greedy `[^\s]+\.EXT` match. -/
def lastExtEnd (ext : List Char) (run : List Char) : Option Nat :=
  ((List.range (run.length + 1)).filter
    (fun j => ext.length < j ∧ (run.take j).reverse.take ext.length = ext.reverse)).max?

/-- Matcher for `/[^\s]+\.py` and `/[^\s]+\.php` (replaced by the empty
string). -/
def slashExtM (ext : List Char) (cs : List Char) : Option (List Char × List Char) :=
  match cs with
  | c :: rest =>
    if c = '/' then
      let run := rest.takeWhile (fun d => ¬ isPyWs d)
      match lastExtEnd ext run with
      | some j => some ([], rest.drop j)
      | none => none
    else none
  | [] => none

/-- Matcher for `\(\) takes \d+ positional arguments but \d+ were given`. -/
def takesArgsM (cs : List Char) : Option (List Char × List Char) :=
  match matchLit "() takes ".data cs with
  | some r =>
    match r.takeWhile isDig with
    | [] => none
    | _ :: _ =>
      match matchLit " positional arguments but ".data (r.dropWhile isDig) with
      | some r2 =>
        match r2.takeWhile isDig with
        | [] => none
        | _ :: _ =>
          match matchLit " were given".data (r2.dropWhile isDig) with
          | some rem => some ("() takes wrong number of arguments".data, rem)
          | none => none
      | none => none
  | none => none

/-- Matcher for `missing \d+ required positional argument`. -/
def missingSgM (cs : List Char) : Option (List Char × List Char) :=
  match matchLit "missing ".data cs with
  | some r =>
    match r.takeWhile isDig with
    | [] => none
    | _ :: _ =>
      match matchLit " required positional argument".data (r.dropWhile isDig) with
      | some rem => some ("missing required argument".data, rem)
      | none => none
  | none => none

/-- Matcher for `missing \d+ required positional arguments`. -/
def missingPlM (cs : List Char) : Option (List Char × List Char) :=
  match matchLit "missing ".data cs with
  | some r =>
    match r.takeWhile isDig with
    | [] => none
    | _ :: _ =>
      match matchLit " required positional arguments".data (r.dropWhile isDig) with
      | some rem => some ("missing required arguments".data, rem)
      | none => none
  | none => none

/-- Matcher for `/[^\s:]+` (replaced by the empty string; line 4528). -/
def slashRunM (cs : List Char) : Option (List Char × List Char) :=
  match cs with
  | c :: rest =>
    if c = '/' then
      match rest.takeWhile (fun d => ¬ isPyWs d ∧ d ≠ colonChar) with
      | [] => none
      | run => some ([], rest.drop run.length)
    else none
  | [] => none

/-- Case-insensitive token recognizer returning the original-case slice and
the remainder (the pattern token is given in lowercase). -/
def tokCI : List Char → List Char → Option (List Char × List Char)
  | [], cs => some ([], cs)
  | _ :: _, [] => none
  | p :: ps, c :: cs =>
    if c.toLower = p then
      match tokCI ps cs with
      | some (o, r) => some (c :: o, r)
      | none => none
    else none

/-- After `TOKEN:`, the regex tail `\s*(.+)` of the error patterns: skip
whitespace greedily, then capture the rest of the line; if only whitespace
remains, backtrack to the last non-newline whitespace character. -/
def detailAfterColon (r : List Char) : Option (List Char) :=
  match r.dropWhile isPyWs with
  | c :: rest => some ((c :: rest).takeWhile (· ≠ nlChar))
  | [] =>
    let w := r.takeWhile isPyWs
    match (w.reverse.findIdx? (· ≠ nlChar)) with
    | some i => some ((w.drop (w.length - 1 - i)).takeWhile (· ≠ nlChar))
    | none => none

/-- Recognize one error family `（TOK1|TOK2):\s*(.+)` at the head of the
input, returning the original-case type token and the detail group. -/
def famAt (tokens : List (List Char)) (cs : List Char) :
    Option (List Char × List Char) :=
  tokens.firstM (fun t =>
    match tokCI t cs with
    | some (orig, r) =>
      match r with
      | c :: r2 =>
        if c = colonChar then
          (detailAfterColon r2).map (fun d => (orig, d))
        else none
      | [] => none
    | none => none)

/-- The eight error-pattern families of lines 4473-4482, in source order,
with tokens lowercased for the `re.IGNORECASE` search. -/
def errFamilies : List (List (List Char)) :=
  [["modulenotfounderror".data, "importerror".data],
   ["typeerror".data],
   ["attributeerror".data],
   ["valueerror".data],
   ["keyerror".data],
   ["syntaxerror".data],
   ["nameerror".data],
   ["assertionerror".data]]

/-- The pattern loop of lines 4484-4486: first family that matches
anywhere in the message. -/
def findErrPattern (msg : List Char) : Option (List Char × List Char) :=
  errFamilies.firstM (fun fam => searchPos (famAt fam) (msg.length + 1) msg)

/-- Quote class `['"]` of the module/import/attribute regexes. -/
def isQuoteCls (c : Char) : Bool := c = squote ∨ c = dquote

/-- Group `['"]([^'"]+)['"]` : a quoted nonempty name. -/
def quotedName (cs : List Char) : Option (List Char) :=
  match cs with
  | q :: r =>
    if isQuoteCls q then
      match r.takeWhile (fun c => ¬ isQuoteCls c) with
      | [] => none
      | name =>
        match r.dropWhile (fun c => ¬ isQuoteCls c) with
        | _ :: _ => some name
        | [] => none
    else none
  | [] => none

/-- Recognizer for `No module named ['"]([^'"]+)['"]` (case sensitive). -/
def moduleAt (cs : List Char) : Option (List Char) :=
  match matchLit "No module named ".data cs with
  | some r => quotedName r
  | none => none

/-- Recognizer for `cannot import name ['"]([^'"]+)['"]` (IGNORECASE). -/
def importNameAt (cs : List Char) : Option (List Char) :=
  match matchLitCI "cannot import name ".data cs with
  | some r => quotedName r
  | none => none

/-- Recognizer for `['"]([^'"]+)['"] has no attribute ['"]([^'"]+)['"]`
(IGNORECASE). -/
def attrAt (cs : List Char) : Option (List Char × List Char) :=
  match cs with
  | q :: r =>
    if isQuoteCls q then
      match r.takeWhile (fun c => ¬ isQuoteCls c) with
      | [] => none
      | name1 =>
        match r.dropWhile (fun c => ¬ isQuoteCls c) with
        | q2 :: r2 =>
          if isQuoteCls q2 then
            match matchLitCI " has no attribute ".data r2 with
            | some r3 => (quotedName r3).map (fun name2 => (name1, name2))
            | none => none
          else none
        | [] => none
    else none
  | [] => none

/-- Python `str.split()` with no arguments: split on whitespace runs,
dropping empty chunks (fuelled; each round consumes at least one
character). -/
def pySplitWsF : Nat → List Char → List (List Char)
  | 0, _ => []
  | fuel + 1, l =>
    match l.dropWhile isPyWs with
    | [] => []
    | c :: rest =>
      ((c :: rest).takeWhile (fun d => ¬ isPyWs d)) ::
        pySplitWsF fuel ((c :: rest).dropWhile (fun d => ¬ isPyWs d))

/-- Fuel wrapper for `pySplitWsF`. -/
def pySplitWs (l : List Char) : List (List Char) := pySplitWsF (l.length + 1) l

/-- `' '.join(chunks)`. -/
def joinSpace : List (List Char) → List Char
  | [] => []
  | [x] => x
  | x :: y :: rest => x ++ ' ' :: joinSpace (y :: rest)

/-- Python `str.split('\n')` (keeps empty chunks). -/
def splitNl : List Char → List (List Char)
  | [] => [[]]
  | c :: rest =>
    if c = nlChar then [] :: splitNl rest
    else
      match splitNl rest with
      | l :: ls => (c :: l) :: ls
      | [] => [[c]]

/-- `_normalize_test_error` (lines 4458-4539). The `None` argument case of
the Python signature is the empty list here; the call sites guard with
`if last_test_error else None` just as the source does. -/
def normalizeTestError (msg : List Char) : List Char :=
  if msg = [] then []
  else
    match findErrPattern msg with
    | some (etype, detail0) =>
      let d1 := gsub lineNumM detail0
      let d2 := gsub fileQuotedM d1
      let d3 := gsub (slashExtM ".py".data) d2
      let d4 := gsub (slashExtM ".php".data) d3
      let d5 := gsub takesArgsM d4
      let d6 := gsub missingSgM d5
      let d7 := gsub missingPlM d6
      let modBranch :=
        if containsSub "No module named".data d7 then
          (searchPos moduleAt (d7.length + 1) d7).map (fun m =>
            etype ++ ": No module named \x27".data ++ m ++ [squote])
        else none
      match modBranch with
      | some r => r
      | none =>
        let impBranch :=
          if containsSub "cannot import name".data (lowerL d7) then
            (searchPos importNameAt (d7.length + 1) d7).map (fun m =>
              etype ++ ": cannot import name \x27".data ++ m ++ [squote])
          else none
        match impBranch with
        | some r => r
        | none =>
          let attrBranch :=
            if containsSub "has no attribute".data (lowerL d7) then
              (searchPos attrAt (d7.length + 1) d7).map (fun p =>
                etype ++ ": \x27".data ++ p.1 ++
                  "\x27 has no attribute \x27".data ++ p.2 ++ [squote])
            else none
          match attrBranch with
          | some r => r
          | none =>
            let d8 := joinSpace (pySplitWs d7)
            let normalized := etype ++ ':' :: ' ' :: d8.take 150
            gsub slashRunM normalized
    | none =>
      let ls := splitNl msg
      match ls.find? (fun l =>
        containsSub "Error".data l || containsSub "Exception".data l ||
        containsSub "Failed".data l || containsSub "Traceback".data l) with
      | some l => pyStrip (l.take 150)
      | none => pyStrip (msg.take 100)

/-- `_is_environment_error` (lines 3130-3167): substring patterns over the
lowercased message. -/
def environmentPatterns : List String :=
  ["command not found", "permission denied", "no such file or directory",
   "not found", "cannot find", "module not found", "modulenotfounderror",
   "importerror", "no module named", "pytest: not found",
   "python: not found", "python3: not found", "pip: not found",
   "pip3: not found", "syntax error in command", "exit code: 127",
   "exit code: 126", "/bin/sh:"]

/-- `_is_environment_error`: empty messages are not environment errors;
otherwise any pattern contained in the lowercased message qualifies. -/
def isEnvironmentError (msg : List Char) : Bool :=
  if msg = [] then false
  else environmentPatterns.any (fun p => containsSub p.data (lowerL msg))

/-! ### The per-feature retry loop of `CodeAgent.run` (lines 3880-3987)

One feature is processed by a `while not feature_complete` loop. Each
iteration either gets an empty plan (retry without counting), succeeds, or
fails with an error message; the loop state carries the counters of
lines 3893-3900. The outcome of each round (the combined result of
planning, execution and validation) is supplied as input, so the theorems
quantify over all collaborator behaviours. -/

/-- Outcome of one iteration of the per-feature loop. -/
inductive RoundOutcome where
  | emptyPlan
  | success
  | failure (err : List Char)

/-- The loop state of lines 3893-3900. `remediations` logs the arguments of
the `_try_fix_test_environment` calls (line 3952). -/
structure FeatureSt where
  attempt : Nat
  realFailureCount : Nat
  lastTestError : Option (List Char)
  consecutiveSameError : Nat
  environmentErrorDetected : Bool
  remediations : List (List Char)

/-- Initial loop state for a fresh feature (lines 3893-3900). -/
def featureInit : FeatureSt :=
  { attempt := 0, realFailureCount := 0, lastTestError := none,
    consecutiveSameError := 0, environmentErrorDetected := false,
    remediations := [] }

/-- `max_consecutive_same_error` (line 3895). -/
def maxConsecutiveSameError : Nat := 5

/-- Process the failure branch of one round (lines 3943-3981), returning
the next state and whether the circuit breaker fired. -/
def featureFail (st : FeatureSt) (err : List Char) : FeatureSt × Bool :=
  let isEnv := isEnvironmentError err
  let st1 :=
    if isEnv then
      if ¬ st.environmentErrorDetected then
        { st with environmentErrorDetected := true,
                  remediations := st.remediations ++ [err] }
      else
        { st with realFailureCount := st.realFailureCount + 1 }
    else
      { st with realFailureCount := st.realFailureCount + 1,
                environmentErrorDetected := false }
  let normalized := normalizeTestError err
  let normalizedLast :=
    match st1.lastTestError with
    | some e => some (normalizeTestError e)
    | none => none
  let consec :=
    if some normalized = normalizedLast ∧ normalized ≠ [] then
      st1.consecutiveSameError + 1
    else 1
  let st2 := { st1 with consecutiveSameError := consec, lastTestError := some err }
  (st2, maxConsecutiveSameError ≤ consec)

/-- Result of running the loop on a finite list of round outcomes. -/
inductive FeatureResult where
  | completed (rounds : Nat) (st : FeatureSt)
  | abandoned (rounds : Nat) (st : FeatureSt)
  | exhausted (st : FeatureSt)

/-- The per-feature loop (lines 3902-3984) over a list of round outcomes,
counting processed rounds. -/
def featureLoopAux (st : FeatureSt) (rounds : Nat) :
    List RoundOutcome → FeatureResult
  | [] => .exhausted st
  | o :: rest =>
    let st0 := { st with attempt := st.attempt + 1 }
    match o with
    | .emptyPlan => featureLoopAux st0 (rounds + 1) rest
    | .success => .completed (rounds + 1) st0
    | .failure err =>
      match featureFail st0 err with
      | (st1, stop) =>
        if stop then .abandoned (rounds + 1) st1
        else featureLoopAux st1 (rounds + 1) rest

/-- Run the per-feature loop from the fresh state. -/
def featureLoop (outs : List RoundOutcome) : FeatureResult :=
  featureLoopAux featureInit 0 outs

/-! ### The API-failure counter of the validation loop (lines 4000-4030)

The cited span: at the top of each validation round the loop aborts when
`consecutive_api_errors >= max_consecutive_api_errors`; the accuracy
computation then either raises an API error (increment and `continue`) or
succeeds (reset to zero and proceed with the round, whose logic outcome
does not touch the counter). -/

/-- Outcome of one validation round with respect to the oracle service. -/
inductive ApiRound where
  | apiFail
  | okRound (logicFailed : Bool)

/-- `max_consecutive_api_errors` (line 4001). -/
def maxConsecutiveApiErrors : Nat := 5

/-- Result of the validation loop restricted to its abort discipline:
either the loop aborted after starting `rounds` rounds, or the supplied
outcomes ran out with the given counter. -/
inductive ApiResult where
  | aborted (rounds : Nat)
  | exhausted (counter : Nat)

/-- The validation loop's counter discipline (lines 4003-4030) over a list
of per-round outcomes. The abort check runs at the top of each iteration,
including after the last supplied outcome. -/
def apiLoopAux (counter : Nat) (rounds : Nat) : List ApiRound → ApiResult
  | [] =>
    if maxConsecutiveApiErrors ≤ counter then .aborted rounds
    else .exhausted counter
  | r :: rest =>
    if maxConsecutiveApiErrors ≤ counter then .aborted rounds
    else
      match r with
      | .apiFail => apiLoopAux (counter + 1) (rounds + 1) rest
      | .okRound _ => apiLoopAux 0 (rounds + 1) rest

/-- Run the validation loop counter from zero. -/
def apiLoop (outs : List ApiRound) : ApiResult := apiLoopAux 0 0 outs

/-! ### `_should_restart_vs_continue` (lines 4604-4633) -/

/-- Python `round(x, 1)` on a rational (ties differ from the banker's
rounding only at exact .05 boundaries, which none of the theorems touch).
-/
def roundTenth (q : ℚ) : ℚ := (round (q * 10) : ℤ) / 10

/-- `_should_restart_vs_continue`: the accuracy history is the list of
`h.get('accuracy', 0)` values in round order. -/
def shouldRestartVsContinue (accuracy : ℚ) (attempt : Nat)
    (validationHistory : List ℚ) : Bool × String :=
  if accuracy < 30 ∧ 10 ≤ attempt then
    (true, "Accuracy too low. Restarting from scratch.")
  else
    let recent := validationHistory.drop (validationHistory.length - 3)
    if 3 ≤ validationHistory.length ∧ recent.Chain' (· ≥ ·) ∧
        recent.getLastD 0 < 50 then
      (true, "Accuracy decreasing. Restarting from scratch.")
    else
      let last5 := validationHistory.drop (validationHistory.length - 5)
      if 5 ≤ validationHistory.length ∧
          (last5.map roundTenth).dedup.length = 1 then
        (true, "No progress in last 5 attempts. Restarting.")
      else if 50 ≤ accuracy ∨ attempt < 5 then
        (false, "Continuing to fix issues.")
      else
        (false, "Continuing to fix issues (default).")

/-! ### `_calculate_accuracy_percentage` (lines 4541-4602)

The four validators and the requirement verifier are external
collaborators here; their results for the current round are supplied in an
oracle record, and the function also returns the list of collaborator
calls it made, so that the empty-requirements short-circuit can be stated
as making no calls. -/

/-- Results the collaborators would return this round. -/
structure AccOracles where
  unmetReqs : List String
  structOk : Bool
  libOk : Bool
  syncOk : Bool
  completeOk : Bool
  completeFeedback : List Char

/-- The report dictionary; the empty-requirements branch returns the
four-key dictionary of line 4549, the main branch the full report. -/
inductive AccReport where
  | emptyReqs (total met unmet : Nat) (accuracy : ℚ)
  | full (totalRequirements metRequirements unmetRequirements : Nat)
      (structV libV syncV completeV : Bool) (accuracyPercentage : ℚ)

/-- Look up `completeness_percentage` in the parsed completeness feedback
(lines 4578-4585): the feedback must start with `{` and parse as an object
with an integer under that key (the modelled JSON subset has integer
numbers). -/
def llmCompleteness (feedback : List Char) : Option ℚ :=
  match feedback with
  | c :: _ =>
    if c = lbrace then
      match jsonParse feedback with
      | .ok (.jobj ms) =>
        match ms.lookup "completeness_percentage".data with
        | some (.jnum n) => some (n : ℚ)
        | _ => none
      | _ => none
    else none
  | [] => none

/-- `_calculate_accuracy_percentage`: returns the accuracy, the report and
the collaborator calls made. -/
def calculateAccuracyPercentage (requirements : List String)
    (oracles : AccOracles) : ℚ × AccReport × List String :=
  match requirements with
  | [] => (100, .emptyReqs 0 0 0 100, [])
  | _ :: _ =>
    let unmet := oracles.unmetReqs
    let totalChecks : ℚ := (requirements.length : ℚ) + 4
    let passedReqs : ℚ := (requirements.length : ℚ) - (unmet.length : ℚ)
    let passedChecks : ℚ := passedReqs +
      (if oracles.structOk then 1 else 0) + (if oracles.libOk then 1 else 0) +
      (if oracles.syncOk then 1 else 0) + (if oracles.completeOk then 1 else 0)
    let accuracy0 : ℚ := passedChecks / totalChecks * 100
    let accuracy : ℚ :=
      match llmCompleteness oracles.completeFeedback with
      | some llm => accuracy0 * (7 / 10) + llm * (3 / 10)
      | none => accuracy0
    (accuracy,
     .full requirements.length (requirements.length - unmet.length) unmet.length
       oracles.structOk oracles.libOk oracles.syncOk oracles.completeOk accuracy,
     ["_verify_requirements_met", "_validate_code_structure",
      "_validate_library_usage", "_validate_test_code_sync",
      "_verify_code_completeness"])

/-! ### `_execute_feature_plan` (code_agent.py lines 5484-5748)

The sandbox, oracle and VCS collaborators (spec section 6) are supplied as
an uninterpreted oracle record `ExecEnv`; the instance attributes the
function reads and writes are threaded through `AgentSt`. `commits` logs
every `_git_commit` invocation; `env.gitCommitOk` is its return value.
Filesystem reads are modelled as a static snapshot for the one
invocation, and backup/doc-generation writes (which go through `shutil`
and `_generate_feature_docs`) are not tracked. -/

/-- Kernel-computable `str.lower()` on `String`. -/
def sLower (s : String) : String := String.mk (lowerL s.data)

/-- Kernel-computable `str.endswith`. -/
def sEndsWith (s : String) (suffix : String) : Bool :=
  (matchLit suffix.data.reverse s.data.reverse).isSome

/-- Kernel-computable `str.startswith`. -/
def sStartsWith (s : String) (pre : String) : Bool :=
  (matchLit pre.data s.data).isSome

/-- Result of `tools.execute_command`: `(stdout, stderr, return code)`. -/
structure CmdResult where
  stdout : String
  stderr : String
  code : Int

/-- External collaborators and filesystem snapshot for one
`_execute_feature_plan` invocation. -/
structure ExecEnv where
  projectType : String
  outputDir : String
  normalizePath : String → String
  normalizeCommandPaths : String → String
  correctTestCommand : String → String → String
  askExecutor : String → String → String
  fileExists : String → Bool
  execCommand : String → CmdResult
  phpServerOk : Bool
  gitInitOk : Bool
  gitCommitOk : Bool
  testsDirExists : Bool
  testsDirFiles : List String
  pytestAvailable : Bool
  regressionOk : Bool
  regressionOutput : String
  autoGenerateTests : Bool
  srcPhpFiles : List String

/-- The instance state read and written by `_execute_feature_plan`. -/
structure AgentSt where
  featureTestPassed : Bool
  gitRepoInitialized : Bool
  testCounter : Nat
  history : List (String × String × Bool)
  currentFeatureFiles : List String
  commits : List String
  writes : List (String × String)

/-- One action record, with the `dict.get` defaults already applied as at
lines 5492-5494. -/
structure PlanAction where
  action : String
  target : String
  content_instruction : String

/-- Try the test-file regex `(tests?/[^\s]+\.(php|py|js|java|rb|go))` at a
dot position inside the non-whitespace run: alternatives in source order,
returning the match end. -/
def extAtDot (run : List Char) (p : Nat) : Option Nat :=
  if run.get? p = some '.' ∧ 1 ≤ p then
    (["php", "py", "js", "java", "rb", "go"] : List String).firstM
      (fun e => (matchLit e.data (run.drop (p + 1))).map (fun _ => p + 1 + e.data.length))
  else none

/-- Greedy `[^\s]+\.(php|py|js|java|rb|go)`: the rightmost dot position
whose extension matches wins. -/
def extSearch (run : List Char) : Option Nat :=
  match ((List.range run.length).filter (fun p => (extAtDot run p).isSome)).max? with
  | some p => extAtDot run p
  | none => none

/-- Recognize `tests?/[^\s]+\.(php|py|js|java|rb|go)` at the head of the
input (the greedy `s?` prefers the plural form). -/
def testFileAt (cs : List Char) : Option (List Char) :=
  let tryVariant := fun (v : String) =>
    match matchLit v.data cs with
    | some r =>
      let run := r.takeWhile (fun d => ¬ isPyWs d)
      (extSearch run).map (fun j => v.data ++ run.take j)
    | none => none
  match tryVariant "tests/" with
  | some m => some m
  | none => tryVariant "test/"

/-- `re.search` for the test-file regex of line 5584. -/
def testFileSearch (target : String) : Option String :=
  (searchPos testFileAt (target.data.length + 1) target.data).map String.mk

/-- `.replace(".php", ".py")` (line 5506). -/
def phpToPy (s : String) : String :=
  String.mk (gsub (fun cs => (matchLit ".php".data cs).map (fun rem => (".py".data, rem))) s.data)

/-- The keyword test of line 5585. -/
def looksLikeTest (target : String) : Bool :=
  (testFileSearch target).isSome ||
  (["test", "phpunit", "pytest", "unittest"] : List String).any
    (fun kw => containsSub kw.data (lowerL target.data))

/-- Error-line extraction of line 5677. -/
def errorLines (output : String) : List String :=
  ((splitNl output.data).map String.mk).filter (fun l =>
    pyStrip l.data ≠ [] ∧
    (containsSub "Error".data l.data || containsSub "FAILED".data l.data ||
     containsSub "assert".data (lowerL l.data) ||
     containsSub "import".data (lowerL l.data)))

/-- Error summary of line 5678. -/
def errorSummary (output : String) : String :=
  match errorLines output with
  | [] => String.mk (output.data.take 500)
  | l :: ls => String.intercalate "\n" ((l :: ls).take 10)

/-- The test command selection of lines 5665 and 5735. -/
def pickTestCmd (env : ExecEnv) : String :=
  if env.pytestAvailable then "python3 -m pytest tests/ -v"
  else "python3 -m unittest discover -s tests -v"

/-- The `php -l` relative-path computation of lines 5548-5553. -/
def phpCheckPath (env : ExecEnv) (path : String) : String :=
  match matchLit (env.outputDir ++ "/").data path.data with
  | some rest => String.mk rest
  | none =>
    match matchLit "output/".data path.data with
    | some rest => String.mk rest
    | none => path

/-- Process one `write_file` action (lines 5498-5574). -/
def doWriteFile (env : ExecEnv) (st : AgentSt) (a : PlanAction)
    (isFirstFeature : Bool) : Except (AgentSt × String) AgentSt :=
  let path0 := env.normalizePath a.target
  let path :=
    if env.projectType = "PHP" ∧ containsSub "test".data (lowerL path0.data) ∧
        sEndsWith path0 ".php" then
      phpToPy path0
    else path0
  let st := if isFirstFeature ∧ ¬ st.gitRepoInitialized then
      { st with gitRepoInitialized := env.gitInitOk }
    else st
  let content := env.askExecutor a.content_instruction path
  if (pyStrip content.data).length < 10 then
    if env.fileExists path then .ok st
    else .error (st, "Generated content for " ++ a.target ++ " is empty")
  else
    let st := { st with writes := st.writes ++ [(path, content)] }
    let phpCheck : Option String :=
      if sEndsWith path ".php" then
        let r := env.execCommand ("php -l " ++ phpCheckPath env path)
        if r.code ≠ 0 then
          some ("PHP syntax error in " ++ path ++ ":\n" ++ r.stderr)
        else none
      else none
    match phpCheck with
    | some msg => .error (st, msg)
    | none =>
      let st := { st with history := st.history ++ [("write_file", path, true)] }
      let st :=
        if path ∈ st.currentFeatureFiles then st
        else { st with currentFeatureFiles := st.currentFeatureFiles ++ [path] }
      .ok st

/-- Process one `execute_command` action (lines 5576-5632). -/
def doExecuteCommand (env : ExecEnv) (st : AgentSt) (a : PlanAction) :
    Except (AgentSt × String) AgentSt :=
  let target0 := env.normalizeCommandPaths a.target
  let tfMatch := testFileSearch target0
  let isTest := looksLikeTest target0
  if isTest ∧ env.projectType = "PHP" ∧ ¬ env.phpServerOk then
    .error (st, "Failed to start PHP server for testing")
  else
    let target := env.correctTestCommand target0 env.projectType
    let preCheck : Option String :=
      if isTest then
        match tfMatch with
        | some tf =>
          let tfPath := env.outputDir ++ "/" ++ tf
          if ¬ env.fileExists tfPath then
            some ("Test file does not exist: " ++ tfPath ++ ". Cannot execute test.")
          else if sEndsWith tf ".py" then
            let r := env.execCommand ("python3 -m py_compile " ++ tf)
            if r.code ≠ 0 then
              some ("Python syntax error in " ++ tf ++ ":\n" ++ r.stderr)
            else none
          else none
        | none => none
      else none
    match preCheck with
    | some msg => .error (st, msg)
    | none =>
      let r := env.execCommand target
      if isTest then
        let st := { st with testCounter := st.testCounter + 1 }
        if r.code ≠ 0 then
          .error (st, "Test failed: " ++ target ++ "\nSTDOUT: " ++ r.stdout ++
                      "\nSTDERR: " ++ r.stderr)
        else .ok { st with featureTestPassed := true }
      else .ok st

/-- The action loop of lines 5491-5634. Actions whose `action` field is
neither `write_file` nor `execute_command` fall through both branches and
are skipped. -/
def actionLoop (env : ExecEnv) (st : AgentSt) (isFirstFeature : Bool) :
    List PlanAction → Except (AgentSt × String) AgentSt
  | [] => .ok st
  | a :: rest =>
    let actionType := sLower a.action
    let stepResult :=
      if actionType = "write_file" then doWriteFile env st a isFirstFeature
      else if actionType = "execute_command" then doExecuteCommand env st a
      else .ok st
    match stepResult with
    | .error e => .error e
    | .ok st' => actionLoop env st' isFirstFeature rest

/-- The auto-test block of lines 5636-5685. -/
def autoTestBlock (env : ExecEnv) (st : AgentSt) :
    Except (AgentSt × String) AgentSt :=
  if env.testsDirExists ∧ ¬ st.featureTestPassed then
    let testFiles := env.testsDirFiles.filter (fun f =>
      sEndsWith f ".py" ∧
      (sStartsWith f "test_" ∨ containsSub "test".data (lowerL f.data)))
    match testFiles with
    | [] => .ok st
    | _ :: _ =>
      if env.projectType = "PHP" ∧ ¬ env.phpServerOk then
        .error (st, "Failed to start PHP server for testing")
      else
        let r := env.execCommand (pickTestCmd env)
        let st := { st with testCounter := st.testCounter + 1 }
        if r.code ≠ 0 then
          let errorOutput := if r.stderr ≠ "" then r.stderr else r.stdout
          .error (st, "Tests failed:\n" ++ errorSummary errorOutput)
        else .ok { st with featureTestPassed := true }
  else .ok st

/-- The final PHP syntax sweep of lines 5695-5712. -/
def phpFinalCheck (env : ExecEnv) : Option String :=
  if env.projectType = "PHP" then
    (env.srcPhpFiles.filterMap (fun f =>
      let p := "src/" ++ f
      let r := env.execCommand ("php -l " ++ p)
      if r.code ≠ 0 then
        some ("PHP syntax error still present in " ++ p ++ ":\n" ++ r.stderr)
      else none)).head?
  else none

/-- The post-loop phase of lines 5636-5748: auto-run written tests,
regression-test, PHP sweep, commit, auto-generate tests, default failure. -/
def finishPlan (env : ExecEnv) (st : AgentSt) (featureName : String)
    (isFirstFeature : Bool) : (Bool × Option String) × AgentSt :=
  match autoTestBlock env st with
  | .error (st', msg) => ((false, some msg), st')
  | .ok st =>
    if ¬ isFirstFeature ∧ st.featureTestPassed ∧ ¬ env.regressionOk then
      ((false, some ("Regression tests failed: " ++ env.regressionOutput)), st)
    else
      match phpFinalCheck env with
      | some msg => ((false, some msg), st)
      | none =>
        let st :=
          if st.featureTestPassed then
            { st with commits := st.commits ++
                ["Feature: " ++ featureName ++ " - implemented and tested"] }
          else st
        if st.featureTestPassed ∧ env.gitCommitOk then ((true, none), st)
        else
          if ¬ env.testsDirExists ∨ ¬ env.testsDirFiles.any (sEndsWith · ".py") then
            if env.autoGenerateTests then
              let r := env.execCommand (pickTestCmd env)
              if r.code = 0 then ((true, none), { st with featureTestPassed := true })
              else
                let errorOutput := if r.stderr ≠ "" then r.stderr else r.stdout
                ((false, some ("Auto-generated tests failed: " ++
                  String.mk (errorOutput.data.take 500))), st)
            else ((false, some "No test files found and auto-generation failed!"), st)
          else
            ((false, some "Tests were executed but did not pass. Check test output above."), st)

/-- `_execute_feature_plan` (lines 5484-5748): the action loop followed by
the post-loop phase. -/
def executeFeaturePlan (env : ExecEnv) (st : AgentSt) (plan : List PlanAction)
    (featureName : String) (isFirstFeature : Bool) :
    (Bool × Option String) × AgentSt :=
  match actionLoop env st isFirstFeature plan with
  | .error (st', msg) => ((false, some msg), st')
  | .ok st' => finishPlan env st' featureName isFirstFeature

/-- `_generate_final_docs_and_exit` (lines 5790-5799), restricted to its
persistence effect: one further `_git_commit` invocation when the
repository flag is set. -/
def generateFinalDocsCommits (st : AgentSt) : AgentSt :=
  if st.gitRepoInitialized then
    { st with commits := st.commits ++ ["Final documentation and project completion"] }
  else st

/-- Environment for the C9 concrete runs: a Python project with no test
directory, passing commands, and successful test auto-generation. -/
def envC9 : ExecEnv :=
  { projectType := "Python", outputDir := "output",
    normalizePath := id, normalizeCommandPaths := id,
    correctTestCommand := fun t _ => t,
    askExecutor := fun _ _ => "", fileExists := fun _ => false,
    execCommand := fun _ => ⟨"", "", 0⟩,
    phpServerOk := true, gitInitOk := true, gitCommitOk := true,
    testsDirExists := false, testsDirFiles := [],
    pytestAvailable := true, regressionOk := true, regressionOutput := "",
    autoGenerateTests := true, srcPhpFiles := [] }

/-- Fresh agent state for the C9 concrete runs. -/
def stC9 : AgentSt := ⟨false, true, 0, [], [], [], []⟩

/-- Commits of the state inside an action-loop result. -/
def resCommits : Except (AgentSt × String) AgentSt → List String
  | .ok st => st.commits
  | .error (st, _) => st.commits

/-- C2 environment, round one: the feature test command passes but the
regression suite fails. -/
def envC2 : ExecEnv :=
  { projectType := "Python", outputDir := "output",
    normalizePath := id, normalizeCommandPaths := id,
    correctTestCommand := fun t _ => t,
    askExecutor := fun _ _ => "", fileExists := fun _ => true,
    execCommand := fun _ => ⟨"", "", 0⟩,
    phpServerOk := true, gitInitOk := true, gitCommitOk := true,
    testsDirExists := true, testsDirFiles := ["test_x.py"],
    pytestAvailable := true, regressionOk := false, regressionOutput := "boom",
    autoGenerateTests := true, srcPhpFiles := [] }

/-- C2 environment, round two: the regression suite now passes. -/
def envC2b : ExecEnv := { envC2 with regressionOk := true }

/-- Fresh agent state entering the feature. -/
def stC2 : AgentSt := ⟨false, true, 0, [], [], [], []⟩

/-- Round-one plan: run the feature's test file. -/
def planC2 : List PlanAction :=
  [⟨"execute_command", "python3 -m pytest tests/test_x.py -v", ""⟩]

/-- Mid-feature state with the tests-passed flag surviving from an earlier
round (reachable per the counterexample). -/
def stC2mid : AgentSt := ⟨true, true, 1, [], [], [], []⟩

/-- Whether a validation round failed at the oracle service. -/
def isApiFail : ApiRound → Bool
  | .apiFail => true
  | .okRound _ => false

/-- Length of the trailing run of API failures. -/
def suffixFailRun (l : List ApiRound) : Nat :=
  (l.reverse.takeWhile isApiFail).length

/-- Five consecutive API failures end at position `k`. -/
def WindowFail (outs : List ApiRound) (k : Nat) : Prop :=
  5 ≤ k ∧ k ≤ outs.length ∧
  ((outs.take k).drop (k - 5)) = List.replicate 5 .apiFail

/-- Round index at which a feature was abandoned, if any. -/
def loopAbandonedAt : FeatureResult → Option Nat
  | .abandoned r _ => some r
  | _ => none

/-! ### C6: environment-error remediation (lines 3944-3958) -/

/-- Remediation log predicted by the code: a failure is remediated exactly
when it classifies as an environment error and the single
`environment_error_detected` flag is currently false; an environment error
sets the flag, any other failure clears it (lines 3947-3958). -/
def envStreakRemediations : Bool → List (List Char) → List (List Char)
  | _, [] => []
  | flag, e :: rest =>
    if isEnvironmentError e then
      if flag then envStreakRemediations true rest
      else e :: envStreakRemediations true rest
    else envStreakRemediations false rest

/-- Real-failure count predicted by the code: every failure counts except a
remediated one (lines 3947-3958). -/
def envRealFailures : Bool → List (List Char) → Nat
  | _, [] => 0
  | flag, e :: rest =>
    if isEnvironmentError e then
      if flag then 1 + envRealFailures true rest
      else envRealFailures true rest
    else 1 + envRealFailures false rest

/-- Remediation log as the claim words it: one remediation per distinct
environment signature, at its first occurrence. -/
def distinctEnvRemediationsAux (seen : List (List Char)) :
    List (List Char) → List (List Char)
  | [] => []
  | e :: rest =>
    if isEnvironmentError e then
      if normalizeTestError e ∈ seen then distinctEnvRemediationsAux seen rest
      else e :: distinctEnvRemediationsAux (normalizeTestError e :: seen) rest
    else distinctEnvRemediationsAux seen rest

/-- `distinctEnvRemediationsAux` from an empty set of seen signatures. -/
def distinctEnvRemediations (es : List (List Char)) : List (List Char) :=
  distinctEnvRemediationsAux [] es

/-- A concrete environment error (matches pattern "modulenotfounderror"). -/
def envErrA : List Char :=
  "ModuleNotFoundError: No module named \x27requests\x27".data

/-- A concrete environment error of a different signature (matches pattern
"pytest: not found"). -/
def envErrB : List Char := "bash: pytest: not found".data

/-- A concrete non-environment (logic) error. -/
def logicErrC : List Char := "AssertionError: assert 1 == 2".data

/-! ### C4: parser totality and the diagnostic excerpt (lines 721-913) -/

/-- The header of the raised recovery-failure message (line 910). -/
def cleanErrHeader : List Char :=
  "Could not extract valid JSON from Planner response:\n".data

/-- Characters that the string scanner consumes literally. -/
def PlainChar (c : Char) : Prop := c ≠ dquote ∧ c ≠ bslash ∧ 32 ≤ c.toNat

instance (c : Char) : Decidable (PlainChar c) := by
  unfold PlainChar; infer_instance

/-! ### C3: scanner lemmas -/

/-- A character the scanner passes through outside strings. -/
def ScanPlain (c : Char) : Prop :=
  c ≠ dquote ∧ c ≠ bslash ∧ c ≠ lbrace ∧ c ≠ rbrace

instance (c : Char) : Decidable (ScanPlain c) := by
  unfold ScanPlain; infer_instance

/-! ## Theorems -/

/-- C10: when the extracted requirement list is empty,
`_calculate_accuracy_percentage` returns exactly 100.0 together with the
report of zero total requirements, and makes no call to the requirement
verifier or any of the four structural validators (the returned call list
is empty and the result does not depend on the collaborator record). -/
theorem c10_empty_requirements_full_accuracy (oracles : AccOracles) :
    calculateAccuracyPercentage [] oracles =
      (100, AccReport.emptyReqs 0 0 0 100, []) := rfl

/-- C7 counterexample: with accuracy 80 at attempt 5 and the last five
recorded accuracies all equal to 80, `_should_restart_vs_continue` already
returns a restart recommendation, although accuracy is not below 5 and
fewer than 15 rounds have run. -/
theorem c7_counterexample :
    (shouldRestartVsContinue 80 5 [80, 80, 80, 80, 80]).1 = true ∧
    ¬ ((80 : ℚ) < 5) ∧ (5 : Nat) < 15 := by
  refine ⟨?_, by norm_num, by norm_num⟩
  unfold shouldRestartVsContinue
  norm_num [List.dedup_cons_of_mem, List.Chain']

/-- C7 amended: whenever the last five recorded accuracies agree after
rounding to one decimal place, `_should_restart_vs_continue` returns a
restart recommendation, regardless of the accuracy level and the attempt
count; the claimed below-5-percent-after-15-rounds escalation is not a
precondition of the recommendation. -/
theorem c7_stagnation_recommends_restart (accuracy : ℚ) (attempt : Nat)
    (hist : List ℚ) (h5 : 5 ≤ hist.length)
    (heq : ((hist.drop (hist.length - 5)).map roundTenth).dedup.length = 1) :
    (shouldRestartVsContinue accuracy attempt hist).1 = true := by
  simp only [shouldRestartVsContinue]
  split_ifs with h1 h2 h3 h4
  · rfl
  · rfl
  · rfl
  · exact absurd ⟨h5, heq⟩ h3
  · exact absurd ⟨h5, heq⟩ h3

/-- C7 witness: the amended theorem applied to the stuck history of five
80-percent rounds at attempt 5. -/
theorem c7_stagnation_witness :
    5 ≤ ([80, 80, 80, 80, 80] : List ℚ).length ∧
    (shouldRestartVsContinue 80 5 [80, 80, 80, 80, 80]).1 = true :=
  ⟨by norm_num,
   c7_stagnation_recommends_restart 80 5 [80, 80, 80, 80, 80] (by norm_num)
     (by norm_num [List.dedup_cons_of_mem])⟩

/-- C9 amended: an action record whose kind is neither `write_file` nor
`execute_command` is silently skipped by `_execute_feature_plan`: the
plan executes exactly as if the record were absent (no rejection, no
history entry, no side effect). This covers `read_file` as well, which
has no handler in the executor. -/
theorem c9_unknown_kind_skipped (env : ExecEnv) (st : AgentSt)
    (plan : List PlanAction) (a : PlanAction) (fn : String) (isFirst : Bool)
    (h1 : sLower a.action ≠ "write_file")
    (h2 : sLower a.action ≠ "execute_command") :
    executeFeaturePlan env st (a :: plan) fn isFirst =
      executeFeaturePlan env st plan fn isFirst := by
  unfold executeFeaturePlan
  have : actionLoop env st isFirst (a :: plan) = actionLoop env st isFirst plan := by
    simp only [actionLoop, if_neg h1, if_neg h2]
  rw [this]

/-- C9 counterexample: a plan containing a record of unrecognized kind
`end_task` is not rejected — execution succeeds, touches no history, and
returns exactly what the plan without the record returns. -/
theorem c9_counterexample :
    (executeFeaturePlan envC9 stC9 [⟨"end_task", "t1", "i1"⟩] "F" true).1 =
      (true, none) ∧
    (executeFeaturePlan envC9 stC9 [⟨"end_task", "t1", "i1"⟩] "F" true).2.history = [] ∧
    executeFeaturePlan envC9 stC9 [⟨"end_task", "t1", "i1"⟩] "F" true =
      executeFeaturePlan envC9 stC9 [] "F" true :=
  ⟨by rfl, by rfl, by rfl⟩

/-- C9 witness: the amended theorem applied to a `read_file` record. -/
theorem c9_skip_witness :
    sLower "read_file" ≠ "write_file" ∧
    sLower "read_file" ≠ "execute_command" ∧
    executeFeaturePlan envC9 stC9 [⟨"read_file", "a.py", "look"⟩] "F" true =
      executeFeaturePlan envC9 stC9 [] "F" true :=
  ⟨by decide, by decide,
   c9_unknown_kind_skipped envC9 stC9 [] ⟨"read_file", "a.py", "look"⟩ "F" true
     (by decide) (by decide)⟩

/-- `resCommits` on a success result. -/
theorem resCommits_ok (st : AgentSt) : resCommits (.ok st) = st.commits := rfl

/-- `resCommits` on an early-return result. -/
theorem resCommits_error (st : AgentSt) (m : String) :
    resCommits (.error (st, m)) = st.commits := rfl

/-- `write_file` actions never invoke the persistence collaborator. -/
theorem doWriteFile_commits (env : ExecEnv) (st : AgentSt) (a : PlanAction)
    (isFirst : Bool) : resCommits (doWriteFile env st a isFirst) = st.commits := by
  unfold doWriteFile
  dsimp only
  repeat' split
  all_goals simp only [resCommits_ok, resCommits_error]

/-- `execute_command` actions never invoke the persistence collaborator. -/
theorem doExecuteCommand_commits (env : ExecEnv) (st : AgentSt)
    (a : PlanAction) : resCommits (doExecuteCommand env st a) = st.commits := by
  unfold doExecuteCommand
  dsimp only
  repeat' split
  all_goals simp only [resCommits_ok, resCommits_error]

/-- The action loop of `_execute_feature_plan` never invokes the
persistence collaborator. -/
theorem actionLoop_commits (env : ExecEnv) (isFirst : Bool) :
    ∀ (plan : List PlanAction) (st : AgentSt),
      resCommits (actionLoop env st isFirst plan) = st.commits := by
  intro plan
  induction plan with
  | nil => intro st; rfl
  | cons a rest ih =>
    intro st
    unfold actionLoop
    by_cases h1 : sLower a.action = "write_file"
    · simp only [if_pos h1]
      have := doWriteFile_commits env st a isFirst
      cases hw : doWriteFile env st a isFirst with
      | error e => simp [hw, resCommits] at this ⊢; cases e; simp_all [resCommits]
      | ok st' =>
        simp [hw, resCommits] at this
        simpa [this] using ih st'
    · by_cases h2 : sLower a.action = "execute_command"
      · simp only [if_neg h1, if_pos h2]
        have := doExecuteCommand_commits env st a
        cases hw : doExecuteCommand env st a with
        | error e => simp [hw, resCommits] at this ⊢; cases e; simp_all [resCommits]
        | ok st' =>
          simp [hw, resCommits] at this
          simpa [this] using ih st'
      · simp only [if_neg h1, if_neg h2]
        exact ih st

/-- The auto-test block never invokes the persistence collaborator. -/
theorem autoTestBlock_commits (env : ExecEnv) (st : AgentSt) :
    resCommits (autoTestBlock env st) = st.commits := by
  unfold autoTestBlock
  dsimp only
  repeat' split
  all_goals simp only [resCommits_ok, resCommits_error]

/-- If the post-loop phase invoked the persistence collaborator, the
tests-passed flag was set and, for a non-first feature, the regression
suite succeeded in this round. -/
theorem finishPlan_commits (env : ExecEnv) (st : AgentSt) (fn : String)
    (isFirst : Bool)
    (hne : (finishPlan env st fn isFirst).2.commits ≠ st.commits) :
    (finishPlan env st fn isFirst).2.commits =
      st.commits ++ ["Feature: " ++ fn ++ " - implemented and tested"] ∧
    (finishPlan env st fn isFirst).2.featureTestPassed = true ∧
    (isFirst = false → env.regressionOk = true) := by
  have hab := autoTestBlock_commits env st
  unfold finishPlan at hne ⊢
  cases h : autoTestBlock env st with
  | error e =>
    obtain ⟨st', msg⟩ := e
    rw [h] at hab
    try rw [h] at hne
    simp only [resCommits_error] at hab
    simp [hab] at hne
  | ok st₁ =>
    rw [h] at hab
    try rw [h] at hne
    try rw [h]
    simp only [resCommits_ok] at hab
    revert hne
    dsimp only
    repeat' split
    all_goals intro hne
    all_goals simp_all

/-- C2 amended: during `_execute_feature_plan`, the persistence
collaborator is invoked only in the post-loop commit phase, which requires
the tests-passed flag (a flag that may survive from an earlier round of
the same feature) and, for a non-first feature, a successful regression
run in the same round; additionally, `_generate_final_docs_and_exit`
invokes one further commit at session end when the repository flag is
set. -/
theorem c2_commit_gating (env : ExecEnv) (st : AgentSt) (plan : List PlanAction)
    (fn : String) (isFirst : Bool)
    (hne : (executeFeaturePlan env st plan fn isFirst).2.commits ≠ st.commits) :
    ((executeFeaturePlan env st plan fn isFirst).2.commits =
      st.commits ++ ["Feature: " ++ fn ++ " - implemented and tested"] ∧
    (executeFeaturePlan env st plan fn isFirst).2.featureTestPassed = true ∧
    (isFirst = false → env.regressionOk = true)) ∧
    (∀ st₀ : AgentSt, (generateFinalDocsCommits st₀).commits =
        st₀.commits ++ (if st₀.gitRepoInitialized then
          ["Final documentation and project completion"] else [])) := by
  have hal := actionLoop_commits env isFirst plan st
  refine ⟨?_, ?_⟩
  · unfold executeFeaturePlan at hne ⊢
    cases h : actionLoop env st isFirst plan with
    | error e =>
      obtain ⟨st', msg⟩ := e
      rw [h] at hal
      try rw [h] at hne
      simp only [resCommits_error] at hal
      simp [hal] at hne
    | ok st₁ =>
      rw [h] at hal
      try rw [h] at hne
      try rw [h]
      simp only [resCommits_ok] at hal
      simp only at hne ⊢
      rw [← hal] at hne ⊢
      exact finishPlan_commits env st₁ fn isFirst hne
  · intro st₀
    unfold generateFinalDocsCommits
    split_ifs <;> simp

/-- C2 counterexample: in round one the feature's own test passes but the
regression suite fails, so the round fails while leaving the
tests-passed flag set; in round two, with an empty plan, no test at all is
executed (the test counter does not move) and yet the commit fires. The
commit therefore does not require the feature's own tests to have passed
in the same round. -/
theorem c2_counterexample :
    (executeFeaturePlan envC2 stC2 planC2 "F2" false).1.1 = false ∧
    (executeFeaturePlan envC2 stC2 planC2 "F2" false).2.featureTestPassed = true ∧
    (executeFeaturePlan envC2 stC2 planC2 "F2" false).2.commits = [] ∧
    (executeFeaturePlan envC2 stC2 planC2 "F2" false).2.testCounter = 1 ∧
    (executeFeaturePlan envC2b (executeFeaturePlan envC2 stC2 planC2 "F2" false).2
        [] "F2" false).1.1 = true ∧
    (executeFeaturePlan envC2b (executeFeaturePlan envC2 stC2 planC2 "F2" false).2
        [] "F2" false).2.commits = ["Feature: F2 - implemented and tested"] ∧
    (executeFeaturePlan envC2b (executeFeaturePlan envC2 stC2 planC2 "F2" false).2
        [] "F2" false).2.testCounter = 1 :=
  ⟨by rfl, by rfl, by rfl, by rfl, by rfl, by rfl, by rfl⟩

/-- C2 witness: the gating theorem applied to the committing round. -/
theorem c2_commit_witness :
    (executeFeaturePlan envC2b stC2mid [] "F2" false).2.commits ≠ stC2mid.commits ∧
    ((executeFeaturePlan envC2b stC2mid [] "F2" false).2.commits =
      stC2mid.commits ++ ["Feature: F2 - implemented and tested"] ∧
    (executeFeaturePlan envC2b stC2mid [] "F2" false).2.featureTestPassed = true ∧
    (false = false → envC2b.regressionOk = true)) :=
  ⟨by decide,
   by
     have h := c2_commit_gating envC2b stC2mid [] "F2" false (by decide)
     exact h.1⟩

/-- The take-while prefix is no longer than the list. -/
theorem lengthTakeWhileLe {α : Type} (p : α → Bool) (l : List α) :
    (l.takeWhile p).length ≤ l.length := by
  induction l with
  | nil => simp [List.takeWhile]
  | cons x xs ih =>
    by_cases h : p x <;> simp [List.takeWhile, h] <;> omega

/-- A trailing-failure take-while run is literally a run of `apiFail`. -/
theorem takeWhile_apiFail_replicate (xs : List ApiRound) :
    xs.takeWhile isApiFail =
      List.replicate (xs.takeWhile isApiFail).length ApiRound.apiFail := by
  induction xs with
  | nil => rfl
  | cons x rest ih =>
    cases x with
    | apiFail => simpa [List.takeWhile, isApiFail, List.replicate] using ih
    | okRound b => simp [List.takeWhile, isApiFail]

/-- Appending an API failure extends the trailing run by one. -/
theorem suffixFailRun_append_fail (l : List ApiRound) :
    suffixFailRun (l ++ [.apiFail]) = suffixFailRun l + 1 := by
  simp [suffixFailRun, List.takeWhile, isApiFail]

/-- Appending a successful round clears the trailing run. -/
theorem suffixFailRun_append_ok (l : List ApiRound) (b : Bool) :
    suffixFailRun (l ++ [.okRound b]) = 0 := by
  simp [suffixFailRun, List.takeWhile, isApiFail]

/-- A trailing run of at least five failures yields a failure window at the
end of the list. -/
theorem window_of_suffixFailRun (l : List ApiRound) (h : 5 ≤ suffixFailRun l) :
    5 ≤ l.length ∧ l.drop (l.length - 5) = List.replicate 5 .apiFail := by
  have hlen : 5 ≤ l.length := by
    have := lengthTakeWhileLe isApiFail l.reverse
    simp only [suffixFailRun] at h
    simpa using le_trans h (by simpa using this)
  refine ⟨hlen, ?_⟩
  have htw := takeWhile_apiFail_replicate l.reverse
  have hsplit := List.takeWhile_append_dropWhile (p := isApiFail) (l := l.reverse)
  have htake5 : l.reverse.take 5 = List.replicate 5 ApiRound.apiFail := by
    calc l.reverse.take 5
        = ((l.reverse.takeWhile isApiFail) ++ (l.reverse.dropWhile isApiFail)).take 5 := by
          rw [hsplit]
      _ = (l.reverse.takeWhile isApiFail).take 5 := by
          rw [List.take_append_of_le_length (by simpa [suffixFailRun] using h)]
      _ = (List.replicate (l.reverse.takeWhile isApiFail).length ApiRound.apiFail).take 5 := by
          rw [← htw]
      _ = List.replicate 5 ApiRound.apiFail := by
          rw [List.take_replicate]
          congr 1
          simpa [suffixFailRun] using h
  have hrt : l.drop (l.length - 5) = (l.reverse.take 5).reverse := by
    rw [List.take_reverse, List.reverse_reverse]
  rw [hrt, htake5]
  simp

/-- A failure window at the end of the list forces a trailing run of at
least five failures. -/
theorem suffixFailRun_of_window (l : List ApiRound) (hlen : 5 ≤ l.length)
    (h : l.drop (l.length - 5) = List.replicate 5 .apiFail) :
    5 ≤ suffixFailRun l := by
  have htake5 : l.reverse.take 5 = List.replicate 5 ApiRound.apiFail := by
    rw [List.take_reverse, h]
    simp
  have key : ∀ (n : Nat) (xs : List ApiRound),
      xs.take n = List.replicate n ApiRound.apiFail →
      n ≤ (xs.takeWhile isApiFail).length := by
    intro n
    induction n with
    | zero => intro xs _; omega
    | succ m ih =>
      intro xs hx
      cases xs with
      | nil => simp at hx
      | cons y ys =>
        rw [List.take_succ_cons, List.replicate_succ] at hx
        obtain ⟨hy, hys⟩ := List.cons.inj hx
        subst hy
        have := ih ys hys
        simp [List.takeWhile, isApiFail]
        omega
  simpa [suffixFailRun] using key 5 l.reverse htake5

/-- No-window exhaustion lemma: starting from a virtual prefix whose
trailing failure run is short, the validation loop runs all supplied
outcomes when no five-failure window exists. -/
theorem apiLoop_no_window (rest : List ApiRound) :
    ∀ pre : List ApiRound, suffixFailRun pre < 5 →
    (∀ k, ¬ WindowFail (pre ++ rest) k) →
    apiLoopAux (suffixFailRun pre) pre.length rest =
      .exhausted (suffixFailRun (pre ++ rest)) := by
  induction rest with
  | nil =>
    intro pre hc _
    simp [apiLoopAux, maxConsecutiveApiErrors, Nat.not_le.mpr hc, if_neg]
  | cons r rest ih =>
    intro pre hc hw
    cases r with
    | apiFail =>
      have hstep : suffixFailRun (pre ++ [ApiRound.apiFail]) = suffixFailRun pre + 1 :=
        suffixFailRun_append_fail pre
      have hc' : suffixFailRun (pre ++ [ApiRound.apiFail]) < 5 := by
        rw [hstep]
        rcases Nat.lt_or_ge (suffixFailRun pre + 1) 5 with h | h
        · exact h
        · exfalso
          have h5 : suffixFailRun (pre ++ [ApiRound.apiFail]) = 5 := by omega
          have hwin := window_of_suffixFailRun (pre ++ [ApiRound.apiFail]) (le_of_eq h5.symm)
          apply hw (pre.length + 1)
          refine ⟨by simpa using hwin.1, by simp, ?_⟩
          have htk : (pre ++ ApiRound.apiFail :: rest).take (pre.length + 1) =
              pre ++ [ApiRound.apiFail] := by
            rw [List.take_append_eq_append_take]
            simp
          rw [htk]
          have := hwin.2
          simpa using this
      have heq : apiLoopAux (suffixFailRun pre) pre.length (ApiRound.apiFail :: rest) =
          apiLoopAux (suffixFailRun pre + 1) (pre.length + 1) rest := by
        simp [apiLoopAux, maxConsecutiveApiErrors, Nat.not_le.mpr hc]
      rw [heq, ← hstep, show pre.length + 1 = (pre ++ [ApiRound.apiFail]).length by simp]
      rw [ih (pre ++ [ApiRound.apiFail]) hc' (by simpa using hw)]
      simp
    | okRound b =>
      have hstep : suffixFailRun (pre ++ [ApiRound.okRound b]) = 0 :=
        suffixFailRun_append_ok pre b
      have heq : apiLoopAux (suffixFailRun pre) pre.length (ApiRound.okRound b :: rest) =
          apiLoopAux 0 (pre.length + 1) rest := by
        simp [apiLoopAux, maxConsecutiveApiErrors, Nat.not_le.mpr hc]
      rw [heq, ← hstep, show pre.length + 1 = (pre ++ [ApiRound.okRound b]).length by simp]
      rw [ih (pre ++ [ApiRound.okRound b]) (by rw [hstep]; omega) (by simpa using hw)]
      simp

/-- Abort localization lemma: if the validation loop aborts, the abort
point closes the first five-failure window. -/
theorem apiLoop_abort_window (rest : List ApiRound) :
    ∀ (pre : List ApiRound) (k' : Nat), suffixFailRun pre < 5 →
    (∀ j, j ≤ pre.length → ¬ WindowFail (pre ++ rest) j) →
    apiLoopAux (suffixFailRun pre) pre.length rest = .aborted k' →
    WindowFail (pre ++ rest) k' ∧ ∀ j, j < k' → ¬ WindowFail (pre ++ rest) j := by
  induction rest with
  | nil =>
    intro pre k' hc _ habort
    simp [apiLoopAux, maxConsecutiveApiErrors, Nat.not_le.mpr hc] at habort
  | cons r rest ih =>
    intro pre k' hc hpre habort
    cases r with
    | apiFail =>
      have hstep : suffixFailRun (pre ++ [ApiRound.apiFail]) = suffixFailRun pre + 1 :=
        suffixFailRun_append_fail pre
      have habort' : apiLoopAux (suffixFailRun pre + 1) (pre.length + 1) rest =
          .aborted k' := by
        simpa [apiLoopAux, maxConsecutiveApiErrors, Nat.not_le.mpr hc] using habort
      have htk : (pre ++ ApiRound.apiFail :: rest).take (pre.length + 1) =
          pre ++ [ApiRound.apiFail] := by
        rw [List.take_append_eq_append_take]
        simp
      by_cases h5 : suffixFailRun pre + 1 = 5
      · have hk : k' = pre.length + 1 := by
          cases rest with
          | nil =>
            simp [apiLoopAux, maxConsecutiveApiErrors, h5] at habort'
            omega
          | cons r2 rest2 =>
            simp [apiLoopAux, maxConsecutiveApiErrors, h5] at habort'
            omega
        subst hk
        have hrun5 : 5 ≤ suffixFailRun (pre ++ [ApiRound.apiFail]) := by omega
        have hwin := window_of_suffixFailRun (pre ++ [ApiRound.apiFail]) hrun5
        constructor
        · refine ⟨by simpa using hwin.1, by simp, ?_⟩
          rw [htk]
          simpa using hwin.2
        · intro j hj
          exact hpre j (by omega)
      · have hc' : suffixFailRun (pre ++ [ApiRound.apiFail]) < 5 := by omega
        have hpre' : ∀ j, j ≤ (pre ++ [ApiRound.apiFail]).length →
            ¬ WindowFail ((pre ++ [ApiRound.apiFail]) ++ rest) j := by
          intro j hj
          rcases Nat.lt_or_ge j (pre.length + 1) with hlt | hge
          · have := hpre j (by omega)
            simpa using this
          · have hj' : j = pre.length + 1 := by simpa using le_antisymm (by simpa using hj) hge
            subst hj'
            intro hwin
            obtain ⟨hw5, hwlen, hweq⟩ := hwin
            rw [show (pre ++ [ApiRound.apiFail]) ++ rest = pre ++ ApiRound.apiFail :: rest by simp,
               htk] at hweq
            have := suffixFailRun_of_window (pre ++ [ApiRound.apiFail])
              (by simpa using hw5) (by simpa using hweq)
            omega
        have := ih (pre ++ [ApiRound.apiFail]) k' hc' hpre'
          (by simpa [hstep] using habort')
        simpa using this
    | okRound b =>
      have hstep : suffixFailRun (pre ++ [ApiRound.okRound b]) = 0 :=
        suffixFailRun_append_ok pre b
      have habort' : apiLoopAux 0 (pre.length + 1) rest = .aborted k' := by
        simpa [apiLoopAux, maxConsecutiveApiErrors, Nat.not_le.mpr hc] using habort
      have htk : (pre ++ ApiRound.okRound b :: rest).take (pre.length + 1) =
          pre ++ [ApiRound.okRound b] := by
        rw [List.take_append_eq_append_take]
        simp
      have hpre' : ∀ j, j ≤ (pre ++ [ApiRound.okRound b]).length →
          ¬ WindowFail ((pre ++ [ApiRound.okRound b]) ++ rest) j := by
        intro j hj
        rcases Nat.lt_or_ge j (pre.length + 1) with hlt | hge
        · have := hpre j (by omega)
          simpa using this
        · have hj' : j = pre.length + 1 := by simpa using le_antisymm (by simpa using hj) hge
          subst hj'
          intro hwin
          obtain ⟨hw5, hwlen, hweq⟩ := hwin
          rw [show (pre ++ [ApiRound.okRound b]) ++ rest = pre ++ ApiRound.okRound b :: rest by simp,
             htk] at hweq
          have := suffixFailRun_of_window (pre ++ [ApiRound.okRound b])
            (by simpa using hw5) (by simpa using hweq)
          omega
      have := ih (pre ++ [ApiRound.okRound b]) k' (by omega) hpre'
        (by simpa [hstep] using habort')
      simpa using this

/-- C8: in the validation loop of `CodeAgent.run` (lines 4000-4030), the
consecutive API-failure counter ignores logic failures (a round whose
oracle call succeeded leaves the same behaviour whether or not its logic
checks failed), the loop aborts exactly when a window of 5 consecutive
API failures first completes — never earlier — and without such a window
it never aborts, ending with the counter equal to the trailing failure
run. -/
theorem c8_api_failure_abort :
    (∀ (outs : List ApiRound) (k : Nat), apiLoop outs = .aborted k →
      WindowFail outs k ∧ ∀ j, j < k → ¬ WindowFail outs j) ∧
    (∀ outs : List ApiRound, (∀ k, ¬ WindowFail outs k) →
      apiLoop outs = .exhausted (suffixFailRun outs)) ∧
    (∀ (c k : Nat) (b₁ b₂ : Bool) (rest : List ApiRound),
      apiLoopAux c k (.okRound b₁ :: rest) = apiLoopAux c k (.okRound b₂ :: rest)) := by
  refine ⟨?_, ?_, ?_⟩
  · intro outs k habort
    have h0 : suffixFailRun ([] : List ApiRound) = 0 := rfl
    have := apiLoop_abort_window outs [] k (by rw [h0]; omega)
      (by
        intro j hj
        have hj0 : j = 0 := by simpa using hj
        subst hj0
        intro hwin
        obtain ⟨hw5, _, _⟩ := hwin
        omega)
      (by simpa [h0] using habort)
    simpa using this
  · intro outs hnw
    have h0 : suffixFailRun ([] : List ApiRound) = 0 := rfl
    have := apiLoop_no_window outs [] (by rw [h0]; omega) (by simpa using hnw)
    simpa [apiLoop, h0] using this
  · intro c k b₁ b₂ rest
    simp [apiLoopAux]

/-- C8 witness: five straight API failures abort the loop exactly at round
5, and no window closes before round 5. -/
theorem c8_api_failure_witness :
    apiLoop (List.replicate 5 .apiFail) = .aborted 5 ∧
    WindowFail (List.replicate 5 .apiFail) 5 ∧
    ¬ WindowFail (List.replicate 5 .apiFail) 4 :=
  ⟨by rfl,
   (c8_api_failure_abort.1 (List.replicate 5 .apiFail) 5 (by rfl)).1,
   (c8_api_failure_abort.1 (List.replicate 5 .apiFail) 5 (by rfl)).2 4 (by omega)⟩

/-- `featureFail` records the raw error as the new last test error. -/
theorem featureFail_lastTestError (st : FeatureSt) (e : List Char) :
    (featureFail st e).1.lastTestError = some e := by
  unfold featureFail
  dsimp only

/-- The consecutive-error counter update of lines 3960-3971. -/
theorem featureFail_consec (st : FeatureSt) (e : List Char) :
    (featureFail st e).1.consecutiveSameError =
      if (st.lastTestError.map normalizeTestError = some (normalizeTestError e)) ∧
          normalizeTestError e ≠ [] then
        st.consecutiveSameError + 1
      else 1 := by
  unfold featureFail
  dsimp only
  cases h : st.lastTestError <;> split_ifs <;> simp_all

/-- The circuit breaker fires exactly when the updated counter reaches 5. -/
theorem featureFail_stop (st : FeatureSt) (e : List Char) :
    (featureFail st e).2 = true ↔
      5 ≤ (featureFail st e).1.consecutiveSameError := by
  unfold featureFail
  dsimp only
  split_ifs <;> simp [maxConsecutiveSameError]

/-- Running the loop over concatenated outcome lists, given that the first
part exhausts without completing or abandoning. -/
theorem featureLoopAux_append (l1 l2 : List RoundOutcome) :
    ∀ (st st' : FeatureSt) (rounds : Nat),
    featureLoopAux st rounds l1 = .exhausted st' →
    featureLoopAux st rounds (l1 ++ l2) =
      featureLoopAux st' (rounds + l1.length) l2 := by
  induction l1 with
  | nil =>
    intro st st' rounds h
    cases h
    simp [featureLoopAux]
  | cons o rest ih =>
    intro st st' rounds h
    cases o with
    | emptyPlan =>
      simp only [featureLoopAux, List.append_eq] at h ⊢
      rw [ih _ _ _ h]
      simp [Nat.add_assoc, Nat.add_comm 1 rest.length]
    | success => simp [featureLoopAux] at h
    | failure e =>
      simp only [featureLoopAux, List.append_eq] at h ⊢
      by_cases hstop : (featureFail { st with attempt := st.attempt + 1 } e).2 = true
      · simp [hstop] at h
      · simp only [Bool.not_eq_true] at hstop
        simp only [hstop, if_neg] at h ⊢
        simp only [Bool.false_eq_true, if_false]
        rw [ih _ _ _ h]
        simp [Nat.add_assoc, Nat.add_comm 1 rest.length]

/-- Running the loop on failing rounds whose signatures all equal the
signature of the last recorded error: the counter climbs by one per round
and the breaker fires exactly when it reaches five. -/
theorem featureLoopAux_uniform (sig : List Char) (hsig : sig ≠ []) :
    ∀ (es : List (List Char)) (st : FeatureSt) (rounds : Nat) (e₀ : List Char),
    (∀ e ∈ es, normalizeTestError e = sig) →
    st.lastTestError = some e₀ → normalizeTestError e₀ = sig →
    st.consecutiveSameError < 5 →
    (if 5 ≤ st.consecutiveSameError + es.length then
       loopAbandonedAt (featureLoopAux st rounds (es.map .failure)) =
         some (rounds + (5 - st.consecutiveSameError))
     else ∃ st', featureLoopAux st rounds (es.map .failure) = .exhausted st' ∧
       st'.lastTestError = some (es.getLastD e₀) ∧
       st'.consecutiveSameError = st.consecutiveSameError + es.length ∧
       normalizeTestError (es.getLastD e₀) = sig) := by
  intro es
  induction es with
  | nil =>
    intro st rounds e₀ _ hlast hnorm hc
    rw [if_neg (by simpa using Nat.not_le.mpr hc)]
    exact ⟨st, rfl, by simpa using hlast, by simp, by simpa using hnorm⟩
  | cons e rest ih =>
    intro st rounds e₀ hall hlast hnorm hc
    have hce : normalizeTestError e = sig := hall e (by simp)
    have hrest : ∀ x ∈ rest, normalizeTestError x = sig := fun x hx => hall x (by simp [hx])
    have hconsec : (featureFail { st with attempt := st.attempt + 1 } e).1.consecutiveSameError =
        st.consecutiveSameError + 1 := by
      rw [featureFail_consec, if_pos]
      constructor
      · show st.lastTestError.map normalizeTestError = some (normalizeTestError e)
        rw [hlast]
        simp [hnorm, hce]
      · rw [hce]; exact hsig
    have hmap : (e :: rest).map RoundOutcome.failure =
        RoundOutcome.failure e :: rest.map RoundOutcome.failure := rfl
    rw [hmap]
    by_cases h5 : st.consecutiveSameError + 1 = 5
    · have houter : 5 ≤ st.consecutiveSameError + (e :: rest).length := by
        simp only [List.length_cons]; omega
      rw [if_pos houter]
      have hstop : (featureFail { st with attempt := st.attempt + 1 } e).2 = true := by
        rw [featureFail_stop, hconsec]; omega
      simp only [featureLoopAux]
      rw [if_pos hstop]
      simp only [loopAbandonedAt]
      congr 1
      omega
    · have hstop : ¬ ((featureFail { st with attempt := st.attempt + 1 } e).2 = true) := by
        rw [featureFail_stop, hconsec]; omega
      have hih := ih (featureFail { st with attempt := st.attempt + 1 } e).1 (rounds + 1) e hrest
        (featureFail_lastTestError _ e) hce (by rw [hconsec]; omega)
      rw [hconsec] at hih
      by_cases hlen : 5 ≤ st.consecutiveSameError + (e :: rest).length
      · rw [if_pos hlen]
        simp only [featureLoopAux]
        rw [if_neg hstop]
        have hlen' : 5 ≤ st.consecutiveSameError + 1 + rest.length := by
          simp only [List.length_cons] at hlen; omega
        rw [if_pos hlen'] at hih
        rw [hih]
        congr 1
        omega
      · rw [if_neg hlen]
        simp only [featureLoopAux]
        rw [if_neg hstop]
        have hlen' : ¬ 5 ≤ st.consecutiveSameError + 1 + rest.length := by
          simp only [List.length_cons] at hlen; omega
        rw [if_neg hlen'] at hih
        obtain ⟨st', h1, h2, h3, h4⟩ := hih
        have hgl : (e :: rest).getLastD e₀ = rest.getLastD e := by
          cases rest <;> simp [List.getLastD]
        refine ⟨st', h1, ?_, by rw [h3]; simp only [List.length_cons]; omega, ?_⟩
        · rw [hgl]; exact h2
        · rw [hgl]; exact h4

/-- Running the loop on failing rounds of one signature from a state whose
last recorded signature differs: the counter restarts at 1, so the breaker
fires exactly on the 5th such round. -/
theorem featureLoopAux_reset (sig : List Char) (hsig : sig ≠ []) :
    ∀ (es : List (List Char)) (st : FeatureSt) (rounds : Nat),
    (∀ e ∈ es, normalizeTestError e = sig) →
    st.lastTestError.map normalizeTestError ≠ some sig →
    (if 5 ≤ es.length then
       loopAbandonedAt (featureLoopAux st rounds (es.map .failure)) = some (rounds + 5)
     else ∃ st', featureLoopAux st rounds (es.map .failure) = .exhausted st' ∧
       (st'.lastTestError = st.lastTestError ∨
         st'.lastTestError.map normalizeTestError = some sig)) := by
  intro es st rounds hall hne
  cases es with
  | nil =>
    simp only [List.length_nil]
    rw [if_neg (by omega)]
    exact ⟨st, rfl, Or.inl rfl⟩
  | cons e rest =>
    have hce : normalizeTestError e = sig := hall e (by simp)
    have hrest : ∀ x ∈ rest, normalizeTestError x = sig := fun x hx => hall x (by simp [hx])
    have hconsec :
        (featureFail { st with attempt := st.attempt + 1 } e).1.consecutiveSameError = 1 := by
      rw [featureFail_consec, if_neg]
      rintro ⟨h1, -⟩
      have h1x : st.lastTestError.map normalizeTestError = some (normalizeTestError e) := h1
      exact hne (by rw [h1x, hce])
    have hstop : ¬ ((featureFail { st with attempt := st.attempt + 1 } e).2 = true) := by
      rw [featureFail_stop, hconsec]; omega
    have hu := featureLoopAux_uniform sig hsig rest
      (featureFail { st with attempt := st.attempt + 1 } e).1 (rounds + 1) e hrest
      (featureFail_lastTestError _ e) hce (by rw [hconsec]; omega)
    rw [hconsec] at hu
    have hmap : ((e :: rest).map RoundOutcome.failure) =
        RoundOutcome.failure e :: rest.map RoundOutcome.failure := rfl
    rw [hmap]
    by_cases hlen : 5 ≤ (e :: rest).length
    · rw [if_pos hlen]
      simp only [featureLoopAux]
      rw [if_neg hstop]
      have hlen2 : 5 ≤ 1 + rest.length := by
        simp only [List.length_cons] at hlen; omega
      rw [if_pos hlen2] at hu
      rw [hu]
    · rw [if_neg hlen]
      simp only [featureLoopAux]
      rw [if_neg hstop]
      have hlen2 : ¬ 5 ≤ 1 + rest.length := by
        simp only [List.length_cons] at hlen; omega
      rw [if_neg hlen2] at hu
      obtain ⟨st1, h1, h2, h3, h4⟩ := hu
      exact ⟨st1, h1, Or.inr (by rw [h2]; simpa using h4)⟩

/-- C1: circuit breaker of the per-feature loop (lines 3893-3981). With
every failing round carrying one normalized signature, 5 or more rounds
abandon the feature exactly on the 5th round; fewer than 5 never abandon;
and a differing signature in the middle of a window of at most 5 rounds
prevents abandonment, because the consecutive counter resets to 1. -/
theorem c1_circuit_breaker :
    (∀ (es : List (List Char)) (sig : List Char), sig ≠ [] →
       (∀ e ∈ es, normalizeTestError e = sig) → 5 ≤ es.length →
       loopAbandonedAt (featureLoop (es.map .failure)) = some 5) ∧
    (∀ (es : List (List Char)) (sig : List Char), sig ≠ [] →
       (∀ e ∈ es, normalizeTestError e = sig) → es.length < 5 →
       loopAbandonedAt (featureLoop (es.map .failure)) = none) ∧
    (∀ (pre post : List (List Char)) (e₁ : List Char) (sig : List Char), sig ≠ [] →
       (∀ e ∈ pre, normalizeTestError e = sig) →
       (∀ e ∈ post, normalizeTestError e = sig) →
       normalizeTestError e₁ ≠ sig →
       pre.length + 1 + post.length ≤ 5 →
       loopAbandonedAt (featureLoop ((pre ++ e₁ :: post).map .failure)) = none) := by
  refine ⟨?_, ?_, ?_⟩
  · intro es sig hsig hall hlen
    have hin : (featureInit.lastTestError.map normalizeTestError ≠ some sig) := by
      simp [featureInit]
    have hr := featureLoopAux_reset sig hsig es featureInit 0 hall hin
    rw [if_pos hlen] at hr
    unfold featureLoop
    simpa using hr
  · intro es sig hsig hall hlen
    have hin : (featureInit.lastTestError.map normalizeTestError ≠ some sig) := by
      simp [featureInit]
    have hr := featureLoopAux_reset sig hsig es featureInit 0 hall hin
    rw [if_neg (by omega)] at hr
    obtain ⟨st1, h1, -⟩ := hr
    unfold featureLoop
    rw [h1]
    rfl
  · intro pre post e₁ sig hsig hpre hpost hne1 hlen
    have hin : (featureInit.lastTestError.map normalizeTestError ≠ some sig) := by
      simp [featureInit]
    have hr := featureLoopAux_reset sig hsig pre featureInit 0 hpre hin
    rw [if_neg (by omega)] at hr
    obtain ⟨st1, h1, hdis⟩ := hr
    unfold featureLoop
    rw [List.map_append, featureLoopAux_append _ _ _ _ _ h1]
    have hconsec1 :
        (featureFail { st1 with attempt := st1.attempt + 1 } e₁).1.consecutiveSameError = 1 := by
      rw [featureFail_consec, if_neg]
      rintro ⟨hq, -⟩
      have hqx : st1.lastTestError.map normalizeTestError =
          some (normalizeTestError e₁) := hq
      rcases hdis with hd | hd
      · rw [hd] at hqx
        simp [featureInit] at hqx
      · rw [hd] at hqx
        simp only [Option.some.injEq] at hqx
        exact hne1 hqx.symm
    have hstop1 : ¬ ((featureFail { st1 with attempt := st1.attempt + 1 } e₁).2 = true) := by
      rw [featureFail_stop, hconsec1]; omega
    have hmap : ((e₁ :: post).map RoundOutcome.failure) =
        RoundOutcome.failure e₁ :: post.map RoundOutcome.failure := rfl
    rw [hmap]
    simp only [featureLoopAux]
    rw [if_neg hstop1]
    have hne2 :
        ((featureFail { st1 with attempt := st1.attempt + 1 } e₁).1.lastTestError.map
          normalizeTestError ≠ some sig) := by
      rw [featureFail_lastTestError]
      simpa using hne1
    have hr2 := featureLoopAux_reset sig hsig post
      (featureFail { st1 with attempt := st1.attempt + 1 } e₁).1
      (0 + (pre.map RoundOutcome.failure).length + 1) hpost hne2
    rw [if_neg (by simp only [List.length_map] at *; omega)] at hr2
    obtain ⟨st3, h3, -⟩ := hr2
    rw [h3]
    rfl

set_option maxRecDepth 4000 in
/-- Witness for C1 at concrete error messages. -/
theorem c1_circuit_breaker_witness :
    loopAbandonedAt (featureLoop
      ((List.replicate 5 "TypeError: bad thing".data).map .failure)) = some 5 ∧
    loopAbandonedAt (featureLoop
      ((List.replicate 4 "TypeError: bad thing".data).map .failure)) = none ∧
    loopAbandonedAt (featureLoop
      ((List.replicate 2 "TypeError: bad thing".data ++
        "ValueError: other".data ::
          List.replicate 2 "TypeError: bad thing".data).map .failure)) = none :=
  ⟨c1_circuit_breaker.1 (List.replicate 5 "TypeError: bad thing".data)
      "TypeError: bad thing".data (by decide)
      (fun e he => by rw [List.eq_of_mem_replicate he]; rfl) (by simp),
   c1_circuit_breaker.2.1 (List.replicate 4 "TypeError: bad thing".data)
      "TypeError: bad thing".data (by decide)
      (fun e he => by rw [List.eq_of_mem_replicate he]; rfl) (by simp),
   c1_circuit_breaker.2.2 (List.replicate 2 "TypeError: bad thing".data)
      (List.replicate 2 "TypeError: bad thing".data)
      "ValueError: other".data "TypeError: bad thing".data (by decide)
      (fun e he => by rw [List.eq_of_mem_replicate he]; rfl)
      (fun e he => by rw [List.eq_of_mem_replicate he]; rfl)
      (by decide) (by simp)⟩

/-- The effect of one failing round on the remediation log, the
real-failure count and the environment flag (lines 3944-3958). -/
theorem featureFail_env_fields (st : FeatureSt) (e : List Char) :
    (featureFail st e).1.remediations =
      (if isEnvironmentError e ∧ ¬ st.environmentErrorDetected
       then st.remediations ++ [e] else st.remediations) ∧
    (featureFail st e).1.realFailureCount =
      (if isEnvironmentError e ∧ ¬ st.environmentErrorDetected
       then st.realFailureCount else st.realFailureCount + 1) ∧
    (featureFail st e).1.environmentErrorDetected = isEnvironmentError e := by
  unfold featureFail
  dsimp only
  split_ifs <;> simp_all

/-- Invariant of the per-feature loop: over any all-failure run that
exhausts its rounds, the remediation log and real-failure count grow
exactly as `envStreakRemediations` and `envRealFailures` predict from the
current flag. -/
theorem featureLoopAux_env (es : List (List Char)) :
    ∀ (st : FeatureSt) (rounds : Nat) (st' : FeatureSt),
    featureLoopAux st rounds (es.map .failure) = .exhausted st' →
    st'.remediations = st.remediations ++
        envStreakRemediations st.environmentErrorDetected es ∧
    st'.realFailureCount = st.realFailureCount +
        envRealFailures st.environmentErrorDetected es := by
  induction es with
  | nil =>
    intro st rounds st' h
    cases h
    simp [envStreakRemediations, envRealFailures]
  | cons e rest ih =>
    intro st rounds st' h
    simp only [List.map_cons, featureLoopAux] at h
    by_cases hstop : (featureFail { st with attempt := st.attempt + 1 } e).2 = true
    · rw [if_pos hstop] at h
      cases h
    · rw [if_neg hstop] at h
      obtain ⟨hrem, hrfc, hflag⟩ :=
        featureFail_env_fields { st with attempt := st.attempt + 1 } e
      obtain ⟨h1, h2⟩ := ih _ _ _ h
      rw [hrem, hrfc, hflag] at *
      have hfl : ({ st with attempt := st.attempt + 1 } : FeatureSt).environmentErrorDetected
          = st.environmentErrorDetected := rfl
      rw [hfl] at h1 h2 ⊢
      by_cases he : isEnvironmentError e = true <;>
        by_cases hf : st.environmentErrorDetected = true <;>
        simp only [envStreakRemediations, envRealFailures, he, hf, if_true, if_false,
          Bool.not_eq_true] at h1 h2 ⊢ <;>
        simp_all <;> omega

/-- C6 (amended): the remediation discipline over a failing run is gated by
the single `environment_error_detected` flag, not by distinct signatures —
a failure is remediated (and not counted as a real failure) exactly when it
classifies as an environment error and the flag is false, an environment
error sets the flag, and any other failure clears it. -/
theorem c6_env_remediation (es : List (List Char)) (st' : FeatureSt)
    (h : featureLoop (es.map .failure) = .exhausted st') :
    st'.remediations = envStreakRemediations false es ∧
    st'.realFailureCount = envRealFailures false es := by
  have := featureLoopAux_env es featureInit 0 st' h
  simpa [featureInit] using this

/-- Witness for C6 at a concrete two-round failing run. -/
theorem c6_env_remediation_witness :
    ({ attempt := 2, realFailureCount := 1, lastTestError := some envErrB,
       consecutiveSameError := 1, environmentErrorDetected := true,
       remediations := [envErrA] } : FeatureSt).remediations =
        envStreakRemediations false [envErrA, envErrB] ∧
    ({ attempt := 2, realFailureCount := 1, lastTestError := some envErrB,
       consecutiveSameError := 1, environmentErrorDetected := true,
       remediations := [envErrA] } : FeatureSt).realFailureCount =
        envRealFailures false [envErrA, envErrB] :=
  c6_env_remediation [envErrA, envErrB]
    { attempt := 2, realFailureCount := 1, lastTestError := some envErrB,
      consecutiveSameError := 1, environmentErrorDetected := true,
      remediations := [envErrA] } (by rfl)

/-- C6 counterexample: two consecutive environment errors of distinct
signatures get only one remediation (the claim predicts one each), and the
same signature is remediated twice when a logic error intervenes (the
claim predicts exactly once per distinct signature). -/
theorem c6_counterexample :
    (∃ st', featureLoop ([envErrA, envErrB].map .failure) = .exhausted st' ∧
       isEnvironmentError envErrA = true ∧ isEnvironmentError envErrB = true ∧
       normalizeTestError envErrA ≠ normalizeTestError envErrB ∧
       st'.remediations = [envErrA] ∧
       distinctEnvRemediations [envErrA, envErrB] = [envErrA, envErrB] ∧
       st'.remediations ≠ distinctEnvRemediations [envErrA, envErrB]) ∧
    (∃ st', featureLoop ([envErrA, logicErrC, envErrA].map .failure) = .exhausted st' ∧
       st'.remediations = [envErrA, envErrA] ∧
       distinctEnvRemediations [envErrA, logicErrC, envErrA] = [envErrA]) := by
  constructor
  · refine ⟨_, rfl, by rfl, by rfl, by decide, by rfl, by rfl, by decide⟩
  · refine ⟨_, rfl, by rfl, by rfl⟩

/-! ### C5: helper lemmas about the normalization engine -/

/-- `dropWhile` never lengthens a list. -/
theorem lengthDropWhileLe {α : Type} (p : α → Bool) (l : List α) :
    (l.dropWhile p).length ≤ l.length := by
  induction l with
  | nil => simp
  | cons a l ih =>
    rw [List.dropWhile_cons]
    split <;> simp <;> omega

/-- `takeWhile` keeps a list all of whose elements satisfy the predicate. -/
theorem takeWhileAll {α : Type} (p : α → Bool) (l : List α)
    (h : ∀ c ∈ l, p c = true) : l.takeWhile p = l := by
  induction l with
  | nil => rfl
  | cons a l ih =>
    rw [List.takeWhile_cons, if_pos (h a (by simp))]
    rw [ih (fun c hc => h c (by simp [hc]))]

/-- `takeWhile` walks through a fully satisfying prefix. -/
theorem takeWhileAppendAll {α : Type} (p : α → Bool) (a b : List α)
    (h : ∀ c ∈ a, p c = true) :
    (a ++ b).takeWhile p = a ++ b.takeWhile p := by
  induction a with
  | nil => rfl
  | cons x a ih =>
    rw [List.cons_append, List.takeWhile_cons, if_pos (h x (by simp))]
    rw [ih (fun c hc => h c (by simp [hc])), List.cons_append]

/-- `dropWhile` drops a fully satisfying prefix. -/
theorem dropWhileAppendAll {α : Type} (p : α → Bool) (a b : List α)
    (h : ∀ c ∈ a, p c = true) :
    (a ++ b).dropWhile p = b.dropWhile p := by
  induction a with
  | nil => rfl
  | cons x a ih =>
    rw [List.cons_append, List.dropWhile_cons, if_pos (h x (by simp))]
    exact ih (fun c hc => h c (by simp [hc]))

/-- A literal that exactly consumes a prefix consumes it from any longer
input. -/
theorem matchLit_append_exact (lit : List Char) :
    ∀ (pre rest : List Char), matchLit lit pre = some [] →
    matchLit lit (pre ++ rest) = some rest := by
  induction lit with
  | nil =>
    intro pre rest h
    simp only [matchLit] at h ⊢
    cases h
    rfl
  | cons p ps ih =>
    intro pre rest h
    cases pre with
    | nil => simp [matchLit] at h
    | cons c cs =>
      simp only [matchLit] at h ⊢
      by_cases hc : c = p
      · rw [if_pos hc] at h ⊢
        exact ih cs rest h
      · rw [if_neg hc] at h
        cases h

/-- A literal fails on an input with a different head. -/
theorem matchLit_head_ne (p : Char) (ps : List Char) (c : Char)
    (cs : List Char) (h : c ≠ p) : matchLit (p :: ps) (c :: cs) = none := by
  simp [matchLit, h]

/-- A case-insensitive token that exactly consumes a prefix consumes it
from any longer input. -/
theorem tokCI_append_exact (pat : List Char) :
    ∀ (pre o rest : List Char), tokCI pat pre = some (o, []) →
    tokCI pat (pre ++ rest) = some (o, rest) := by
  induction pat with
  | nil =>
    intro pre o rest h
    simp only [tokCI, Option.some.injEq, Prod.mk.injEq] at h
    obtain ⟨h1, h2⟩ := h
    subst h2
    rw [← h1]
    rfl
  | cons p ps ih =>
    intro pre o rest h
    cases pre with
    | nil => simp [tokCI] at h
    | cons c cs =>
      simp only [tokCI] at h ⊢
      by_cases hc : c.toLower = p
      · rw [if_pos hc] at h ⊢
        cases ho : tokCI ps cs with
        | none => rw [ho] at h; cases h
        | some pr =>
          rw [ho] at h
          cases pr with
          | mk o2 r2 =>
            cases h
            rw [show cs.append rest = cs ++ rest from rfl, ih cs o2 rest ho]
      · rw [if_neg hc] at h
        cases h

/-- A case-insensitive token fails on a head of the wrong letter. -/
theorem tokCI_head_ne (p : Char) (ps : List Char) (c : Char)
    (cs : List Char) (h : c.toLower ≠ p) : tokCI (p :: ps) (c :: cs) = none := by
  simp [tokCI, h]

/-- A scan fails when the recognizer fails at every suffix. -/
theorem searchPosNone {α : Type} (f : List Char → Option α) :
    ∀ (fuel : Nat) (cs : List Char), (∀ suf, suf <:+ cs → f suf = none) →
    searchPos f fuel cs = none := by
  intro fuel
  induction fuel with
  | zero => intro cs h; rfl
  | succ n ih =>
    intro cs h
    cases cs with
    | nil =>
      simpa [searchPos] using h [] (List.suffix_refl [])
    | cons c cs =>
      simp only [searchPos]
      rw [h (c :: cs) (List.suffix_refl _)]
      exact ih cs (fun suf hs => h suf (hs.trans (List.suffix_cons c cs)))

/-- A scan succeeds immediately when the recognizer accepts the whole
input and there is fuel. -/
theorem searchPosHead {α : Type} (f : List Char → Option α) (fuel : Nat)
    (cs : List Char) (v : α) (hf : 0 < fuel) (h : f cs = some v) :
    searchPos f fuel cs = some v := by
  cases fuel with
  | zero => omega
  | succ n =>
    cases cs with
    | nil => simpa [searchPos] using h
    | cons c cs => simp [searchPos, h]

/-- A suffix of a concatenation is a suffix of the second part, or the
second part extended by a suffix of the first. -/
theorem suffixAppendCases {α : Type} (a b suf : List α)
    (h : suf <:+ a ++ b) :
    (∃ s, s <:+ a ∧ suf = s ++ b) ∨ suf <:+ b := by
  induction a generalizing suf with
  | nil => exact Or.inr (by simpa using h)
  | cons x a ih =>
    rw [List.cons_append, List.suffix_cons_iff] at h
    rcases h with h | h
    · exact Or.inl ⟨x :: a, List.suffix_refl _, by simpa using h⟩
    · rcases ih suf h with ⟨s, hs, rfl⟩ | h
      · exact Or.inl ⟨s, hs.trans (List.suffix_cons x a), rfl⟩
      · exact Or.inr h

/-- `List.firstM` over `Option`, cons case. -/
theorem firstMConsO {α β : Type} (f : α → Option β) (a : α) (as : List α) :
    List.firstM f (a :: as) = (f a).orElse (fun _ => List.firstM f as) := rfl

/-- `List.firstM` over `Option`, nil case. -/
theorem firstMNilO {α β : Type} (f : α → Option β) :
    List.firstM (f := f) [] = none := rfl

/-- A digit is unchanged by `Char.toLower`. -/
theorem isDigToLowerSelf (c : Char) (h : isDig c = true) : c.toLower = c := by
  simp only [isDig, Bool.and_eq_true, decide_eq_true_eq] at h
  unfold Char.toLower
  rw [if_neg (by omega)]

/-- A digit differs from any non-digit character. -/
theorem isDigNe (c : Char) (h : isDig c = true) (x : Char)
    (hx : isDig x = false) : c ≠ x := by
  intro hcx
  rw [hcx, hx] at h
  cases h

/-- The module/import family fails on any head that lowercases to neither
m nor i. -/
theorem famAt_fam1_head (c : Char) (cs : List Char)
    (hm : c.toLower ≠ 'm') (hi : c.toLower ≠ 'i') :
    famAt ["modulenotfounderror".data, "importerror".data] (c :: cs) = none := by
  have h1 : tokCI "modulenotfounderror".data (c :: cs) = none := by
    rw [show "modulenotfounderror".data =
          'm' :: "odulenotfounderror".data from rfl]
    exact tokCI_head_ne _ _ _ _ hm
  have h2 : tokCI "importerror".data (c :: cs) = none := by
    rw [show "importerror".data = 'i' :: "mporterror".data from rfl]
    exact tokCI_head_ne _ _ _ _ hi
  unfold famAt
  rw [firstMConsO, firstMConsO, firstMNilO]
  simp [h1, h2, Option.orElse]

/-- The module/import family fails on a head `in`. -/
theorem famAt_fam1_in (cs : List Char) :
    famAt ["modulenotfounderror".data, "importerror".data]
      ('i' :: 'n' :: cs) = none := by
  have h1 : tokCI "modulenotfounderror".data ('i' :: 'n' :: cs) = none := by
    rw [show "modulenotfounderror".data =
          'm' :: "odulenotfounderror".data from rfl]
    exact tokCI_head_ne _ _ _ _ (by decide)
  have h2 : tokCI "importerror".data ('i' :: 'n' :: cs) = none := by
    rw [show "importerror".data = 'i' :: 'm' :: "porterror".data from rfl]
    have hn : tokCI ('m' :: "porterror".data) ('n' :: cs) = none :=
      tokCI_head_ne _ _ _ _ (by decide)
    simp [tokCI, hn]
  unfold famAt
  rw [firstMConsO, firstMConsO, firstMNilO]
  simp [h1, h2, Option.orElse]

/-- The module/import family fails on digits followed by a closing
parenthesis. -/
theorem famAt_fam1_digits (s : List Char) (hs : ∀ c ∈ s, isDig c = true) :
    famAt ["modulenotfounderror".data, "importerror".data] (s ++ ")".data) = none := by
  cases s with
  | nil => decide
  | cons c s2 =>
    rw [List.cons_append]
    have hc := hs c (by simp)
    have hl := isDigToLowerSelf c hc
    refine famAt_fam1_head c _ ?_ ?_
    · rw [hl]; exact isDigNe c hc _ (by decide)
    · rw [hl]; exact isDigNe c hc _ (by decide)

/-- The module/import family fails on every extension of every nonempty
suffix of the template prefix. -/
theorem famAt_fam1_ASuffix (s : List Char)
    (hs : s <:+ "TypeError: bad (line ".data) :
    s = [] ∨ ∀ r, famAt ["modulenotfounderror".data, "importerror".data]
      (s ++ r) = none := by
  rw [← List.mem_tails] at hs
  fin_cases hs <;>
    first
      | exact Or.inl rfl
      | (refine Or.inr (fun r => ?_)
         simp only [List.cons_append, List.nil_append]
         first
           | exact famAt_fam1_in _
           | exact famAt_fam1_head _ _ (by decide) (by decide))

/-- One skipped position of the substitution engine. -/
theorem gsub_cons_none (m : List Char → Option (List Char × List Char))
    (c : Char) (rest : List Char) (h : m (c :: rest) = none) :
    gsub m (c :: rest) = c :: gsub m rest := by
  unfold gsub
  rw [List.length_cons]
  simp only [gsubF, h]

/-- `gsubF` does not depend on the fuel once it exceeds the input length,
for matchers that always consume at least one character. -/
theorem gsubF_fuel_congr (m : List Char → Option (List Char × List Char))
    (hm : ∀ s rep rem, m s = some (rep, rem) → rem.length < s.length) :
    ∀ (n f1 f2 : Nat) (cs : List Char), cs.length ≤ n →
    cs.length < f1 → cs.length < f2 → gsubF m f1 cs = gsubF m f2 cs := by
  intro n
  induction n with
  | zero =>
    intro f1 f2 cs hle h1 h2
    have hcs : cs = [] := List.length_eq_zero.mp (by omega)
    subst hcs
    cases f1 with
    | zero => omega
    | succ g1 =>
      cases f2 with
      | zero => omega
      | succ g2 => rfl
  | succ n ih =>
    intro f1 f2 cs hle h1 h2
    cases cs with
    | nil =>
      cases f1 with
      | zero => omega
      | succ g1 =>
        cases f2 with
        | zero => omega
        | succ g2 => rfl
    | cons c rest =>
      cases f1 with
      | zero => omega
      | succ g1 =>
        cases f2 with
        | zero => omega
        | succ g2 =>
          simp only [gsubF]
          cases h : m (c :: rest) with
          | none =>
            simp only [h]
            rw [List.length_cons] at hle h1 h2
            rw [ih g1 g2 rest (by omega) (by omega) (by omega)]
          | some pr =>
            cases pr with
            | mk rep rem =>
              simp only [h]
              have := hm _ _ _ h
              rw [List.length_cons] at hle h1 h2 this
              rw [ih g1 g2 rem (by omega) (by omega) (by omega)]

/-- One matched position of the substitution engine. -/
theorem gsub_match (m : List Char → Option (List Char × List Char))
    (hm : ∀ s rep rem, m s = some (rep, rem) → rem.length < s.length)
    (c : Char) (rest rep rem : List Char)
    (h : m (c :: rest) = some (rep, rem)) :
    gsub m (c :: rest) = rep ++ gsub m rem := by
  have hlt := hm _ _ _ h
  rw [List.length_cons] at hlt
  unfold gsub
  rw [List.length_cons]
  simp only [gsubF, h]
  rw [gsubF_fuel_congr m hm rest.length (rest.length + 1) (rem.length + 1) rem
    (by omega) (by omega) (by omega)]

/-- A successful literal match consumes exactly the literal. -/
theorem matchLit_some_length (lit : List Char) :
    ∀ (s r : List Char), matchLit lit s = some r →
    s.length = lit.length + r.length := by
  induction lit with
  | nil =>
    intro s r h
    simp only [matchLit, Option.some.injEq] at h
    rw [h]
    simp
  | cons p ps ih =>
    intro s r h
    cases s with
    | nil => simp [matchLit] at h
    | cons c cs =>
      simp only [matchLit] at h
      by_cases hc : c = p
      · rw [if_pos hc] at h
        rw [List.length_cons, List.length_cons, ih cs r h]
        omega
      · rw [if_neg hc] at h; cases h

/-- The line-number matcher fails when the literal `line ` does not match. -/
theorem lineNumM_none_of (cs : List Char)
    (h : matchLit "line ".data cs = none) : lineNumM cs = none := by
  simp [lineNumM, h]

/-- The line-number matcher always consumes at least one character. -/
theorem lineNumM_shrink (s rep rem : List Char)
    (h : lineNumM s = some (rep, rem)) : rem.length < s.length := by
  unfold lineNumM at h
  cases hml : matchLit "line ".data s with
  | none => rw [hml] at h; cases h
  | some r =>
    rw [hml] at h
    dsimp only at h
    have hlen : s.length = ("line ".data).length + r.length :=
      matchLit_some_length _ s r hml
    cases hr : r.takeWhile isDig with
    | nil => rw [hr] at h; cases h
    | cons e es =>
      rw [hr] at h
      cases h
      have := lengthDropWhileLe isDig r
      simp only [List.length_cons] at hlen
      omega

/-- The typeerror family matches the template at its head and captures
the detail after the colon. -/
theorem famAtTy (d : List Char) (hd : ∀ c ∈ d, isDig c = true) :
    famAt ["typeerror".data]
      (("TypeError: bad (line ".data ++ d) ++ ")".data) =
      some ("TypeError".data, ("bad (line ".data ++ d) ++ ")".data) := by
  have htok : tokCI "typeerror".data
      (("TypeError: bad (line ".data ++ d) ++ ")".data) =
      some ("TypeError".data, ':' :: ((" bad (line ".data ++ d) ++ ")".data)) := by
    have h0 := tokCI_append_exact "typeerror".data "TypeError".data
      "TypeError".data ((": bad (line ".data ++ d) ++ ")".data) (by decide)
    rw [show (("TypeError: bad (line ".data ++ d) ++ ")".data) =
          "TypeError".data ++ ((": bad (line ".data ++ d) ++ ")".data) from by
        simp only [List.append_assoc]; rfl]
    exact h0
  have hnl1 : ∀ x ∈ ("ad (line ".data : List Char), x ≠ nlChar := by decide
  have hnl2 : ∀ x ∈ (")".data : List Char), x ≠ nlChar := by decide
  have hdet : detailAfterColon ((" bad (line ".data ++ d) ++ ")".data) =
      some (("bad (line ".data ++ d) ++ ")".data) := by
    unfold detailAfterColon
    have hdrop : List.dropWhile isPyWs ((" bad (line ".data ++ d) ++ ")".data) =
        'b' :: (("ad (line ".data ++ d) ++ ")".data) := by
      rw [show ((" bad (line ".data ++ d) ++ ")".data) =
            ' ' :: ('b' :: (("ad (line ".data ++ d) ++ ")".data)) from rfl]
      rw [List.dropWhile_cons, if_pos (by decide)]
      rw [List.dropWhile_cons, if_neg (by decide)]
    rw [hdrop]
    dsimp only
    rw [takeWhileAll]
    · simp [List.cons_append]
    · intro c hc
      rw [decide_eq_true_eq]
      rcases List.mem_cons.mp hc with rfl | hc
      · decide
      rcases List.mem_append.mp hc with hc | hc
      · rcases List.mem_append.mp hc with hc | hc
        · exact hnl1 c hc
        · exact isDigNe c (hd c hc) _ (by decide)
      · exact hnl2 c hc
  unfold famAt
  rw [firstMConsO, firstMNilO]
  simp only [htok]
  rw [if_pos (show ':' = colonChar from rfl)]
  rw [hdet]
  rfl

/-- The module/import family matches nowhere in the template. -/
theorem fam1SearchNone (d : List Char) (hd : ∀ c ∈ d, isDig c = true)
    (fuel : Nat) :
    searchPos (famAt ["modulenotfounderror".data, "importerror".data]) fuel
      (("TypeError: bad (line ".data ++ d) ++ ")".data) = none := by
  apply searchPosNone
  intro suf hsuf
  rcases suffixAppendCases _ _ _ hsuf with ⟨s, hsA, rfl⟩ | hB
  · rcases suffixAppendCases _ _ _ hsA with ⟨s2, hs2, rfl⟩ | hDig
    · rcases famAt_fam1_ASuffix s2 hs2 with rfl | hall
      · rw [List.nil_append]
        exact famAt_fam1_digits d hd
      · rw [List.append_assoc]
        exact hall (d ++ ")".data)
    · exact famAt_fam1_digits s (fun c hc => hd c (hDig.subset hc))
  · rcases List.suffix_cons_iff.mp hB with rfl | hB
    · decide
    · rw [List.suffix_nil.mp hB]
      decide

/-- The pattern search on the template finds the typeerror family with
the detail after the colon. -/
theorem findErrTypeline (d : List Char) (hd : ∀ c ∈ d, isDig c = true) :
    findErrPattern (("TypeError: bad (line ".data ++ d) ++ ")".data) =
      some ("TypeError".data, ("bad (line ".data ++ d) ++ ")".data) := by
  unfold findErrPattern errFamilies
  rw [firstMConsO]
  rw [fam1SearchNone d hd _]
  rw [firstMConsO]
  rw [searchPosHead _ _ _ _ (Nat.succ_pos _) (famAtTy d hd)]
  rfl

/-- Stripping `line <digits>` from the template detail. -/
theorem gsubLineStrip (d : List Char) (hne : d ≠ [])
    (hd : ∀ c ∈ d, isDig c = true) :
    gsub lineNumM (("bad (line ".data ++ d) ++ ")".data) = "bad ()".data := by
  have hmatch : lineNumM ('l' :: (("ine ".data ++ d) ++ ")".data)) =
      some ([], ")".data) := by
    show lineNumM ((("line ".data ++ d) ++ ")".data)) = some ([], ")".data)
    unfold lineNumM
    have hml : matchLit "line ".data ((("line ".data ++ d) ++ ")".data)) =
        some (d ++ ")".data) := by
      rw [List.append_assoc]
      exact matchLit_append_exact _ _ _ (by decide)
    rw [hml]
    dsimp only
    rw [takeWhileAppendAll isDig d _ hd]
    rw [show List.takeWhile isDig (")".data) = [] from by decide]
    rw [List.append_nil]
    cases d with
    | nil => exact absurd rfl hne
    | cons e es =>
      dsimp only
      rw [dropWhileAppendAll isDig _ _ hd]
      rfl
  rw [show (("bad (line ".data ++ d) ++ ")".data) =
        'b' :: (("ad (line ".data ++ d) ++ ")".data) from rfl]
  rw [gsub_cons_none _ _ _ (lineNumM_none_of _ (matchLit_head_ne _ _ _ _ (by decide)))]
  rw [show (("ad (line ".data ++ d) ++ ")".data) =
        'a' :: (("d (line ".data ++ d) ++ ")".data) from rfl]
  rw [gsub_cons_none _ _ _ (lineNumM_none_of _ (matchLit_head_ne _ _ _ _ (by decide)))]
  rw [show (("d (line ".data ++ d) ++ ")".data) =
        'd' :: ((" (line ".data ++ d) ++ ")".data) from rfl]
  rw [gsub_cons_none _ _ _ (lineNumM_none_of _ (matchLit_head_ne _ _ _ _ (by decide)))]
  rw [show ((" (line ".data ++ d) ++ ")".data) =
        ' ' :: (("(line ".data ++ d) ++ ")".data) from rfl]
  rw [gsub_cons_none _ _ _ (lineNumM_none_of _ (matchLit_head_ne _ _ _ _ (by decide)))]
  rw [show (("(line ".data ++ d) ++ ")".data) =
        '(' :: (("line ".data ++ d) ++ ")".data) from rfl]
  rw [gsub_cons_none _ _ _ (lineNumM_none_of _ (matchLit_head_ne _ _ _ _ (by decide)))]
  rw [show (("line ".data ++ d) ++ ")".data) =
        'l' :: (("ine ".data ++ d) ++ ")".data) from rfl]
  rw [gsub_match lineNumM lineNumM_shrink _ _ _ _ hmatch]
  rfl

/-- Normalizing the template collapses every line number. -/
theorem normalizeTypeline (d : List Char) (hne : d ≠ [])
    (hd : ∀ c ∈ d, isDig c = true) :
    normalizeTestError (("TypeError: bad (line ".data ++ d) ++ ")".data) =
      "TypeError: bad ()".data := by
  unfold normalizeTestError
  rw [if_neg (by simp)]
  rw [findErrTypeline d hd]
  dsimp only
  rw [gsubLineStrip d hne hd]
  rfl

/-- C5 (amended, positive part): within the `TypeError ... (line N)`
template, normalization yields one signature for every line number. -/
theorem c5_signature_stability (d₁ d₂ : List Char)
    (h₁ : d₁ ≠ []) (h₂ : d₂ ≠ [])
    (hd₁ : ∀ c ∈ d₁, isDig c = true) (hd₂ : ∀ c ∈ d₂, isDig c = true) :
    normalizeTestError (("TypeError: bad (line ".data ++ d₁) ++ ")".data) =
    normalizeTestError (("TypeError: bad (line ".data ++ d₂) ++ ")".data) := by
  rw [normalizeTypeline d₁ h₁ hd₁, normalizeTypeline d₂ h₂ hd₂]

/-- Witness for C5: line 10 and line 55 normalize identically. -/
theorem c5_signature_stability_witness :
    normalizeTestError (("TypeError: bad (line ".data ++ "10".data) ++ ")".data) =
    normalizeTestError (("TypeError: bad (line ".data ++ "55".data) ++ ")".data) :=
  c5_signature_stability "10".data "55".data (by decide) (by decide)
    (by decide) (by decide)

/-- C5 counterexample: two errors that differ only in a file path do not
normalize to the same signature, because the fallback branch of
`_normalize_test_error` (lines 4533-4536) keeps paths. -/
theorem c5_counterexample :
    "Build Failed at /a/b.txt".data = "Build Failed at ".data ++ "/a/b.txt".data ∧
    "Build Failed at /c/d.txt".data = "Build Failed at ".data ++ "/c/d.txt".data ∧
    normalizeTestError ("Build Failed at ".data ++ "/a/b.txt".data) ≠
      normalizeTestError ("Build Failed at ".data ++ "/c/d.txt".data) := by
  refine ⟨by decide, by decide, by decide⟩

/-! ### C3: helper lemmas — prefixes, digits, strings -/

/-- A prefix of a concatenation stops inside the first part or contains
it. -/
theorem prefixAppendCases {α : Type} (a b p : List α) (h : p <+: a ++ b) :
    p <+: a ∨ (∃ q, q <+: b ∧ p = a ++ q) := by
  induction a generalizing p with
  | nil => exact Or.inr ⟨p, by simpa using h, by simp⟩
  | cons x a ih =>
    cases p with
    | nil => exact Or.inl (List.nil_prefix)
    | cons y p =>
      rw [List.cons_append, List.cons_prefix_cons] at h
      obtain ⟨rfl, h⟩ := h
      rcases ih p h with h | ⟨q, hq, rfl⟩
      · exact Or.inl (List.cons_prefix_cons.mpr ⟨rfl, h⟩)
      · exact Or.inr ⟨q, hq, rfl⟩

/-- The prefixes of a one-element list. -/
theorem prefixSingleton {α : Type} (x : α) (p : List α) (h : p <+: [x]) :
    p = [] ∨ p = [x] := by
  cases p with
  | nil => exact Or.inl rfl
  | cons y p =>
    rw [List.cons_prefix_cons] at h
    obtain ⟨rfl, h⟩ := h
    rw [List.prefix_nil.mp h]
    exact Or.inr rfl

/-- The prefixes of a two-element list. -/
theorem prefixPair {α : Type} (x y : α) (p : List α) (h : p <+: [x, y]) :
    p = [] ∨ p = [x] ∨ p = [x, y] := by
  cases p with
  | nil => exact Or.inl rfl
  | cons z p =>
    rw [List.cons_prefix_cons] at h
    obtain ⟨rfl, h⟩ := h
    rcases prefixSingleton y p h with rfl | rfl
    · exact Or.inr (Or.inl rfl)
    · exact Or.inr (Or.inr rfl)

/-- A prefix of `a ++ [x]` no longer than `a` is a prefix of `a`. -/
theorem prefixDropLast {α : Type} (a p : List α) (x : α)
    (h : p <+: a ++ [x]) (hl : p.length ≤ a.length) : p <+: a := by
  rcases prefixAppendCases a [x] p h with h | ⟨q, hq, rfl⟩
  · exact h
  · have hq0 : q = [] := by
      rw [← List.length_eq_zero]
      rw [List.length_append] at hl
      omega
    subst hq0
    simp

/-- A nonempty prefix of a cons. -/
theorem prefixConsCases {α : Type} (x : α) (a p : List α)
    (h : p <+: x :: a) : p = [] ∨ ∃ q, q <+: a ∧ p = x :: q := by
  cases p with
  | nil => exact Or.inl rfl
  | cons y p =>
    rw [List.cons_prefix_cons] at h
    obtain ⟨rfl, h⟩ := h
    exact Or.inr ⟨p, h, rfl⟩

/-- `joinComma` of a list with the last element split off. -/
theorem joinCommaAppendLast (xs : List (List Char)) (y : List Char)
    (hxs : xs ≠ []) :
    joinComma (xs ++ [y]) = joinComma xs ++ commaChar :: y := by
  induction xs with
  | nil => exact absurd rfl hxs
  | cons x xs ih =>
    cases xs with
    | nil => rfl
    | cons x2 xs2 =>
      rw [List.cons_append, show joinComma (x :: (x2 :: xs2 ++ [y])) =
            x ++ commaChar :: joinComma (x2 :: xs2 ++ [y]) from by
          rw [joinComma.eq_def]
          cases xs2 <;> rfl,
        show joinComma (x :: x2 :: xs2) =
            x ++ commaChar :: joinComma (x2 :: xs2) from by
          rw [joinComma.eq_def]]
      rw [ih (by simp), List.append_assoc]
      rfl

/-- `parseStringBody` consumes an escape-free key up to its closing
quote. -/
theorem psbKey (k : List Char) (hk : ∀ c ∈ k, PlainChar c) :
    ∀ (acc rest : List Char),
    parseStringBody (k ++ dquote :: rest) acc = .ok (acc.reverse ++ k, rest) := by
  induction k with
  | nil =>
    intro acc rest
    rw [List.nil_append, parseStringBody.eq_def]
    dsimp only
    rw [if_pos rfl]
    simp
  | cons c k ih =>
    intro acc rest
    obtain ⟨h1, h2, h3⟩ := hk c (by simp)
    rw [List.cons_append]
    rw [show parseStringBody (c :: (k ++ dquote :: rest)) acc =
          parseStringBody (k ++ dquote :: rest) (c :: acc) from by
      rw [parseStringBody.eq_def]
      dsimp only
      rw [if_neg h1, if_neg h2, if_neg (by omega)]]
    rw [ih (fun x hx => hk x (by simp [hx])) (c :: acc) rest]
    simp

/-- `parseStringBody` undoes `escStr` up to the closing quote. -/
theorem psbEsc (s : List Char) (hs : ValidStr s) :
    ∀ (acc rest : List Char),
    parseStringBody (escStr s ++ dquote :: rest) acc = .ok (acc.reverse ++ s, rest) := by
  induction s with
  | nil =>
    intro acc rest
    rw [show escStr [] = [] from rfl, List.nil_append, parseStringBody.eq_def]
    dsimp only
    rw [if_pos rfl]
    simp
  | cons c s ih =>
    intro acc rest
    have hc : 32 ≤ c.toNat := hs c (by simp)
    have hs2 : ValidStr s := fun x hx => hs x (by simp [hx])
    rw [show escStr (c :: s) = escChar c ++ escStr s from by
      simp [escStr]]
    rw [List.append_assoc]
    by_cases h1 : c = dquote
    · rw [show escChar c = [bslash, c] from by simp [escChar, h1]]
      rw [show ([bslash, c] : List Char) ++ (escStr s ++ dquote :: rest) =
            bslash :: c :: (escStr s ++ dquote :: rest) from rfl]
      rw [show parseStringBody (bslash :: c :: (escStr s ++ dquote :: rest)) acc =
            parseStringBody (escStr s ++ dquote :: rest) (dquote :: acc) from by
        rw [parseStringBody.eq_def]
        dsimp only
        rw [if_neg (by decide), if_pos rfl]
        rw [if_pos h1]]
      rw [ih hs2 (dquote :: acc) rest]
      simp [h1]
    by_cases h2 : c = bslash
    · rw [show escChar c = [bslash, c] from by simp [escChar, h2]]
      rw [show ([bslash, c] : List Char) ++ (escStr s ++ dquote :: rest) =
            bslash :: c :: (escStr s ++ dquote :: rest) from rfl]
      rw [show parseStringBody (bslash :: c :: (escStr s ++ dquote :: rest)) acc =
            parseStringBody (escStr s ++ dquote :: rest) (bslash :: acc) from by
        rw [parseStringBody.eq_def]
        dsimp only
        rw [if_neg (by decide), if_pos rfl]
        rw [if_neg (by rw [h2]; decide), if_pos h2]]
      rw [ih hs2 (bslash :: acc) rest]
      simp [h2]
    · rw [show escChar c = [c] from by simp [escChar, h1, h2]]
      rw [show ([c] : List Char) ++ (escStr s ++ dquote :: rest) =
            c :: (escStr s ++ dquote :: rest) from rfl]
      rw [show parseStringBody (c :: (escStr s ++ dquote :: rest)) acc =
            parseStringBody (escStr s ++ dquote :: rest) (c :: acc) from by
        rw [parseStringBody.eq_def]
        dsimp only
        rw [if_neg h1, if_neg h2, if_neg (by omega)]]
      rw [ih hs2 (c :: acc) rest]
      simp

/-- `parseStringBody` on any prefix of an escaped string reports an
unterminated string. -/
theorem psbPrefix (s : List Char) (hs : ValidStr s) :
    ∀ (q acc : List Char), q <+: escStr s →
    parseStringBody q acc = .error (.decodeError msgUnterminated) := by
  induction s with
  | nil =>
    intro q acc hq
    have hq0 : q = [] := List.prefix_nil.mp (by simpa [escStr] using hq)
    subst hq0
    rfl
  | cons c s ih =>
    intro q acc hq
    have hc : 32 ≤ c.toNat := hs c (by simp)
    have hs2 : ValidStr s := fun x hx => hs x (by simp [hx])
    rw [show escStr (c :: s) = escChar c ++ escStr s from by
      simp [escStr]] at hq
    rcases prefixAppendCases _ _ _ hq with hq | ⟨q2, hq2, rfl⟩
    · by_cases h1 : (c = dquote ∨ c = bslash)
      · rw [show escChar c = [bslash, c] from by simp [escChar, h1]] at hq
        rcases prefixPair _ _ _ hq with rfl | rfl | rfl
        · rfl
        · rfl
        · rw [show parseStringBody [bslash, c] acc =
                parseStringBody [] (c :: acc) from by
            rw [parseStringBody.eq_def]
            dsimp only
            rw [if_neg (by decide), if_pos rfl]
            rcases h1 with h1 | h1
            · rw [if_pos h1, h1]
            · rw [if_neg (by rw [h1]; decide), if_pos h1, h1]]
          rfl
      · push_neg at h1
        rw [show escChar c = [c] from by simp [escChar, h1.1, h1.2]] at hq
        rcases prefixSingleton _ _ hq with rfl | rfl
        · rfl
        · rw [show parseStringBody [c] acc = parseStringBody [] (c :: acc) from by
            rw [parseStringBody.eq_def]
            dsimp only
            rw [if_neg h1.1, if_neg h1.2, if_neg (by omega)]]
          rfl
    · by_cases h1 : c = dquote
      · rw [show escChar c = [bslash, c] from by simp [escChar, h1]]
        rw [show ([bslash, c] : List Char) ++ q2 = bslash :: c :: q2 from rfl]
        rw [show parseStringBody (bslash :: c :: q2) acc =
              parseStringBody q2 (dquote :: acc) from by
          rw [parseStringBody.eq_def]
          dsimp only
          rw [if_neg (by decide), if_pos rfl]
          rw [if_pos h1]]
        exact ih hs2 q2 _ hq2
      by_cases h2 : c = bslash
      · rw [show escChar c = [bslash, c] from by simp [escChar, h2]]
        rw [show ([bslash, c] : List Char) ++ q2 = bslash :: c :: q2 from rfl]
        rw [show parseStringBody (bslash :: c :: q2) acc =
              parseStringBody q2 (bslash :: acc) from by
          rw [parseStringBody.eq_def]
          dsimp only
          rw [if_neg (by decide), if_pos rfl]
          rw [if_neg (by rw [h2]; decide), if_pos h2]]
        exact ih hs2 q2 _ hq2
      · rw [show escChar c = [c] from by simp [escChar, h1, h2]]
        rw [show ([c] : List Char) ++ q2 = c :: q2 from rfl]
        rw [show parseStringBody (c :: q2) acc = parseStringBody q2 (c :: acc) from by
          rw [parseStringBody.eq_def]
          dsimp only
          rw [if_neg h1, if_neg h2, if_neg (by omega)]]
        exact ih hs2 q2 _ hq2

/-- Decimal digit characters by code point. -/
theorem charOfNatDigitToNat (m : Nat) (h : m < 10) :
    (Char.ofNat (48 + m)).toNat = 48 + m := by
  interval_cases m <;> decide

/-- A decimal digit character passes `isDig`. -/
theorem charOfNatDigitIsDig (m : Nat) (h : m < 10) :
    isDig (Char.ofNat (48 + m)) = true := by
  interval_cases m <;> decide

/-- `natDigitsAux` produces a nonempty digit string with no leading zero
for positive inputs. -/
theorem natDigitsAuxCons : ∀ (f n : Nat), n < f →
    ∃ c ds, natDigitsAux f n = c :: ds ∧ isDig c = true ∧
      (∀ x ∈ ds, isDig x = true) ∧ (1 ≤ n → c ≠ '0') := by
  intro f
  induction f with
  | zero => intro n h; omega
  | succ f ih =>
    intro n h
    by_cases h10 : n < 10
    · refine ⟨Char.ofNat (48 + n), [], by rw [natDigitsAux, if_pos h10], ?_, by simp, ?_⟩
      · exact charOfNatDigitIsDig n h10
      · intro h1 hc
        have := congrArg Char.toNat hc
        rw [charOfNatDigitToNat n h10] at this
        rw [show ('0' : Char).toNat = 48 from rfl] at this
        omega
    · obtain ⟨c, ds, hds, hc, hall, hz⟩ := ih (n / 10) (by omega)
      refine ⟨c, ds ++ [Char.ofNat (48 + n % 10)], ?_, hc, ?_, ?_⟩
      · rw [natDigitsAux, if_neg h10, hds]
        rfl
      · intro x hx
        rcases List.mem_append.mp hx with hx | hx
        · exact hall x hx
        · rw [List.mem_singleton.mp hx]
          exact charOfNatDigitIsDig _ (Nat.mod_lt n (by omega))
      · intro h1
        exact hz (by omega)

/-- `readDigits` stops at a non-digit (or the end). -/
theorem readDigitsStop (l : List Char) (acc : Nat)
    (h : ∀ c, l.head? = some c → isDig c = false) :
    readDigits l acc = (acc, l) := by
  cases l with
  | nil => rfl
  | cons c rest =>
    rw [readDigits, if_neg (by rw [h c rfl]; simp)]

/-- `readDigits` across the digits of `natDigitsAux`. -/
theorem readDigitsNatAux : ∀ (f n acc : Nat) (rest : List Char), n < f →
    readDigits (natDigitsAux f n ++ rest) acc =
      readDigits rest (acc * 10 ^ (natDigitsAux f n).length + n) := by
  intro f
  induction f with
  | zero => intro n acc rest h; omega
  | succ f ih =>
    intro n acc rest h
    by_cases h10 : n < 10
    · rw [natDigitsAux, if_pos h10]
      rw [List.singleton_append, readDigits,
        if_pos (charOfNatDigitIsDig n h10)]
      rw [charOfNatDigitToNat n h10]
      simp only [List.length_singleton, pow_one]
      congr 1
      omega
    · rw [natDigitsAux, if_neg h10]
      rw [List.append_assoc, ih (n / 10) acc _ (by omega)]
      rw [List.singleton_append, readDigits,
        if_pos (charOfNatDigitIsDig _ (Nat.mod_lt n (by omega)))]
      rw [charOfNatDigitToNat _ (Nat.mod_lt n (by omega))]
      congr 1
      rw [List.length_append, List.length_singleton, pow_add, pow_one]
      have : acc * (10 ^ (natDigitsAux f (n / 10)).length * 10) =
          acc * 10 ^ (natDigitsAux f (n / 10)).length * 10 := by ring
      rw [this]
      omega

/-- `parseNumber` on a nonzero leading digit runs `readDigits`. -/
theorem parseNumberPos (c : Char) (X : List Char) (hcm : c ≠ '-')
    (hc : isDig c = true) (h0 : c ≠ '0') :
    parseNumber (c :: X) =
      (let p := readDigits (c :: X) 0; .ok (.jnum (p.1 : Int), p.2)) := by
  rw [parseNumber.eq_def]
  split
  case _ rest heq =>
    rw [List.cons.injEq] at heq
    exact absurd heq.1 hcm
  case _ c2 rest heq =>
    rw [List.cons.injEq] at heq
    obtain ⟨rfl, rfl⟩ := heq
    rw [if_neg h0, if_pos hc]
  case _ heq => cases heq

/-- `parseNumber` on a leading zero returns zero at once. -/
theorem parseNumberZero (X : List Char) :
    parseNumber ('0' :: X) = .ok (.jnum 0, X) := by
  rw [parseNumber.eq_def]
  split
  case _ rest heq =>
    rw [List.cons.injEq] at heq
    exact absurd heq.1 (by decide)
  case _ c2 rest heq =>
    rw [List.cons.injEq] at heq
    obtain ⟨rfl, rfl⟩ := heq
    rw [if_pos rfl]
  case _ heq => cases heq

/-- `readDigits` consumes an all-digit list entirely. -/
theorem readDigitsAll : ∀ (l : List Char) (acc : Nat),
    (∀ c ∈ l, isDig c = true) → ∃ m, readDigits l acc = (m, []) := by
  intro l
  induction l with
  | nil => intro acc h; exact ⟨acc, rfl⟩
  | cons c rest ih =>
    intro acc h
    rw [readDigits, if_pos (h c (by simp))]
    exact ih _ (fun x hx => h x (by simp [hx]))

/-- The decimal rendering of `n` parses back to `n`. -/
theorem parseNumberDigits (n : Nat) (rest : List Char)
    (hrest : ∀ c, rest.head? = some c → isDig c = false) :
    parseNumber (natDigits n ++ rest) = .ok (.jnum (n : Int), rest) := by
  obtain ⟨c, ds, hds, hc, hall, hz⟩ := natDigitsAuxCons (n + 1) n (by omega)
  rw [show natDigits n = c :: ds from hds]
  rw [List.cons_append]
  by_cases h0 : c = '0'
  · have hn0 : n = 0 := by
      by_contra hne
      exact hz (by omega) h0
    subst hn0
    have hds0 : ds = [] := by
      have h2 := hds
      rw [show natDigitsAux 1 0 = ['0'] from rfl] at h2
      cases h2
      rfl
    subst hds0
    rw [h0, parseNumberZero]
    simp
  · rw [parseNumberPos c _ (isDigNe c hc _ (by decide)) hc h0]
    have h2 := readDigitsNatAux (n + 1) n 0 rest (by omega)
    rw [hds, List.cons_append] at h2
    dsimp only
    rw [h2, readDigitsStop rest _ hrest]
    simp

/-- `parseNumber` on a nonempty all-digit input succeeds with an all-digit
remainder. -/
theorem parseNumberAllDigits (ds : List Char) (hne : ds ≠ [])
    (hall : ∀ c ∈ ds, isDig c = true) :
    ∃ m r, parseNumber ds = .ok (.jnum m, r) ∧ (∀ c ∈ r, isDig c = true) := by
  cases ds with
  | nil => exact absurd rfl hne
  | cons c rest =>
    have hc := hall c (by simp)
    have hrest : ∀ x ∈ rest, isDig x = true := fun x hx => hall x (by simp [hx])
    by_cases h0 : c = '0'
    · subst h0
      rw [parseNumberZero]
      exact ⟨0, rest, rfl, hrest⟩
    · rw [parseNumberPos c _ (isDigNe c hc _ (by decide)) hc h0]
      obtain ⟨m, hm⟩ := readDigitsAll (c :: rest) 0 hall
      dsimp only
      rw [hm]
      exact ⟨m, [], rfl, by simp⟩

/-- `skipWs` keeps a non-whitespace head. -/
theorem skipWsCons (c : Char) (l : List Char)
    (h : ¬ (c = ' ' ∨ c = Char.ofNat 9 ∨ c = Char.ofNat 10 ∨ c = Char.ofNat 13)) :
    skipWs (c :: l) = c :: l := by
  unfold skipWs
  rw [List.dropWhile_cons, if_neg (by simpa using h)]

/-- `parseValue` on the empty input. -/
theorem parseValueEmpty (depth fuel : Nat) :
    parseValue depth fuel [] = .error (.decodeError msgExpValue) := by
  rw [parseValue.eq_def]
  rfl

/-- `parseValue` on a quoted escaped string. -/
theorem parseValueStr (s : List Char) (hs : ValidStr s) (depth fuel : Nat)
    (rest : List Char) :
    parseValue depth fuel (dquote :: (escStr s ++ dquote :: rest)) =
      .ok (.jstr s, rest) := by
  rw [parseValue.eq_def]
  dsimp only
  rw [skipWsCons _ _ (by decide)]
  dsimp only
  rw [if_pos rfl]
  rw [psbEsc s hs [] rest]
  simp

/-- `parseValue` on a digit head is `parseNumber`. -/
theorem parseValueDigit (c : Char) (X : List Char) (depth fuel : Nat)
    (hc : isDig c = true) :
    parseValue depth fuel (c :: X) = parseNumber (c :: X) := by
  rw [parseValue.eq_def]
  dsimp only
  rw [skipWsCons _ _ (by
    rintro (h | h | h | h) <;> (rw [h] at hc; exact absurd hc (by decide)))]
  dsimp only
  rw [if_neg (isDigNe c hc _ (by decide)), if_neg (isDigNe c hc _ (by decide)),
    if_neg (isDigNe c hc _ (by decide)), if_neg (isDigNe c hc _ (by decide)),
    if_neg (isDigNe c hc _ (by decide)), if_neg (isDigNe c hc _ (by decide))]

/-- `parseValue` on a rendered number followed by a non-digit. -/
theorem parseValueNum (n : Nat) (depth fuel : Nat) (rest : List Char)
    (hrest : ∀ c, rest.head? = some c → isDig c = false) :
    parseValue depth fuel (natDigits n ++ rest) = .ok (.jnum (n : Int), rest) := by
  obtain ⟨c, ds, hds, hc, hall, hz⟩ := natDigitsAuxCons (n + 1) n (by omega)
  rw [show natDigits n = c :: ds from hds, List.cons_append,
    parseValueDigit c _ depth fuel hc, ← List.cons_append,
    ← show natDigits n = c :: ds from hds]
  exact parseNumberDigits n rest hrest

/-- Normal form of a string member followed by a separator. -/
theorem memberStrNorm (k s : List Char) (sep : Char) (TAIL : List Char) :
    memberChars (k, .vstr s) ++ sep :: TAIL =
      dquote :: (k ++ dquote :: colonChar :: dquote ::
        (escStr s ++ dquote :: sep :: TAIL)) := by
  simp only [memberChars, List.cons_append, List.append_assoc,
    List.singleton_append, List.nil_append]

/-- Normal form of a number member followed by a separator. -/
theorem memberNumNorm (k : List Char) (n : Nat) (sep : Char) (TAIL : List Char) :
    memberChars (k, .vnum n) ++ sep :: TAIL =
      dquote :: (k ++ dquote :: colonChar :: (natDigits n ++ sep :: TAIL)) := by
  simp only [memberChars, List.cons_append, List.append_assoc,
    List.singleton_append, List.nil_append]

/-- One string member of an object, continued by a comma. -/
theorem memberStrStepComma (k s : List Char) (hk : ∀ c ∈ k, PlainChar c)
    (hs : ValidStr s) (depth fuel : Nat) (acc : List (List Char × Json))
    (TAIL : List Char) :
    parseMembers depth (fuel + 1) (dquote :: (k ++ dquote :: colonChar :: dquote ::
        (escStr s ++ dquote :: commaChar :: TAIL))) acc =
      parseMembers depth fuel (skipWs TAIL) (acc ++ [(k, .jstr s)]) := by
  rw [parseMembers.eq_def]
  dsimp only
  rw [if_pos rfl]
  rw [psbKey k hk [] _]
  simp only [List.reverse_nil, List.nil_append]
  rw [skipWsCons _ _ (by decide)]
  dsimp only
  rw [if_pos rfl]
  rw [parseValueStr s hs depth fuel _]
  dsimp only
  rw [skipWsCons _ _ (by decide)]
  dsimp only
  rw [if_neg (by decide), if_pos rfl]

/-- The final string member of an object, closed by a brace. -/
theorem memberStrStepBrace (k s : List Char) (hk : ∀ c ∈ k, PlainChar c)
    (hs : ValidStr s) (depth fuel : Nat) (acc : List (List Char × Json))
    (TAIL : List Char) :
    parseMembers depth (fuel + 1) (dquote :: (k ++ dquote :: colonChar :: dquote ::
        (escStr s ++ dquote :: rbrace :: TAIL))) acc =
      .ok (.jobj (acc ++ [(k, .jstr s)]), TAIL) := by
  rw [parseMembers.eq_def]
  dsimp only
  rw [if_pos rfl]
  rw [psbKey k hk [] _]
  simp only [List.reverse_nil, List.nil_append]
  rw [skipWsCons _ _ (by decide)]
  dsimp only
  rw [if_pos rfl]
  rw [parseValueStr s hs depth fuel _]
  dsimp only
  rw [skipWsCons _ _ (by decide)]
  dsimp only
  rw [if_pos rfl]

/-- A number member of an object, continued by a comma. -/
theorem memberNumStepComma (k : List Char) (n : Nat)
    (hk : ∀ c ∈ k, PlainChar c) (depth fuel : Nat) (acc : List (List Char × Json))
    (TAIL : List Char) :
    parseMembers depth (fuel + 1) (dquote :: (k ++ dquote :: colonChar ::
        (natDigits n ++ commaChar :: TAIL))) acc =
      parseMembers depth fuel (skipWs TAIL) (acc ++ [(k, .jnum (n : Int))]) := by
  rw [parseMembers.eq_def]
  dsimp only
  rw [if_pos rfl]
  rw [psbKey k hk [] _]
  simp only [List.reverse_nil, List.nil_append]
  rw [skipWsCons _ _ (by decide)]
  dsimp only
  rw [if_pos rfl]
  rw [parseValueNum n depth fuel _ (by intro c hc; cases hc; decide)]
  dsimp only
  rw [skipWsCons _ _ (by decide)]
  dsimp only
  rw [if_neg (by decide), if_pos rfl]

/-- Normal form of a serialized record followed by arbitrary text. -/
theorem serializeRecNorm (r : PlanRec) (rest : List Char) :
    serializeRec r ++ rest =
      lbrace :: (memberChars ("step".data, .vnum r.step) ++ commaChar ::
        (memberChars ("action".data, .vstr r.action) ++ commaChar ::
          (memberChars ("target".data, .vstr r.target) ++ commaChar ::
            (memberChars ("content_instruction".data, .vstr r.content_instruction) ++
              rbrace :: rest)))) := by
  simp only [serializeRec, objChars, recMembers, List.map_cons, List.map_nil,
    joinComma, List.cons_append, List.append_assoc, List.singleton_append,
    List.nil_append]

/-- A serialized record parses back to its JSON object at any depth below
the recursion limit. -/
theorem parseValueRec (r : PlanRec) (hv : ValidRec r) (depth f : Nat)
    (hd : depth < recursionLimit) (rest : List Char) :
    parseValue depth (f + 5) (serializeRec r ++ rest) = .ok (recToJson r, rest) := by
  rw [serializeRecNorm]
  rw [parseValue.eq_def]
  dsimp only
  rw [skipWsCons _ _ (by decide)]
  dsimp only
  rw [if_neg (by decide), if_neg (by decide), if_pos rfl]
  rw [if_neg (Nat.not_le.mpr hd)]
  rw [memberNumNorm]
  rw [skipWsCons _ _ (by decide)]
  dsimp only
  rw [if_neg (by decide)]
  rw [show f + 4 = (f + 3) + 1 from rfl]
  rw [memberNumStepComma "step".data r.step (by decide) (depth + 1) (f + 3) [] _]
  rw [memberStrNorm]
  rw [skipWsCons _ _ (by decide)]
  rw [show f + 3 = (f + 2) + 1 from rfl]
  rw [memberStrStepComma "action".data r.action (by decide) hv.1 (depth + 1)
    (f + 2) _ _]
  rw [memberStrNorm]
  rw [skipWsCons _ _ (by decide)]
  rw [show f + 2 = (f + 1) + 1 from rfl]
  rw [memberStrStepComma "target".data r.target (by decide) hv.2.1 (depth + 1)
    (f + 1) _ _]
  rw [memberStrNorm]
  rw [skipWsCons _ _ (by decide)]
  rw [show f + 1 = f + 1 from rfl]
  rw [memberStrStepBrace "content_instruction".data r.content_instruction
    (by decide) hv.2.2 (depth + 1) f _ _]
  simp [recToJson]

/-- A serialized nonempty plan body parses element by element at any depth
below the recursion limit. -/
theorem parseElemsRecs : ∀ (recs : List PlanRec) (depth fuel : Nat)
    (acc : List Json) (rest : List Char),
    (∀ r ∈ recs, ValidRec r) → recs ≠ [] → 6 * recs.length ≤ fuel →
    depth < recursionLimit →
    parseElems depth fuel (joinComma (recs.map serializeRec) ++ rbrack :: rest) acc =
      .ok (.jarr (acc ++ recs.map recToJson), rest) := by
  intro recs
  induction recs with
  | nil => intro depth fuel acc rest hv hne hfuel hd; exact absurd rfl hne
  | cons r rs ih =>
    intro depth fuel acc rest hv hne hfuel hd
    have hvr : ValidRec r := hv r (by simp)
    cases fuel with
    | zero => simp at hfuel
    | succ g =>
      have hg : 5 ≤ g := by simp [List.length_cons] at hfuel; omega
      cases rs with
      | nil =>
        rw [show joinComma ([r].map serializeRec) = serializeRec r from rfl]
        rw [parseElems.eq_def]
        dsimp only
        rw [show g = (g - 5) + 5 from by omega]
        rw [parseValueRec r hvr _ _ hd _]
        dsimp only
        rw [skipWsCons _ _ (by decide)]
        dsimp only
        rw [if_pos rfl]
        simp
      | cons r2 rs2 =>
        rw [show joinComma ((r :: r2 :: rs2).map serializeRec) =
              serializeRec r ++ commaChar ::
                joinComma ((r2 :: rs2).map serializeRec) from by
            rw [List.map_cons, joinComma.eq_def]
            rfl]
        rw [List.append_assoc, List.cons_append]
        rw [parseElems.eq_def]
        dsimp only
        rw [show g = (g - 5) + 5 from by omega]
        rw [parseValueRec r hvr _ _ hd _]
        dsimp only
        rw [skipWsCons _ _ (by decide)]
        dsimp only
        rw [if_neg (by decide), if_pos rfl]
        rw [show (g - 5) + 5 = g from by omega]
        rw [ih depth g (acc ++ [recToJson r]) rest
          (fun x hx => hv x (by simp [hx])) (by simp)
          (by simp [List.length_cons] at hfuel ⊢; omega) hd]
        simp

/-- A serialized record is at least 59 characters long. -/
theorem serializeRecLen (r : PlanRec) : 59 ≤ (serializeRec r).length := by
  obtain ⟨c, ds, hds, -, -, -⟩ := natDigitsAuxCons (r.step + 1) r.step (by omega)
  have hdl : 1 ≤ (natDigits r.step).length := by
    rw [show natDigits r.step = c :: ds from hds]
    simp
  have := serializeRecNorm r []
  rw [List.append_nil] at this
  rw [this]
  simp only [List.length_cons, List.length_append, memberChars,
    List.length_singleton, List.length_nil]
  omega

/-- A serialized record parses back on its own. -/
theorem jsonParseRec (r : PlanRec) (hv : ValidRec r) :
    jsonParse (serializeRec r) = .ok (recToJson r) := by
  unfold jsonParse
  have hlen := serializeRecLen r
  rw [show 2 * (serializeRec r).length + 2 =
        (2 * (serializeRec r).length + 2 - 5) + 5 from by omega]
  rw [show serializeRec r = serializeRec r ++ [] from by simp]
  rw [parseValueRec r hv 0 _ (by decide) []]
  rfl

/-- The body of a serialized plan has at least nine characters per
record. -/
theorem joinCommaRecsLen : ∀ (recs : List PlanRec),
    60 * recs.length - 1 ≤ (joinComma (recs.map serializeRec)).length := by
  intro recs
  induction recs with
  | nil => simp
  | cons r rs ih =>
    cases rs with
    | nil =>
      have := serializeRecLen r
      simp only [List.map_cons, List.map_nil, joinComma, List.length_cons,
        List.length_nil]
      omega
    | cons r2 rs2 =>
      have := serializeRecLen r
      rw [show joinComma ((r :: r2 :: rs2).map serializeRec) =
            serializeRec r ++ commaChar ::
              joinComma ((r2 :: rs2).map serializeRec) from by
          rw [List.map_cons, joinComma.eq_def]
          rfl]
      rw [List.length_append, List.length_cons]
      simp only [List.length_cons] at ih ⊢
      omega

/-- A serialized nonempty plan parses back to the array of its records. -/
theorem jsonParsePlan (recs : List PlanRec) (hv : ∀ r ∈ recs, ValidRec r)
    (hne : recs ≠ []) :
    jsonParse (serializePlan recs) = .ok (.jarr (recs.map recToJson)) := by
  unfold jsonParse serializePlan
  rw [List.cons_append]
  rw [parseValue.eq_def]
  dsimp only
  rw [skipWsCons _ _ (by decide)]
  dsimp only
  rw [if_neg (by decide), if_pos rfl]
  rw [if_neg (by decide)]
  cases recs with
  | nil => exact absurd rfl hne
  | cons r rs =>
    obtain ⟨T, hT⟩ : ∃ T, joinComma ((r :: rs).map serializeRec) =
        serializeRec r ++ T := by
      cases rs with
      | nil => exact ⟨[], by simp [joinComma]⟩
      | cons r2 rs2 =>
        refine ⟨commaChar :: joinComma ((r2 :: rs2).map serializeRec), ?_⟩
        rw [List.map_cons, joinComma.eq_def]
        rfl
    have hlen := joinCommaRecsLen (r :: rs)
    have hcons : ∃ X, joinComma ((r :: rs).map serializeRec) ++ [rbrack] =
        lbrace :: X := by
      rw [hT, List.append_assoc, serializeRecNorm]
      exact ⟨_, rfl⟩
    obtain ⟨X, hX⟩ := hcons
    rw [show (lbrack :: (joinComma ((r :: rs).map serializeRec) ++ [rbrack])).length
          = (joinComma ((r :: rs).map serializeRec)).length + 2 from by
        simp]
    rw [hX]
    rw [skipWsCons _ _ (by decide)]
    dsimp only
    rw [if_neg (by decide)]
    rw [← hX]
    rw [show joinComma ((r :: rs).map serializeRec) ++ [rbrack] =
          joinComma ((r :: rs).map serializeRec) ++ rbrack :: [] from rfl]
    rw [parseElemsRecs (r :: rs) 1 _ [] [] hv (by simp)
      (by simp only [List.length_cons] at hlen ⊢; omega) (by decide)]
    rfl

/-- Escaping is the identity on plain characters. -/
theorem escStrPlain (k : List Char) (hk : ∀ c ∈ k, PlainChar c) :
    escStr k = k := by
  induction k with
  | nil => rfl
  | cons c k ih =>
    obtain ⟨h1, h2, h3⟩ := hk c (by simp)
    rw [show escStr (c :: k) = escChar c ++ escStr k from by simp [escStr]]
    rw [ih (fun x hx => hk x (by simp [hx]))]
    rw [show escChar c = [c] from by simp [escChar, h1, h2]]
    rfl

/-- Plain characters are valid string characters. -/
theorem plainValid (k : List Char) (hk : ∀ c ∈ k, PlainChar c) :
    ValidStr k := fun c hc => (hk c hc).2.2

/-- `parseMembers` on the empty input wants a property name. -/
theorem parseMembersNil (depth fuel : Nat) (acc : List (List Char × Json)) :
    parseMembers depth (fuel + 1) [] acc = .error (.decodeError msgExpProp) := by
  rw [parseMembers.eq_def]

/-- Normal form of a string member alone. -/
theorem memberStrNormEnd (k s : List Char) :
    memberChars (k, .vstr s) =
      dquote :: (k ++ dquote :: colonChar :: dquote :: (escStr s ++ [dquote])) := by
  simp only [memberChars, List.cons_append, List.append_assoc,
    List.singleton_append, List.nil_append]

/-- Normal form of a number member alone. -/
theorem memberNumNormEnd (k : List Char) (n : Nat) :
    memberChars (k, .vnum n) =
      dquote :: (k ++ dquote :: colonChar :: natDigits n) := by
  simp only [memberChars, List.cons_append, List.append_assoc,
    List.singleton_append, List.nil_append]

/-- Any prefix of a string member fails with a truncation-like error. -/
theorem memberStrPrefixErr (k s : List Char) (hk : ∀ c ∈ k, PlainChar c)
    (hs : ValidStr s) (depth fuel : Nat) (Q : List Char)
    (acc : List (List Char × Json)) (hQ : Q <+: memberChars (k, .vstr s)) :
    ∃ e, parseMembers depth (fuel + 1) Q acc = .error (.decodeError e) ∧
      truncLike e = true := by
  rw [memberStrNormEnd] at hQ
  rcases prefixConsCases _ _ _ hQ with rfl | ⟨q1, hq1, rfl⟩
  · exact ⟨msgExpProp, parseMembersNil depth fuel acc, by decide⟩
  rw [parseMembers.eq_def]
  dsimp only
  rw [if_pos rfl]
  rcases prefixAppendCases _ _ _ hq1 with hq1 | ⟨q2, hq2, rfl⟩
  · rw [psbPrefix k (plainValid k hk) q1 [] (by rw [escStrPlain k hk]; exact hq1)]
    exact ⟨msgUnterminated, rfl, by decide⟩
  rcases prefixConsCases _ _ _ hq2 with rfl | ⟨q3, hq3, rfl⟩
  · rw [List.append_nil]
    rw [psbPrefix k (plainValid k hk) k [] (by rw [escStrPlain k hk])]
    exact ⟨msgUnterminated, rfl, by decide⟩
  rw [psbKey k hk [] q3]
  simp only [List.reverse_nil, List.nil_append]
  rcases prefixConsCases _ _ _ hq3 with rfl | ⟨q4, hq4, rfl⟩
  · exact ⟨msgExpColon, rfl, by decide⟩
  rw [skipWsCons _ _ (by decide)]
  dsimp only
  rw [if_pos rfl]
  rcases prefixConsCases _ _ _ hq4 with rfl | ⟨q5, hq5, rfl⟩
  · rw [parseValueEmpty]
    exact ⟨msgExpValue, rfl, by decide⟩
  rw [parseValue.eq_def]
  dsimp only
  rw [skipWsCons _ _ (by decide)]
  dsimp only
  rw [if_pos rfl]
  rcases prefixAppendCases _ _ _ hq5 with hq5 | ⟨q6, hq6, rfl⟩
  · rw [psbPrefix s hs q5 [] hq5]
    exact ⟨msgUnterminated, rfl, by decide⟩
  rcases prefixSingleton _ _ hq6 with rfl | rfl
  · rw [List.append_nil]
    rw [psbPrefix s hs (escStr s) [] (List.prefix_refl _)]
    exact ⟨msgUnterminated, rfl, by decide⟩
  · rw [show escStr s ++ [dquote] = escStr s ++ dquote :: [] from rfl]
    rw [psbEsc s hs [] []]
    dsimp only
    exact ⟨msgExpComma, rfl, by decide⟩

/-- Any prefix of a number member fails with a truncation-like error. -/
theorem memberNumPrefixErr (k : List Char) (n : Nat)
    (hk : ∀ c ∈ k, PlainChar c) (depth fuel : Nat) (Q : List Char)
    (acc : List (List Char × Json)) (hQ : Q <+: memberChars (k, .vnum n)) :
    ∃ e, parseMembers depth (fuel + 1) Q acc = .error (.decodeError e) ∧
      truncLike e = true := by
  rw [memberNumNormEnd] at hQ
  rcases prefixConsCases _ _ _ hQ with rfl | ⟨q1, hq1, rfl⟩
  · exact ⟨msgExpProp, parseMembersNil depth fuel acc, by decide⟩
  rw [parseMembers.eq_def]
  dsimp only
  rw [if_pos rfl]
  rcases prefixAppendCases _ _ _ hq1 with hq1 | ⟨q2, hq2, rfl⟩
  · rw [psbPrefix k (plainValid k hk) q1 [] (by rw [escStrPlain k hk]; exact hq1)]
    exact ⟨msgUnterminated, rfl, by decide⟩
  rcases prefixConsCases _ _ _ hq2 with rfl | ⟨q3, hq3, rfl⟩
  · rw [List.append_nil]
    rw [psbPrefix k (plainValid k hk) k [] (by rw [escStrPlain k hk])]
    exact ⟨msgUnterminated, rfl, by decide⟩
  rw [psbKey k hk [] q3]
  simp only [List.reverse_nil, List.nil_append]
  rcases prefixConsCases _ _ _ hq3 with rfl | ⟨q4, hq4, rfl⟩
  · exact ⟨msgExpColon, rfl, by decide⟩
  rw [skipWsCons _ _ (by decide)]
  dsimp only
  rw [if_pos rfl]
  cases hq4e : q4 with
  | nil =>
    rw [parseValueEmpty]
    exact ⟨msgExpValue, rfl, by decide⟩
  | cons c q5 =>
    subst hq4e
    obtain ⟨d, ds, hds, hd, hall, hz⟩ := natDigitsAuxCons (n + 1) n (by omega)
    have hsub := hq4.subset
    rw [show natDigits n = d :: ds from hds] at hsub
    have hdig : ∀ x ∈ c :: q5, isDig x = true := by
      intro x hx
      rcases List.mem_cons.mp (hsub hx) with rfl | hx2
      · exact hd
      · exact hall x hx2
    rw [parseValueDigit c q5 depth fuel (hdig c (by simp))]
    obtain ⟨m, rr, hmr, hrr⟩ := parseNumberAllDigits (c :: q5) (by simp) hdig
    rw [hmr]
    dsimp only
    cases hrre : rr with
    | nil => exact ⟨msgExpComma, rfl, by decide⟩
    | cons c2 r2 =>
      subst hrre
      have hc2 := hrr c2 (by simp)
      rw [skipWsCons _ _ (by
        rintro (h | h | h | h) <;> (rw [h] at hc2; exact absurd hc2 (by decide)))]
      dsimp only
      rw [if_neg (isDigNe c2 hc2 _ (by decide)),
        if_neg (isDigNe c2 hc2 _ (by decide))]
      exact ⟨msgExpComma, rfl, by decide⟩

/-- Normal form of the member chain of a record. -/
theorem innerNorm (r : PlanRec) :
    joinComma ((recMembers r).map memberChars) =
      memberChars ("step".data, .vnum r.step) ++ commaChar ::
        (memberChars ("action".data, .vstr r.action) ++ commaChar ::
          (memberChars ("target".data, .vstr r.target) ++ commaChar ::
            memberChars ("content_instruction".data,
              .vstr r.content_instruction))) := by
  simp [recMembers, joinComma]

/-- Any prefix of the member chain of a record fails with a
truncation-like error. -/
theorem parseMembersPrefixRec (r : PlanRec) (hv : ValidRec r) (depth f : Nat)
    (Q : List Char) (acc : List (List Char × Json))
    (hQ : Q <+: joinComma ((recMembers r).map memberChars)) :
    ∃ e, parseMembers depth (f + 4) Q acc = .error (.decodeError e) ∧
      truncLike e = true := by
  rw [innerNorm] at hQ
  have hstep : ∀ c ∈ ("step".data : List Char), PlainChar c := by decide
  have hact : ∀ c ∈ ("action".data : List Char), PlainChar c := by decide
  have htgt : ∀ c ∈ ("target".data : List Char), PlainChar c := by decide
  have hci : ∀ c ∈ ("content_instruction".data : List Char), PlainChar c := by
    decide
  rcases prefixAppendCases _ _ _ hQ with hQ | ⟨q1, hq1, rfl⟩
  · rw [show f + 4 = (f + 3) + 1 from rfl]
    exact memberNumPrefixErr _ _ hstep depth (f + 3) Q acc hQ
  rcases prefixConsCases _ _ _ hq1 with rfl | ⟨q2, hq2, rfl⟩
  · rw [List.append_nil, show f + 4 = (f + 3) + 1 from rfl]
    exact memberNumPrefixErr _ _ hstep depth (f + 3) _ acc (List.prefix_refl _)
  rw [memberNumNorm, show f + 4 = (f + 3) + 1 from rfl,
    memberNumStepComma "step".data r.step hstep depth (f + 3) acc q2]
  rcases prefixAppendCases _ _ _ hq2 with hq2 | ⟨q3, hq3, rfl⟩
  · cases hq2e : q2 with
    | nil =>
      rw [show skipWs [] = [] from rfl, show f + 3 = (f + 2) + 1 from rfl]
      exact ⟨msgExpProp, parseMembersNil _ _ _, by decide⟩
    | cons c q2t =>
      subst hq2e
      have hc : c = dquote := by
        rw [memberStrNormEnd] at hq2
        exact (List.cons_prefix_cons.mp hq2).1
      subst hc
      rw [skipWsCons _ _ (by decide), show f + 3 = (f + 2) + 1 from rfl]
      exact memberStrPrefixErr _ _ hact hv.1 depth (f + 2) _ _ hq2
  rcases prefixConsCases _ _ _ hq3 with rfl | ⟨q4, hq4, rfl⟩
  · rw [List.append_nil]
    have hc : ∃ t, memberChars ("action".data, JVal.vstr r.action) = dquote :: t := by
      rw [memberStrNormEnd]
      exact ⟨_, rfl⟩
    obtain ⟨t, ht⟩ := hc
    rw [ht, skipWsCons _ _ (by decide), ← ht,
      show f + 3 = (f + 2) + 1 from rfl]
    exact memberStrPrefixErr _ _ hact hv.1 depth (f + 2) _ _ (List.prefix_refl _)
  have hq2c : ∃ t, memberChars ("action".data, JVal.vstr r.action) ++
      commaChar :: q4 = dquote :: t := by
    rw [memberStrNorm]
    exact ⟨_, rfl⟩
  obtain ⟨t, ht⟩ := hq2c
  rw [ht, skipWsCons _ _ (by decide), ← ht]
  rw [memberStrNorm, show f + 3 = (f + 2) + 1 from rfl,
    memberStrStepComma "action".data r.action hact hv.1 depth (f + 2) _ q4]
  rcases prefixAppendCases _ _ _ hq4 with hq4 | ⟨q5, hq5, rfl⟩
  · cases hq4e : q4 with
    | nil =>
      rw [show skipWs [] = [] from rfl, show f + 2 = (f + 1) + 1 from rfl]
      exact ⟨msgExpProp, parseMembersNil _ _ _, by decide⟩
    | cons c q4t =>
      subst hq4e
      have hc : c = dquote := by
        rw [memberStrNormEnd] at hq4
        exact (List.cons_prefix_cons.mp hq4).1
      subst hc
      rw [skipWsCons _ _ (by decide), show f + 2 = (f + 1) + 1 from rfl]
      exact memberStrPrefixErr _ _ htgt hv.2.1 depth (f + 1) _ _ hq4
  rcases prefixConsCases _ _ _ hq5 with rfl | ⟨q6, hq6, rfl⟩
  · rw [List.append_nil]
    have hc : ∃ t, memberChars ("target".data, JVal.vstr r.target) = dquote :: t := by
      rw [memberStrNormEnd]
      exact ⟨_, rfl⟩
    obtain ⟨t2, ht2⟩ := hc
    rw [ht2, skipWsCons _ _ (by decide), ← ht2,
      show f + 2 = (f + 1) + 1 from rfl]
    exact memberStrPrefixErr _ _ htgt hv.2.1 depth (f + 1) _ _ (List.prefix_refl _)
  have hq4c : ∃ t, memberChars ("target".data, JVal.vstr r.target) ++
      commaChar :: q6 = dquote :: t := by
    rw [memberStrNorm]
    exact ⟨_, rfl⟩
  obtain ⟨t2, ht2⟩ := hq4c
  rw [ht2, skipWsCons _ _ (by decide), ← ht2]
  rw [memberStrNorm, show f + 2 = (f + 1) + 1 from rfl,
    memberStrStepComma "target".data r.target htgt hv.2.1 depth (f + 1) _ q6]
  cases hq6e : q6 with
  | nil =>
    rw [show skipWs [] = [] from rfl, show f + 1 = f + 1 from rfl]
    cases f with
    | zero => exact ⟨msgExpProp, parseMembersNil depth 0 _, by decide⟩
    | succ f2 => exact ⟨msgExpProp, parseMembersNil _ _ _, by decide⟩
  | cons c q6t =>
    subst hq6e
    have hc : c = dquote := by
      rw [memberStrNormEnd] at hq6
      exact (List.cons_prefix_cons.mp hq6).1
    subst hc
    rw [skipWsCons _ _ (by decide)]
    cases f with
    | zero =>
      exact memberStrPrefixErr _ _ hci hv.2.2 depth 0 _ _ hq6
    | succ f2 =>
      exact memberStrPrefixErr _ _ hci hv.2.2 depth (f2 + 1) _ _ hq6

/-- Any proper nonempty prefix of a serialized record fails with a
truncation-like error. -/
theorem parseValuePrefixRec (r : PlanRec) (hv : ValidRec r) (depth f : Nat)
    (hd : depth < recursionLimit)
    (P : List Char) (hP : P <+: serializeRec r) (hne : P ≠ [])
    (hproper : P.length < (serializeRec r).length) :
    ∃ e, parseValue depth (f + 5) P = .error (.decodeError e) ∧
      truncLike e = true := by
  have hrec : serializeRec r =
      lbrace :: (joinComma ((recMembers r).map memberChars) ++ [rbrace]) := by
    rw [serializeRec, objChars]
    rfl
  rw [hrec] at hP hproper
  rcases prefixConsCases _ _ _ hP with rfl | ⟨Q, hQ, rfl⟩
  · exact absurd rfl hne
  have hQinner : Q <+: joinComma ((recMembers r).map memberChars) := by
    refine prefixDropLast _ _ _ hQ ?_
    simp only [List.length_cons, List.length_append, List.length_singleton,
      List.length_nil] at hproper ⊢
    omega
  rw [parseValue.eq_def]
  dsimp only
  rw [skipWsCons _ _ (by decide)]
  dsimp only
  rw [if_neg (by decide), if_neg (by decide), if_pos rfl]
  rw [if_neg (Nat.not_le.mpr hd)]
  cases hQe : Q with
  | nil => exact ⟨msgExpProp, rfl, by decide⟩
  | cons c Qt =>
    subst hQe
    have hc : c = dquote := by
      have := hQinner
      rw [innerNorm, memberNumNormEnd, List.cons_append] at this
      exact (List.cons_prefix_cons.mp this).1
    subst hc
    rw [skipWsCons _ _ (by decide)]
    dsimp only
    rw [if_neg (by decide)]
    exact parseMembersPrefixRec r hv (depth + 1) f _ [] hQinner

/-- Parsing the body of a truncated plan: the complete records are
consumed and the final partial record fails with a truncation-like
error. -/
theorem parseElemsPrefix : ∀ (recs : List PlanRec) (last : PlanRec)
    (depth fuel : Nat) (acc : List Json) (P : List Char),
    (∀ r ∈ recs, ValidRec r) → ValidRec last → recs ≠ [] →
    P <+: serializeRec last → P ≠ [] →
    P.length < (serializeRec last).length →
    6 * recs.length + 6 ≤ fuel → depth < recursionLimit →
    ∃ e, parseElems depth fuel
        (joinComma (recs.map serializeRec) ++ commaChar :: P) acc =
      .error (.decodeError e) ∧ truncLike e = true := by
  intro recs
  induction recs with
  | nil => intro last depth fuel acc P hv hvl hne; exact absurd rfl hne
  | cons r rs ih =>
    intro last depth fuel acc P hv hvl hne hP hPne hPlen hfuel hd
    have hvr : ValidRec r := hv r (by simp)
    cases fuel with
    | zero => simp at hfuel
    | succ g =>
      have hg : 11 ≤ g := by simp [List.length_cons] at hfuel; omega
      cases rs with
      | nil =>
        rw [show joinComma ([r].map serializeRec) = serializeRec r from by
          simp [joinComma]]
        rw [parseElems.eq_def]
        dsimp only
        rw [show g = (g - 5) + 5 from by omega]
        rw [parseValueRec r hvr _ _ hd _]
        dsimp only
        rw [skipWsCons _ _ (by decide)]
        dsimp only
        rw [if_neg (by decide), if_pos rfl]
        rw [show (g - 5) + 5 = ((g - 5) + 4) + 1 from rfl]
        obtain ⟨e, he, ht⟩ := parseValuePrefixRec last hvl depth ((g - 5) - 1) hd
          P hP hPne hPlen
        rw [show ((g - 5) - 1) + 5 = (g - 5) + 4 from by omega] at he
        rw [parseElems.eq_def]
        dsimp only
        rw [he]
        exact ⟨e, rfl, ht⟩
      | cons r2 rs2 =>
        rw [show joinComma ((r :: r2 :: rs2).map serializeRec) =
              serializeRec r ++ commaChar ::
                joinComma ((r2 :: rs2).map serializeRec) from by
            rw [List.map_cons, joinComma.eq_def]
            rfl]
        rw [List.append_assoc, List.cons_append]
        rw [parseElems.eq_def]
        dsimp only
        rw [show g = (g - 5) + 5 from by omega]
        rw [parseValueRec r hvr _ _ hd _]
        dsimp only
        rw [skipWsCons _ _ (by decide)]
        dsimp only
        rw [if_neg (by decide), if_pos rfl]
        rw [show (g - 5) + 5 = g from by omega]
        exact ih last depth g (acc ++ [recToJson r]) P
          (fun x hx => hv x (by simp [hx])) hvl (by simp) hP hPne hPlen
          (by simp [List.length_cons] at hfuel ⊢; omega) hd

/-- Parsing a plan truncated strictly inside its last record fails with a
truncation-like decode error. -/
theorem jsonParseTrunc (recs : List PlanRec) (last : PlanRec)
    (hv : ∀ r ∈ recs, ValidRec r) (hvl : ValidRec last) (hne : recs ≠ [])
    (P : List Char) (hP : P <+: serializeRec last) (hPne : P ≠ [])
    (hPlen : P.length < (serializeRec last).length) :
    ∃ e, jsonParse (lbrack ::
        (joinComma (recs.map serializeRec) ++ commaChar :: P)) =
      .error (.decodeError e) ∧ truncLike e = true := by
  unfold jsonParse
  rw [parseValue.eq_def]
  dsimp only
  rw [skipWsCons _ _ (by decide)]
  dsimp only
  rw [if_neg (by decide), if_pos rfl]
  rw [if_neg (by decide)]
  cases recs with
  | nil => exact absurd rfl hne
  | cons r rs =>
    obtain ⟨T, hT⟩ : ∃ T, joinComma ((r :: rs).map serializeRec) =
        serializeRec r ++ T := by
      cases rs with
      | nil => exact ⟨[], by simp [joinComma]⟩
      | cons r2 rs2 =>
        refine ⟨commaChar :: joinComma ((r2 :: rs2).map serializeRec), ?_⟩
        rw [List.map_cons, joinComma.eq_def]
        rfl
    have hlen := joinCommaRecsLen (r :: rs)
    have hcons : ∃ X, joinComma ((r :: rs).map serializeRec) ++
        commaChar :: P = lbrace :: X := by
      rw [hT, List.append_assoc, serializeRecNorm]
      exact ⟨_, rfl⟩
    obtain ⟨X, hX⟩ := hcons
    rw [hX, skipWsCons _ _ (by decide)]
    dsimp only
    rw [if_neg (by decide), ← hX]
    obtain ⟨e, he, ht⟩ := parseElemsPrefix (r :: rs) last 1
      (2 * (lbrack :: (joinComma ((r :: rs).map serializeRec) ++
        commaChar :: P)).length + 1) [] P hv hvl (by simp) hP hPne hPlen
      (by
        simp only [List.length_cons, List.length_append] at *
        have hp1 : 1 ≤ P.length := by
          cases P with
          | nil => exact absurd rfl hPne
          | cons a b => simp
        omega) (by decide)
    rw [he]
    exact ⟨e, rfl, ht⟩

/-- One plain character outside a string. -/
theorem scanStepPlain (d : Int) (b : List Char) (K : List (List Char))
    (c : Char) (hc : ScanPlain c) :
    scanStep ⟨d, false, false, some b, K, false⟩ c =
      ⟨d, false, false, some (b ++ [c]), K, false⟩ := by
  obtain ⟨h1, h2, h3, h4⟩ := hc
  simp [scanStep, h1, h2, h3, h4, bufPush]

/-- A run of plain characters outside a string. -/
theorem scanSeqPlain (cs : List Char) (hcs : ∀ c ∈ cs, ScanPlain c) :
    ∀ (d : Int) (b : List Char) (K : List (List Char)),
    List.foldl scanStep ⟨d, false, false, some b, K, false⟩ cs =
      ⟨d, false, false, some (b ++ cs), K, false⟩ := by
  induction cs with
  | nil => intro d b K; simp
  | cons c cs ih =>
    intro d b K
    rw [List.foldl_cons, scanStepPlain d b K c (hcs c (by simp))]
    rw [ih (fun x hx => hcs x (by simp [hx])) d (b ++ [c]) K]
    simp

/-- One non-quote, non-backslash character inside a string. -/
theorem scanStepInStr (d : Int) (b : List Char) (K : List (List Char))
    (c : Char) (h1 : c ≠ dquote) (h2 : c ≠ bslash) :
    scanStep ⟨d, true, false, some b, K, false⟩ c =
      ⟨d, true, false, some (b ++ [c]), K, false⟩ := by
  simp [scanStep, h1, h2, bufPush]

/-- A run of plain characters inside a string. -/
theorem scanSeqInStr (cs : List Char)
    (hcs : ∀ c ∈ cs, c ≠ dquote ∧ c ≠ bslash) :
    ∀ (d : Int) (b : List Char) (K : List (List Char)),
    List.foldl scanStep ⟨d, true, false, some b, K, false⟩ cs =
      ⟨d, true, false, some (b ++ cs), K, false⟩ := by
  induction cs with
  | nil => intro d b K; simp
  | cons c cs ih =>
    intro d b K
    rw [List.foldl_cons,
      scanStepInStr d b K c (hcs c (by simp)).1 (hcs c (by simp)).2]
    rw [ih (fun x hx => hcs x (by simp [hx])) d (b ++ [c]) K]
    simp

/-- An opening quote outside a string. -/
theorem scanStepQuoteOpen (d : Int) (b : List Char) (K : List (List Char)) :
    scanStep ⟨d, false, false, some b, K, false⟩ dquote =
      ⟨d, true, false, some (b ++ [dquote]), K, false⟩ := by
  simp [scanStep, bufPush, show ¬ dquote = bslash from by decide]

/-- A closing quote inside a string. -/
theorem scanStepQuoteClose (d : Int) (b : List Char) (K : List (List Char)) :
    scanStep ⟨d, true, false, some b, K, false⟩ dquote =
      ⟨d, false, false, some (b ++ [dquote]), K, false⟩ := by
  simp [scanStep, bufPush, show ¬ dquote = bslash from by decide]

/-- Scanning an escaped string body inside a string. -/
theorem scanSeqEsc (s : List Char) (hs : ValidStr s) :
    ∀ (d : Int) (b : List Char) (K : List (List Char)),
    List.foldl scanStep ⟨d, true, false, some b, K, false⟩ (escStr s) =
      ⟨d, true, false, some (b ++ escStr s), K, false⟩ := by
  induction s with
  | nil => intro d b K; simp [escStr]
  | cons c s ih =>
    intro d b K
    have hs2 : ValidStr s := fun x hx => hs x (by simp [hx])
    rw [show escStr (c :: s) = escChar c ++ escStr s from by simp [escStr]]
    rw [List.foldl_append]
    by_cases h1 : (c = dquote ∨ c = bslash)
    · rw [show escChar c = [bslash, c] from by simp [escChar, h1]]
      rw [show List.foldl scanStep (⟨d, true, false, some b, K, false⟩ : ScanSt)
            [bslash, c] = ⟨d, true, false, some (b ++ [bslash, c]), K, false⟩ from by
        rw [show ([bslash, c] : List Char) = [bslash] ++ [c] from rfl,
          List.foldl_append]
        rw [show List.foldl scanStep (⟨d, true, false, some b, K, false⟩ : ScanSt)
              [bslash] = ⟨d, true, true, some (b ++ [bslash]), K, false⟩ from by
          simp [scanStep, bufPush]]
        simp [scanStep, bufPush]]
      rw [ih hs2 d (b ++ [bslash, c]) K]
      simp [escChar, h1]
    · push_neg at h1
      rw [show escChar c = [c] from by simp [escChar, h1.1, h1.2]]
      rw [show List.foldl scanStep (⟨d, true, false, some b, K, false⟩ : ScanSt) [c] =
            ⟨d, true, false, some (b ++ [c]), K, false⟩ from by
        rw [show List.foldl scanStep (⟨d, true, false, some b, K, false⟩ : ScanSt) [c] =
              scanStep ⟨d, true, false, some b, K, false⟩ c from rfl]
        exact scanStepInStr d b K c h1.1 h1.2]
      rw [ih hs2 d (b ++ [c]) K]
      simp [escChar, h1.1, h1.2]

/-- Scanning one full string member at depth `d`. -/
theorem scanMemberStr (k s : List Char) (hk : ∀ c ∈ k, PlainChar c)
    (hs : ValidStr s) (d : Int) (b : List Char) (K : List (List Char)) :
    List.foldl scanStep ⟨d, false, false, some b, K, false⟩
        (memberChars (k, .vstr s)) =
      ⟨d, false, false, some (b ++ memberChars (k, .vstr s)), K, false⟩ := by
  rw [memberStrNormEnd]
  rw [show dquote :: (k ++ dquote :: colonChar :: dquote ::
        (escStr s ++ [dquote])) =
      [dquote] ++ (k ++ ([dquote] ++ ([colonChar] ++ ([dquote] ++
        (escStr s ++ [dquote]))))) from by simp]
  rw [List.foldl_append, List.foldl_append, List.foldl_append,
    List.foldl_append, List.foldl_append, List.foldl_append]
  rw [show List.foldl scanStep (⟨d, false, false, some b, K, false⟩ : ScanSt)
        [dquote] = scanStep ⟨d, false, false, some b, K, false⟩ dquote from rfl,
    scanStepQuoteOpen]
  rw [scanSeqInStr k (fun c hc => ⟨(hk c hc).1, (hk c hc).2.1⟩)]
  rw [show List.foldl scanStep (⟨d, true, false, some (b ++ [dquote] ++ k), K, false⟩ :
        ScanSt) [dquote] =
      scanStep ⟨d, true, false, some (b ++ [dquote] ++ k), K, false⟩ dquote from rfl,
    scanStepQuoteClose]
  rw [show List.foldl scanStep (⟨d, false, false,
        some (b ++ [dquote] ++ k ++ [dquote]), K, false⟩ : ScanSt) [colonChar] =
      scanStep ⟨d, false, false, some (b ++ [dquote] ++ k ++ [dquote]), K, false⟩
        colonChar from rfl,
    scanStepPlain _ _ _ _ (by decide)]
  rw [show List.foldl scanStep (⟨d, false, false,
        some (b ++ [dquote] ++ k ++ [dquote] ++ [colonChar]), K, false⟩ : ScanSt)
        [dquote] =
      scanStep ⟨d, false, false,
        some (b ++ [dquote] ++ k ++ [dquote] ++ [colonChar]), K, false⟩ dquote from
      rfl,
    scanStepQuoteOpen]
  rw [scanSeqEsc s hs]
  rw [show List.foldl scanStep (⟨d, true, false,
        some (b ++ [dquote] ++ k ++ [dquote] ++ [colonChar] ++ [dquote] ++
          escStr s), K, false⟩ : ScanSt) [dquote] =
      scanStep ⟨d, true, false,
        some (b ++ [dquote] ++ k ++ [dquote] ++ [colonChar] ++ [dquote] ++
          escStr s), K, false⟩ dquote from rfl,
    scanStepQuoteClose]
  simp

/-- Scanning one full number member at depth `d`. -/
theorem scanMemberNum (k : List Char) (n : Nat)
    (hk : ∀ c ∈ k, PlainChar c) (d : Int) (b : List Char)
    (K : List (List Char)) :
    List.foldl scanStep ⟨d, false, false, some b, K, false⟩
        (memberChars (k, .vnum n)) =
      ⟨d, false, false, some (b ++ memberChars (k, .vnum n)), K, false⟩ := by
  rw [memberNumNormEnd]
  rw [show dquote :: (k ++ dquote :: colonChar :: natDigits n) =
      [dquote] ++ (k ++ ([dquote] ++ ([colonChar] ++ natDigits n))) from by
    simp]
  rw [List.foldl_append, List.foldl_append, List.foldl_append,
    List.foldl_append]
  rw [show List.foldl scanStep (⟨d, false, false, some b, K, false⟩ : ScanSt)
        [dquote] = scanStep ⟨d, false, false, some b, K, false⟩ dquote from rfl,
    scanStepQuoteOpen]
  rw [scanSeqInStr k (fun c hc => ⟨(hk c hc).1, (hk c hc).2.1⟩)]
  rw [show List.foldl scanStep (⟨d, true, false, some (b ++ [dquote] ++ k), K, false⟩ :
        ScanSt) [dquote] =
      scanStep ⟨d, true, false, some (b ++ [dquote] ++ k), K, false⟩ dquote from rfl,
    scanStepQuoteClose]
  rw [show List.foldl scanStep (⟨d, false, false,
        some (b ++ [dquote] ++ k ++ [dquote]), K, false⟩ : ScanSt) [colonChar] =
      scanStep ⟨d, false, false, some (b ++ [dquote] ++ k ++ [dquote]), K, false⟩
        colonChar from rfl,
    scanStepPlain _ _ _ _ (by decide)]
  have hdig : ∀ c ∈ natDigits n, ScanPlain c := by
    obtain ⟨c2, ds, hds, hd, hall, -⟩ := natDigitsAuxCons (n + 1) n (by omega)
    intro c hc
    rw [show natDigits n = c2 :: ds from hds] at hc
    have hdc : isDig c = true := by
      rcases List.mem_cons.mp hc with rfl | hx
      · exact hd
      · exact hall c hx
    exact ⟨isDigNe c hdc _ (by decide), isDigNe c hdc _ (by decide),
      isDigNe c hdc _ (by decide), isDigNe c hdc _ (by decide)⟩
  rw [scanSeqPlain (natDigits n) hdig]
  simp

/-- Scanning the full member chain of a record at depth `d`. -/
theorem scanInner (r : PlanRec) (hv : ValidRec r) (d : Int) (b : List Char)
    (K : List (List Char)) :
    List.foldl scanStep ⟨d, false, false, some b, K, false⟩
        (joinComma ((recMembers r).map memberChars)) =
      ⟨d, false, false,
        some (b ++ joinComma ((recMembers r).map memberChars)), K, false⟩ := by
  have hstep : ∀ c ∈ ("step".data : List Char), PlainChar c := by decide
  have hact : ∀ c ∈ ("action".data : List Char), PlainChar c := by decide
  have htgt : ∀ c ∈ ("target".data : List Char), PlainChar c := by decide
  have hci : ∀ c ∈ ("content_instruction".data : List Char), PlainChar c := by
    decide
  rw [innerNorm]
  rw [show memberChars ("step".data, JVal.vnum r.step) ++ commaChar ::
        (memberChars ("action".data, JVal.vstr r.action) ++ commaChar ::
          (memberChars ("target".data, JVal.vstr r.target) ++ commaChar ::
            memberChars ("content_instruction".data,
              JVal.vstr r.content_instruction))) =
      memberChars ("step".data, JVal.vnum r.step) ++ ([commaChar] ++
        (memberChars ("action".data, JVal.vstr r.action) ++ ([commaChar] ++
          (memberChars ("target".data, JVal.vstr r.target) ++ ([commaChar] ++
            memberChars ("content_instruction".data,
              JVal.vstr r.content_instruction)))))) from by simp]
  rw [List.foldl_append, List.foldl_append, List.foldl_append,
    List.foldl_append, List.foldl_append, List.foldl_append]
  rw [scanMemberNum "step".data r.step hstep]
  rw [show ∀ (b2 : List Char), List.foldl scanStep
        (⟨d, false, false, some b2, K, false⟩ : ScanSt) [commaChar] =
      ⟨d, false, false, some (b2 ++ [commaChar]), K, false⟩ from fun b2 =>
    scanStepPlain d b2 K commaChar (by decide)]
  rw [scanMemberStr "action".data r.action hact hv.1]
  rw [show ∀ (b2 : List Char), List.foldl scanStep
        (⟨d, false, false, some b2, K, false⟩ : ScanSt) [commaChar] =
      ⟨d, false, false, some (b2 ++ [commaChar]), K, false⟩ from fun b2 =>
    scanStepPlain d b2 K commaChar (by decide)]
  rw [scanMemberStr "target".data r.target htgt hv.2.1]
  rw [show ∀ (b2 : List Char), List.foldl scanStep
        (⟨d, false, false, some b2, K, false⟩ : ScanSt) [commaChar] =
      ⟨d, false, false, some (b2 ++ [commaChar]), K, false⟩ from fun b2 =>
    scanStepPlain d b2 K commaChar (by decide)]
  rw [scanMemberStr "content_instruction".data r.content_instruction hci hv.2.2]
  simp

/-- Scanning one full serialized record from the idle state collects it. -/
theorem scanRecFull (r : PlanRec) (hv : ValidRec r) (K : List (List Char)) :
    List.foldl scanStep ⟨0, false, false, none, K, false⟩ (serializeRec r) =
      ⟨0, false, false, none, K ++ [serializeRec r], false⟩ := by
  have hrec : serializeRec r =
      [lbrace] ++ (joinComma ((recMembers r).map memberChars) ++ [rbrace]) := by
    rw [serializeRec, objChars]
    rfl
  rw [hrec, List.foldl_append, List.foldl_append]
  rw [show List.foldl scanStep (⟨0, false, false, none, K, false⟩ : ScanSt) [lbrace] =
      ⟨1, false, false, some [lbrace], K, false⟩ from by
    simp [scanStep, show ¬ lbrace = bslash from by decide,
      show ¬ lbrace = dquote from by decide]]
  rw [scanInner r hv 1 [lbrace] K]
  rw [show List.foldl scanStep (⟨1, false, false,
        some ([lbrace] ++ joinComma ((recMembers r).map memberChars)), K, false⟩ :
        ScanSt) [rbrace] =
      scanStep ⟨1, false, false,
        some ([lbrace] ++ joinComma ((recMembers r).map memberChars)), K, false⟩
        rbrace from rfl]
  rw [show scanStep ⟨1, false, false,
        some ([lbrace] ++ joinComma ((recMembers r).map memberChars)), K, false⟩
        rbrace =
      ⟨0, false, false, none, K ++ [serializeRec r], false⟩ from by
    rw [scanStep]
    rw [if_neg (by simp), if_neg (by simp), if_neg (by decide),
      if_neg (by decide), if_neg (by simp), if_neg (by decide), if_pos rfl]
    rw [if_pos (by norm_num)]
    dsimp only
    have hcand : [lbrace] ++ joinComma ((recMembers r).map memberChars) ++
        [rbrace] = serializeRec r := by
      rw [hrec]
      simp
    rw [hcand, jsonParseRec r hv]
    norm_num]
  rw [hrec]

/-- Scanning the serialized bodies of complete records collects each. -/
theorem scanChain : ∀ (recs : List PlanRec) (K : List (List Char)),
    (∀ r ∈ recs, ValidRec r) → recs ≠ [] →
    List.foldl scanStep ⟨0, false, false, none, K, false⟩
        (joinComma (recs.map serializeRec)) =
      ⟨0, false, false, none, K ++ recs.map serializeRec, false⟩ := by
  intro recs
  induction recs with
  | nil => intro K hv hne; exact absurd rfl hne
  | cons r rs ih =>
    intro K hv hne
    cases rs with
    | nil =>
      rw [show joinComma ([r].map serializeRec) = serializeRec r from by
        simp [joinComma]]
      rw [scanRecFull r (hv r (by simp)) K]
      simp
    | cons r2 rs2 =>
      rw [show joinComma ((r :: r2 :: rs2).map serializeRec) =
            serializeRec r ++ ([commaChar] ++
              joinComma ((r2 :: rs2).map serializeRec)) from by
          rw [List.map_cons, joinComma.eq_def]
          simp]
      rw [List.foldl_append, List.foldl_append]
      rw [scanRecFull r (hv r (by simp)) K]
      rw [show List.foldl scanStep (⟨0, false, false, none,
            K ++ [serializeRec r], false⟩ : ScanSt) [commaChar] =
          ⟨0, false, false, none, K ++ [serializeRec r], false⟩ from by
        simp [scanStep, bufPush, show ¬ commaChar = bslash from by decide,
          show ¬ commaChar = dquote from by decide,
          show ¬ commaChar = lbrace from by decide,
          show ¬ commaChar = rbrace from by decide]]
      rw [ih (K ++ [serializeRec r]) (fun x hx => hv x (by simp [hx])) (by simp)]
      simp

/-- Scanning any prefix of an escaped string body collects nothing new. -/
theorem pfxInStr (s : List Char) (hs : ValidStr s) :
    ∀ (Q : List Char) (d : Int) (b : List Char) (K : List (List Char)),
    Q <+: escStr s →
    ((List.foldl scanStep ⟨d, true, false, some b, K, false⟩ Q).collected,
      (List.foldl scanStep ⟨d, true, false, some b, K, false⟩ Q).faulted) =
      (K, false) := by
  induction s with
  | nil =>
    intro Q d b K hQ
    have : Q = [] := List.prefix_nil.mp (by simpa [escStr] using hQ)
    subst this
    rfl
  | cons c s ih =>
    intro Q d b K hQ
    have hs2 : ValidStr s := fun x hx => hs x (by simp [hx])
    rw [show escStr (c :: s) = escChar c ++ escStr s from by simp [escStr]] at hQ
    rcases prefixAppendCases _ _ _ hQ with hQ | ⟨q2, hq2, rfl⟩
    · by_cases h1 : (c = dquote ∨ c = bslash)
      · rw [show escChar c = [bslash, c] from by simp [escChar, h1]] at hQ
        rcases prefixPair _ _ _ hQ with rfl | rfl | rfl
        · rfl
        · rw [show List.foldl scanStep (⟨d, true, false, some b, K, false⟩ : ScanSt)
              [bslash] = ⟨d, true, true, some (b ++ [bslash]), K, false⟩ from by
            simp [scanStep, bufPush]]
        · rw [show List.foldl scanStep (⟨d, true, false, some b, K, false⟩ : ScanSt)
              [bslash, c] = ⟨d, true, false, some (b ++ [bslash, c]), K, false⟩ from by
            rw [show ([bslash, c] : List Char) = [bslash] ++ [c] from rfl,
              List.foldl_append]
            rw [show List.foldl scanStep (⟨d, true, false, some b, K, false⟩ : ScanSt)
                  [bslash] = ⟨d, true, true, some (b ++ [bslash]), K, false⟩ from by
              simp [scanStep, bufPush]]
            simp [scanStep, bufPush]]
      · push_neg at h1
        rw [show escChar c = [c] from by simp [escChar, h1.1, h1.2]] at hQ
        rcases prefixSingleton _ _ hQ with rfl | rfl
        · rfl
        · rw [show List.foldl scanStep (⟨d, true, false, some b, K, false⟩ : ScanSt)
              [c] = ⟨d, true, false, some (b ++ [c]), K, false⟩ from by
            rw [show List.foldl scanStep (⟨d, true, false, some b, K, false⟩ :
                  ScanSt) [c] =
                scanStep ⟨d, true, false, some b, K, false⟩ c from rfl]
            exact scanStepInStr d b K c h1.1 h1.2]
    · rw [List.foldl_append]
      by_cases h1 : (c = dquote ∨ c = bslash)
      · rw [show escChar c = [bslash, c] from by simp [escChar, h1]]
        rw [show List.foldl scanStep (⟨d, true, false, some b, K, false⟩ : ScanSt)
              [bslash, c] = ⟨d, true, false, some (b ++ [bslash, c]), K, false⟩ from by
          rw [show ([bslash, c] : List Char) = [bslash] ++ [c] from rfl,
            List.foldl_append]
          rw [show List.foldl scanStep (⟨d, true, false, some b, K, false⟩ : ScanSt)
                [bslash] = ⟨d, true, true, some (b ++ [bslash]), K, false⟩ from by
            simp [scanStep, bufPush]]
          simp [scanStep, bufPush]]
        exact ih hs2 q2 d _ K hq2
      · push_neg at h1
        rw [show escChar c = [c] from by simp [escChar, h1.1, h1.2]]
        rw [show List.foldl scanStep (⟨d, true, false, some b, K, false⟩ : ScanSt)
              [c] = ⟨d, true, false, some (b ++ [c]), K, false⟩ from by
          rw [show List.foldl scanStep (⟨d, true, false, some b, K, false⟩ : ScanSt)
                [c] = scanStep ⟨d, true, false, some b, K, false⟩ c from rfl]
          exact scanStepInStr d b K c h1.1 h1.2]
        exact ih hs2 q2 d _ K hq2

/-- Scanning any prefix of a string member at depth `d` collects nothing
new. -/
theorem pfxMemberStr (k s : List Char) (hk : ∀ c ∈ k, PlainChar c)
    (hs : ValidStr s) (Q : List Char) (d : Int) (b : List Char)
    (K : List (List Char)) (hQ : Q <+: memberChars (k, .vstr s)) :
    ((List.foldl scanStep ⟨d, false, false, some b, K, false⟩ Q).collected,
      (List.foldl scanStep ⟨d, false, false, some b, K, false⟩ Q).faulted) =
      (K, false) := by
  rw [memberStrNormEnd] at hQ
  rcases prefixConsCases _ _ _ hQ with rfl | ⟨q1, hq1, rfl⟩
  · rfl
  rw [show (dquote :: q1 : List Char) = [dquote] ++ q1 from rfl,
    List.foldl_append,
    show List.foldl scanStep (⟨d, false, false, some b, K, false⟩ : ScanSt) [dquote] =
      scanStep ⟨d, false, false, some b, K, false⟩ dquote from rfl,
    scanStepQuoteOpen]
  rcases prefixAppendCases _ _ _ hq1 with hq1 | ⟨q2, hq2, rfl⟩
  · rw [show List.foldl scanStep (⟨d, true, false, some (b ++ [dquote]), K, false⟩ :
          ScanSt) q1 =
        ⟨d, true, false, some (b ++ [dquote] ++ q1), K, false⟩ from by
      refine scanSeqInStr q1 ?_ d _ K
      intro x hx
      have := hk x (hq1.subset hx)
      exact ⟨this.1, this.2.1⟩]
  rw [List.foldl_append,
    scanSeqInStr k (fun c hc => ⟨(hk c hc).1, (hk c hc).2.1⟩)]
  rcases prefixConsCases _ _ _ hq2 with rfl | ⟨q3, hq3, rfl⟩
  · rfl
  rw [show (dquote :: q3 : List Char) = [dquote] ++ q3 from rfl,
    List.foldl_append,
    show List.foldl scanStep (⟨d, true, false, some (b ++ [dquote] ++ k), K, false⟩ :
        ScanSt) [dquote] =
      scanStep ⟨d, true, false, some (b ++ [dquote] ++ k), K, false⟩ dquote from rfl,
    scanStepQuoteClose]
  rcases prefixConsCases _ _ _ hq3 with rfl | ⟨q4, hq4, rfl⟩
  · rfl
  rw [show (colonChar :: q4 : List Char) = [colonChar] ++ q4 from rfl,
    List.foldl_append,
    show List.foldl scanStep (⟨d, false, false,
        some (b ++ [dquote] ++ k ++ [dquote]), K, false⟩ : ScanSt) [colonChar] =
      scanStep ⟨d, false, false, some (b ++ [dquote] ++ k ++ [dquote]), K, false⟩
        colonChar from rfl,
    scanStepPlain _ _ _ _ (by decide)]
  rcases prefixConsCases _ _ _ hq4 with rfl | ⟨q5, hq5, rfl⟩
  · rfl
  rw [show (dquote :: q5 : List Char) = [dquote] ++ q5 from rfl,
    List.foldl_append,
    show List.foldl scanStep (⟨d, false, false,
        some (b ++ [dquote] ++ k ++ [dquote] ++ [colonChar]), K, false⟩ : ScanSt)
        [dquote] =
      scanStep ⟨d, false, false,
        some (b ++ [dquote] ++ k ++ [dquote] ++ [colonChar]), K, false⟩ dquote from
      rfl,
    scanStepQuoteOpen]
  rcases prefixAppendCases _ _ _ hq5 with hq5 | ⟨q6, hq6, rfl⟩
  · exact pfxInStr s hs q5 d _ K hq5
  rw [List.foldl_append, scanSeqEsc s hs]
  rcases prefixSingleton _ _ hq6 with rfl | rfl
  · rfl
  rw [show List.foldl scanStep (⟨d, true, false,
        some (b ++ [dquote] ++ k ++ [dquote] ++ [colonChar] ++ [dquote] ++
          escStr s), K, false⟩ : ScanSt) [dquote] =
      scanStep ⟨d, true, false,
        some (b ++ [dquote] ++ k ++ [dquote] ++ [colonChar] ++ [dquote] ++
          escStr s), K, false⟩ dquote from rfl,
    scanStepQuoteClose]

/-- Scanning any prefix of a number member at depth `d` collects nothing
new. -/
theorem pfxMemberNum (k : List Char) (n : Nat) (hk : ∀ c ∈ k, PlainChar c)
    (Q : List Char) (d : Int) (b : List Char) (K : List (List Char))
    (hQ : Q <+: memberChars (k, .vnum n)) :
    ((List.foldl scanStep ⟨d, false, false, some b, K, false⟩ Q).collected,
      (List.foldl scanStep ⟨d, false, false, some b, K, false⟩ Q).faulted) =
      (K, false) := by
  rw [memberNumNormEnd] at hQ
  rcases prefixConsCases _ _ _ hQ with rfl | ⟨q1, hq1, rfl⟩
  · rfl
  rw [show (dquote :: q1 : List Char) = [dquote] ++ q1 from rfl,
    List.foldl_append,
    show List.foldl scanStep (⟨d, false, false, some b, K, false⟩ : ScanSt) [dquote] =
      scanStep ⟨d, false, false, some b, K, false⟩ dquote from rfl,
    scanStepQuoteOpen]
  rcases prefixAppendCases _ _ _ hq1 with hq1 | ⟨q2, hq2, rfl⟩
  · rw [show List.foldl scanStep (⟨d, true, false, some (b ++ [dquote]), K, false⟩ :
          ScanSt) q1 =
        ⟨d, true, false, some (b ++ [dquote] ++ q1), K, false⟩ from by
      refine scanSeqInStr q1 ?_ d _ K
      intro x hx
      have := hk x (hq1.subset hx)
      exact ⟨this.1, this.2.1⟩]
  rw [List.foldl_append,
    scanSeqInStr k (fun c hc => ⟨(hk c hc).1, (hk c hc).2.1⟩)]
  rcases prefixConsCases _ _ _ hq2 with rfl | ⟨q3, hq3, rfl⟩
  · rfl
  rw [show (dquote :: q3 : List Char) = [dquote] ++ q3 from rfl,
    List.foldl_append,
    show List.foldl scanStep (⟨d, true, false, some (b ++ [dquote] ++ k), K, false⟩ :
        ScanSt) [dquote] =
      scanStep ⟨d, true, false, some (b ++ [dquote] ++ k), K, false⟩ dquote from rfl,
    scanStepQuoteClose]
  rcases prefixConsCases _ _ _ hq3 with rfl | ⟨q4, hq4, rfl⟩
  · rfl
  rw [show (colonChar :: q4 : List Char) = [colonChar] ++ q4 from rfl,
    List.foldl_append,
    show List.foldl scanStep (⟨d, false, false,
        some (b ++ [dquote] ++ k ++ [dquote]), K, false⟩ : ScanSt) [colonChar] =
      scanStep ⟨d, false, false, some (b ++ [dquote] ++ k ++ [dquote]), K, false⟩
        colonChar from rfl,
    scanStepPlain _ _ _ _ (by decide)]
  have hdig : ∀ c ∈ q4, ScanPlain c := by
    obtain ⟨c2, ds, hds, hd, hall, -⟩ := natDigitsAuxCons (n + 1) n (by omega)
    intro c hc
    have hmem := hq4.subset hc
    rw [show natDigits n = c2 :: ds from hds] at hmem
    have hdc : isDig c = true := by
      rcases List.mem_cons.mp hmem with rfl | hx
      · exact hd
      · exact hall c hx
    exact ⟨isDigNe c hdc _ (by decide), isDigNe c hdc _ (by decide),
      isDigNe c hdc _ (by decide), isDigNe c hdc _ (by decide)⟩
  rw [scanSeqPlain q4 hdig]

/-- Scanning any prefix of the member chain at depth `d` collects nothing
new. -/
theorem pfxInner (r : PlanRec) (hv : ValidRec r) (Q : List Char) (d : Int)
    (b : List Char) (K : List (List Char))
    (hQ : Q <+: joinComma ((recMembers r).map memberChars)) :
    ((List.foldl scanStep ⟨d, false, false, some b, K, false⟩ Q).collected,
      (List.foldl scanStep ⟨d, false, false, some b, K, false⟩ Q).faulted) =
      (K, false) := by
  have hstep : ∀ c ∈ ("step".data : List Char), PlainChar c := by decide
  have hact : ∀ c ∈ ("action".data : List Char), PlainChar c := by decide
  have htgt : ∀ c ∈ ("target".data : List Char), PlainChar c := by decide
  have hci : ∀ c ∈ ("content_instruction".data : List Char), PlainChar c := by
    decide
  rw [innerNorm] at hQ
  rcases prefixAppendCases _ _ _ hQ with hQ | ⟨q1, hq1, rfl⟩
  · exact pfxMemberNum "step".data r.step hstep Q d b K hQ
  rw [List.foldl_append, scanMemberNum "step".data r.step hstep]
  rcases prefixConsCases _ _ _ hq1 with rfl | ⟨q2, hq2, rfl⟩
  · rfl
  rw [show (commaChar :: q2 : List Char) = [commaChar] ++ q2 from rfl,
    List.foldl_append,
    show List.foldl scanStep (⟨d, false, false,
        some (b ++ memberChars ("step".data, JVal.vnum r.step)), K, false⟩ : ScanSt)
        [commaChar] =
      scanStep ⟨d, false, false,
        some (b ++ memberChars ("step".data, JVal.vnum r.step)), K, false⟩
        commaChar from rfl,
    scanStepPlain _ _ _ _ (by decide)]
  rcases prefixAppendCases _ _ _ hq2 with hq2 | ⟨q3, hq3, rfl⟩
  · exact pfxMemberStr "action".data r.action hact hv.1 q2 d _ K hq2
  rw [List.foldl_append, scanMemberStr "action".data r.action hact hv.1]
  rcases prefixConsCases _ _ _ hq3 with rfl | ⟨q4, hq4, rfl⟩
  · rfl
  rw [show (commaChar :: q4 : List Char) = [commaChar] ++ q4 from rfl,
    List.foldl_append]
  rw [show ∀ (b2 : List Char), List.foldl scanStep
      (⟨d, false, false, some b2, K, false⟩ : ScanSt) [commaChar] =
      ⟨d, false, false, some (b2 ++ [commaChar]), K, false⟩ from fun b2 =>
    scanStepPlain d b2 K commaChar (by decide)]
  rcases prefixAppendCases _ _ _ hq4 with hq4 | ⟨q5, hq5, rfl⟩
  · exact pfxMemberStr "target".data r.target htgt hv.2.1 q4 d _ K hq4
  rw [List.foldl_append, scanMemberStr "target".data r.target htgt hv.2.1]
  rcases prefixConsCases _ _ _ hq5 with rfl | ⟨q6, hq6, rfl⟩
  · rfl
  rw [show (commaChar :: q6 : List Char) = [commaChar] ++ q6 from rfl,
    List.foldl_append]
  rw [show ∀ (b2 : List Char), List.foldl scanStep
      (⟨d, false, false, some b2, K, false⟩ : ScanSt) [commaChar] =
      ⟨d, false, false, some (b2 ++ [commaChar]), K, false⟩ from fun b2 =>
    scanStepPlain d b2 K commaChar (by decide)]
  exact pfxMemberStr "content_instruction".data r.content_instruction hci
    hv.2.2 q6 d _ K hq6

/-- Scanning a proper nonempty prefix of a serialized record from the idle
state collects nothing. -/
theorem pfxRec (r : PlanRec) (hv : ValidRec r) (P : List Char)
    (K : List (List Char)) (hP : P <+: serializeRec r) (hne : P ≠ [])
    (hproper : P.length < (serializeRec r).length) :
    ((List.foldl scanStep ⟨0, false, false, none, K, false⟩ P).collected,
      (List.foldl scanStep ⟨0, false, false, none, K, false⟩ P).faulted) =
      (K, false) := by
  have hrec : serializeRec r =
      lbrace :: (joinComma ((recMembers r).map memberChars) ++ [rbrace]) := by
    rw [serializeRec, objChars]
    rfl
  rw [hrec] at hP hproper
  rcases prefixConsCases _ _ _ hP with rfl | ⟨Q, hQ, rfl⟩
  · exact absurd rfl hne
  have hQinner : Q <+: joinComma ((recMembers r).map memberChars) := by
    refine prefixDropLast _ _ _ hQ ?_
    simp only [List.length_cons, List.length_append, List.length_singleton,
      List.length_nil] at hproper ⊢
    omega
  rw [show (lbrace :: Q : List Char) = [lbrace] ++ Q from rfl,
    List.foldl_append,
    show List.foldl scanStep (⟨0, false, false, none, K, false⟩ : ScanSt) [lbrace] =
      ⟨1, false, false, some [lbrace], K, false⟩ from by
    simp [scanStep, show ¬ lbrace = bslash from by decide,
      show ¬ lbrace = dquote from by decide]]
  exact pfxInner r hv Q 1 [lbrace] K hQinner

/-- `dropWhile` is idempotent. -/
theorem dropWhileIdem {α : Type} (p : α → Bool) (l : List α) :
    (l.dropWhile p).dropWhile p = l.dropWhile p := by
  induction l with
  | nil => rfl
  | cons a l ih =>
    rw [List.dropWhile_cons]
    split
    · exact ih
    · rw [List.dropWhile_cons, if_neg (by assumption)]

/-- `dropWhile` over an append whose first part does not vanish. -/
theorem dropWhileAppendNe {α : Type} (p : α → Bool) (a b : List α)
    (h : a.dropWhile p ≠ []) :
    (a ++ b).dropWhile p = a.dropWhile p ++ b := by
  induction a with
  | nil => exact absurd rfl h
  | cons x a ih =>
    rw [List.cons_append, List.dropWhile_cons]
    rw [List.dropWhile_cons] at h ⊢
    split
    · rename_i hx
      rw [if_pos hx] at h
      exact ih h
    · rename_i hx
      rw [List.cons_append]

/-- `trimRight` distributes over an append with a surviving second part. -/
theorem trimRightAppend (a b : List Char) (h : trimRight b ≠ []) :
    trimRight (a ++ b) = a ++ trimRight b := by
  unfold trimRight at h ⊢
  rw [List.reverse_append]
  rw [dropWhileAppendNe isPyWs b.reverse a.reverse
    (by intro h2; exact h (by rw [h2]; rfl))]
  rw [List.reverse_append, List.reverse_reverse]

/-- `trimRight` of a list with a non-whitespace head is nonempty. -/
theorem trimRightConsNe (c : Char) (l : List Char) (hc : isPyWs c = false) :
    trimRight (c :: l) ≠ [] := by
  unfold trimRight
  intro h
  rw [List.reverse_eq_nil_iff] at h
  rw [List.dropWhile_eq_nil_iff] at h
  have := h c (by simp)
  rw [hc] at this
  cases this

/-- `trimRight` is a prefix of its input. -/
theorem trimRightPrefix (l : List Char) : trimRight l <+: l := by
  unfold trimRight
  have h := List.dropWhile_suffix (l := l.reverse) (p := isPyWs)
  obtain ⟨u, hu⟩ := h
  refine ⟨u.reverse, ?_⟩
  rw [← List.reverse_append, hu, List.reverse_reverse]

/-- `trimRight` is idempotent. -/
theorem trimRightIdem (l : List Char) : trimRight (trimRight l) = trimRight l := by
  unfold trimRight
  rw [List.reverse_reverse, dropWhileIdem]

/-- The head of a nonempty `trimLeft` fails the whitespace predicate. -/
theorem trimLeftHead (l : List Char) (c : Char) (t : List Char)
    (h : trimLeft l = c :: t) : isPyWs c = false := by
  unfold trimLeft at h
  induction l with
  | nil => cases h
  | cons a l ih =>
    rw [List.dropWhile_cons] at h
    split at h
    · exact ih h
    · rename_i ha
      cases h
      simpa using ha

/-- `pyStrip` is idempotent. -/
theorem pyStripIdem (l : List Char) : pyStrip (pyStrip l) = pyStrip l := by
  unfold pyStrip
  have hA : trimLeft (trimRight (trimLeft l)) = trimRight (trimLeft l) := by
    cases hY : trimLeft l with
    | nil => rw [show trimRight [] = [] from rfl]; rfl
    | cons c Y =>
      have hc := trimLeftHead l c Y hY
      have hne := trimRightConsNe c Y hc
      have hpre := trimRightPrefix (c :: Y)
      rcases prefixConsCases _ _ _ hpre with h0 | ⟨q, hq, hqe⟩
      · exact absurd h0 hne
      · rw [hqe]
        unfold trimLeft
        rw [List.dropWhile_cons, if_neg (by simp [hc])]
  rw [hA, trimRightIdem]

/-- Stripping a truncated plan text trims only inside the partial last
record. -/
theorem stripTrunc (B P : List Char) (Pt : List Char) (hP : P = lbrace :: Pt) :
    pyStrip (lbrack :: (B ++ commaChar :: P)) =
      lbrack :: (B ++ commaChar :: trimRight P) := by
  have hne : trimRight P ≠ [] := by
    rw [hP]
    exact trimRightConsNe lbrace Pt (by decide)
  unfold pyStrip
  rw [show trimLeft (lbrack :: (B ++ commaChar :: P)) =
        lbrack :: (B ++ commaChar :: P) from by
    unfold trimLeft
    rw [List.dropWhile_cons, if_neg (by decide)]]
  rw [show lbrack :: (B ++ commaChar :: P) =
        (lbrack :: B ++ [commaChar]) ++ P from by simp]
  rw [trimRightAppend _ P hne]
  simp

/-- `_fix_truncated_json` on a stripped truncated plan returns the
serialization of the complete records. -/
theorem fixTruncResult (recs : List PlanRec) (last : PlanRec)
    (hv : ∀ r ∈ recs, ValidRec r) (hvl : ValidRec last) (hne : recs ≠ [])
    (P : List Char) (hP : P <+: serializeRec last) (hPne : P ≠ [])
    (hPlen : P.length < (serializeRec last).length)
    (hstrip : pyStrip (lbrack :: (joinComma (recs.map serializeRec) ++
        commaChar :: P)) =
      lbrack :: (joinComma (recs.map serializeRec) ++ commaChar :: P)) :
    fixTruncatedJson (lbrack :: (joinComma (recs.map serializeRec) ++
        commaChar :: P)) = some (serializePlan recs) := by
  have hpair : ((scanRun (lbrack :: (joinComma (recs.map serializeRec) ++
      commaChar :: P))).collected,
      (scanRun (lbrack :: (joinComma (recs.map serializeRec) ++
        commaChar :: P))).faulted) = (recs.map serializeRec, false) := by
    unfold scanRun
    rw [show lbrack :: (joinComma (recs.map serializeRec) ++ commaChar :: P) =
          [lbrack] ++ (joinComma (recs.map serializeRec) ++
            ([commaChar] ++ P)) from by simp]
    rw [List.foldl_append, List.foldl_append, List.foldl_append]
    rw [show List.foldl scanStep scanInit [lbrack] =
          (⟨0, false, false, none, [], false⟩ : ScanSt) from rfl]
    rw [scanChain recs [] hv hne]
    rw [show List.foldl scanStep ((⟨0, false, false, none,
          [] ++ recs.map serializeRec, false⟩ : ScanSt)) [commaChar] =
        ⟨0, false, false, none, [] ++ recs.map serializeRec, false⟩ from by
      simp [scanStep, bufPush, show ¬ commaChar = bslash from by decide,
        show ¬ commaChar = dquote from by decide,
        show ¬ commaChar = lbrace from by decide,
        show ¬ commaChar = rbrace from by decide]]
    rw [pfxRec last hvl P _ hP hPne hPlen]
    simp
  have hcol : (scanRun (lbrack :: (joinComma (recs.map serializeRec) ++
      commaChar :: P))).collected = recs.map serializeRec :=
    congrArg Prod.fst hpair
  have hflt : (scanRun (lbrack :: (joinComma (recs.map serializeRec) ++
      commaChar :: P))).faulted = false :=
    congrArg Prod.snd hpair
  unfold fixTruncatedJson
  rw [hstrip]
  dsimp only
  rw [show findCharIdx lbrack (lbrack :: (joinComma (recs.map serializeRec) ++
        commaChar :: P)) = some 0 from by
    unfold findCharIdx
    rw [List.findIdx?_cons]
    simp]
  dsimp only
  rw [List.drop_zero]
  rw [hflt, if_neg (by decide)]
  rw [hcol]
  rw [if_pos (by simp [hne])]
  rw [serializePlan]

/-- C3 (amended): truncation round-trip for plans of at least two records.
For every valid plan `recs ++ [last]` with `recs` nonempty, and every
truncation point strictly inside the serialization of `last` (a nonempty
proper prefix `P`), the truncated serialized text is exactly the stated
prefix of the full serialization, and the recovery parser returns exactly
the records fully contained before the truncation point, in order. The
original claim fails for single-record plans, where no complete record
precedes the cut. -/
theorem c3_truncation_roundtrip (recs : List PlanRec) (last : PlanRec)
    (hv : ∀ r ∈ recs, ValidRec r) (hvl : ValidRec last) (hne : recs ≠ [])
    (P : List Char) (hP : P <+: serializeRec last) (hPne : P ≠ [])
    (hPlen : P.length < (serializeRec last).length) :
    (serializePlan (recs ++ [last])).take
        ((serializePlan recs).length + P.length) =
      lbrack :: (joinComma (recs.map serializeRec) ++ commaChar :: P) ∧
    cleanJson (lbrack :: (joinComma (recs.map serializeRec) ++
        commaChar :: P)) = .ok (recs.map recToJson) := by
  obtain ⟨Pt, hPt⟩ : ∃ Pt, P = lbrace :: Pt := by
    have hrec : serializeRec last =
        lbrace :: (joinComma ((recMembers last).map memberChars) ++ [rbrace]) := by
      rw [serializeRec, objChars]
      rfl
    rw [hrec] at hP
    rcases prefixConsCases _ _ _ hP with rfl | ⟨q, hq, rfl⟩
    · exact absurd rfl hPne
    · exact ⟨q, rfl⟩
  constructor
  · have hplan : serializePlan (recs ++ [last]) =
        (lbrack :: (joinComma (recs.map serializeRec) ++
          commaChar :: serializeRec last)) ++ [rbrack] := by
      unfold serializePlan
      rw [List.map_append, List.map_singleton,
        joinCommaAppendLast _ _ (by simp [hne])]
    rw [hplan]
    have hlen1 : (serializePlan recs).length =
        (joinComma (recs.map serializeRec)).length + 2 := by
      unfold serializePlan
      simp
    rw [hlen1]
    rw [List.take_append_eq_append_take]
    rw [show List.take ((joinComma (recs.map serializeRec)).length + 2 +
          P.length - (lbrack :: (joinComma (recs.map serializeRec) ++
            commaChar :: serializeRec last)).length) [rbrack] = [] from by
      rw [List.take_eq_nil_iff]
      left
      simp only [List.length_cons, List.length_append]
      omega]
    rw [List.append_nil]
    rw [show (joinComma (recs.map serializeRec)).length + 2 + P.length =
          ((joinComma (recs.map serializeRec)).length + 1 + P.length) + 1
        from by omega]
    rw [List.take_cons]
    rw [List.take_append_eq_append_take]
    rw [List.take_of_length_le (by omega)]
    rw [show (joinComma (recs.map serializeRec)).length + 1 + P.length + 1 - 1 -
          (joinComma (recs.map serializeRec)).length = P.length + 1 from by
      omega]
    rw [List.take_cons]
    rw [show P.length + 1 - 1 = P.length from by omega]
    rw [← List.prefix_iff_eq_take.mp hP]
    all_goals omega
  · have htext : pyStrip (lbrack :: (joinComma (recs.map serializeRec) ++
        commaChar :: P)) =
        lbrack :: (joinComma (recs.map serializeRec) ++
          commaChar :: trimRight P) :=
      stripTrunc _ P Pt hPt
    have hP2pre : trimRight P <+: serializeRec last :=
      (trimRightPrefix P).trans hP
    have hP2ne : trimRight P ≠ [] := by
      rw [hPt]
      exact trimRightConsNe lbrace Pt (by decide)
    have hP2len : (trimRight P).length < (serializeRec last).length :=
      lt_of_le_of_lt (trimRightPrefix P).length_le hPlen
    obtain ⟨e, he, ht⟩ := jsonParseTrunc recs last hv hvl hne (trimRight P)
      hP2pre hP2ne hP2len
    have hstrip2 : pyStrip (lbrack :: (joinComma (recs.map serializeRec) ++
        commaChar :: trimRight P)) =
        lbrack :: (joinComma (recs.map serializeRec) ++
          commaChar :: trimRight P) := by
      rw [← htext]
      exact pyStripIdem _
    have hfix := fixTruncResult recs last hv hvl hne (trimRight P)
      hP2pre hP2ne hP2len hstrip2
    unfold cleanJson
    dsimp only
    rw [htext, he]
    dsimp only
    rw [if_pos ht]
    rw [hfix]
    dsimp only
    rw [jsonParsePlan recs hv hne]

set_option maxRecDepth 8000 in
/-- Witness for C3: the two-record plan of the specification example,
cut 15 characters into the second record, recovers the first record. -/
theorem c3_truncation_roundtrip_witness :
    (serializePlan ([⟨1, "write_file".data, "a.py".data, "x".data⟩] ++
        [⟨2, "write_file".data, "b.py".data, "y".data⟩])).take
        ((serializePlan [⟨1, "write_file".data, "a.py".data, "x".data⟩]).length +
          ("\x7b\x22step\x22:2,\x22acti".data).length) =
      lbrack :: (joinComma ([(⟨1, "write_file".data, "a.py".data,
          "x".data⟩ : PlanRec)].map serializeRec) ++
        commaChar :: "\x7b\x22step\x22:2,\x22acti".data) ∧
    cleanJson (lbrack :: (joinComma ([(⟨1, "write_file".data, "a.py".data,
          "x".data⟩ : PlanRec)].map serializeRec) ++
        commaChar :: "\x7b\x22step\x22:2,\x22acti".data)) =
      .ok ([(⟨1, "write_file".data, "a.py".data, "x".data⟩ : PlanRec)].map
        recToJson) :=
  c3_truncation_roundtrip
    [⟨1, "write_file".data, "a.py".data, "x".data⟩]
    ⟨2, "write_file".data, "b.py".data, "y".data⟩
    (by decide) (by decide) (by simp)
    "\x7b\x22step\x22:2,\x22acti".data
    (by decide) (by decide) (by decide)

set_option maxRecDepth 8000 in
/-- C3 counterexample: a single-record plan whose content field contains
the two characters brace-comma, truncated strictly inside that record,
makes the recovery parser raise instead of returning the empty list of
records fully contained before the truncation point. -/
theorem c3_counterexample :
    1 < 62 ∧
    62 < (serializePlan [(⟨1, "w".data, "t".data,
        ("a".data ++ rbrace :: commaChar :: "b".data)⟩ : PlanRec)]).length - 1 ∧
    (∃ e, cleanJson ((serializePlan [(⟨1, "w".data, "t".data,
        ("a".data ++ rbrace :: commaChar :: "b".data)⟩ : PlanRec)]).take 62) =
      .raise e) ∧
    cleanJson ((serializePlan [(⟨1, "w".data, "t".data,
        ("a".data ++ rbrace :: commaChar :: "b".data)⟩ : PlanRec)]).take 62) ≠
      .ok [] := by
  refine ⟨by decide, by decide, ⟨_, rfl⟩, ?_⟩
  intro hok
  have he : cleanJson ((serializePlan [(⟨1, "w".data, "t".data,
      ("a".data ++ rbrace :: commaChar :: "b".data)⟩ : PlanRec)]).take 62) =
      .raise ⟨("[\x7b\x22step\x22:1,\x22action\x22:\x22w\x22,\x22target\x22:" ++
        "\x22t\x22,\x22content_instruction\x22:\x22a\x7d]").data⟩ := by rfl
  rw [hok] at he
  exact CleanOut.noConfusion he

/-! ### C4: totality of the recovery parser up to the recursion fault -/

/-- Past the recursion limit, a run of opening brackets makes the scanner
raise `RecursionError`: each bracket enters one more array level. -/
theorem parseValueBrackets : ∀ (r d fuel m : Nat),
    recursionLimit = d + r → r < m → 2 * r ≤ fuel →
    parseValue d fuel (List.replicate m lbrack) = .error .recursionError := by
  intro r
  induction r with
  | zero =>
    intro d fuel m hlim hm hfuel
    cases m with
    | zero => omega
    | succ m2 =>
      rw [List.replicate_succ]
      rw [parseValue.eq_def]
      dsimp only
      rw [skipWsCons _ _ (by decide)]
      dsimp only
      rw [if_neg (by decide), if_pos rfl]
      rw [if_pos (by omega)]
  | succ r2 ih =>
    intro d fuel m hlim hm hfuel
    cases m with
    | zero => omega
    | succ m2 =>
      cases fuel with
      | zero => omega
      | succ f1 =>
        rw [List.replicate_succ]
        rw [parseValue.eq_def]
        dsimp only
        rw [skipWsCons _ _ (by decide)]
        dsimp only
        rw [if_neg (by decide), if_pos rfl]
        rw [if_neg (by omega)]
        cases m2 with
        | zero => omega
        | succ m3 =>
          rw [List.replicate_succ]
          rw [skipWsCons _ _ (by decide)]
          dsimp only
          rw [if_neg (by decide)]
          cases f1 with
          | zero => omega
          | succ f2 =>
            rw [parseElems.eq_def]
            dsimp only
            rw [← List.replicate_succ]
            rw [ih (d + 1) f2 (m3 + 1) (by omega) (by omega) (by omega)]

/-- `json.loads` on a long run of opening brackets raises
`RecursionError`. -/
theorem jsonParseDeep (m : Nat) (hm : recursionLimit < m) :
    jsonParse (List.replicate m lbrack) = .error .recursionError := by
  unfold jsonParse
  rw [parseValueBrackets recursionLimit 0 _ m (by omega) hm
    (by simp only [List.length_replicate]; omega)]

/-- `strip` is the identity on a run of opening brackets. -/
theorem pyStripLbracks (m : Nat) :
    pyStrip (List.replicate m lbrack) = List.replicate m lbrack := by
  cases m with
  | zero => rfl
  | succ m2 =>
    unfold pyStrip trimLeft trimRight
    rw [List.replicate_succ, List.dropWhile_cons, if_neg (by decide)]
    rw [← List.replicate_succ, List.reverse_replicate, List.replicate_succ,
      List.dropWhile_cons, if_neg (by decide), ← List.replicate_succ,
      List.reverse_replicate]

/-- C4 (amended): for every input the recovery parser either returns a
list, or raises exactly one explicit error whose diagnostic excerpt is
the first 1000 characters of the text the parser was working on when it
gave up (the stripped input, or, after a truncation-like first decode
error, the repaired text of line 748), or lets an uncaught
`RecursionError` propagate — the handlers of lines 744, 754, 795 and 814
catch only `json.JSONDecodeError`, so on deeply nested input
`_clean_json` does raise an unhandled fault, refuting the original
claim's totality. -/
theorem c4_parser_totality (input : List Char) :
    (∃ l, cleanJson input = CleanOut.ok l) ∨
    (∃ e, cleanJson input = CleanOut.raise e ∧
       (e.textAtFailure = pyStrip input ∨
        fixTruncatedJson (pyStrip input) = some e.textAtFailure) ∧
       (∃ excerpt suffix, cleanErrMsg e = cleanErrHeader ++ excerpt ++ suffix ∧
          excerpt = e.textAtFailure.take 1000 ∧ excerpt.length ≤ 1000)) ∨
    cleanJson input = CleanOut.fault := by
  have hmsg : ∀ e : CleanErr,
      ∃ excerpt suffix, cleanErrMsg e = cleanErrHeader ++ excerpt ++ suffix ∧
        excerpt = e.textAtFailure.take 1000 ∧ excerpt.length ≤ 1000 := by
    intro e
    refine ⟨e.textAtFailure.take 1000,
      (if 1000 < e.textAtFailure.length then
         "\n... (truncated, total length: ".data ++
           natDigits e.textAtFailure.length ++ " chars)".data
       else []), ?_, rfl, ?_⟩
    · rw [cleanErrMsg, cleanErrHeader, List.append_assoc]
    · simpa using List.length_take_le 1000 e.textAtFailure
  unfold cleanJson
  dsimp only
  split
  · exact Or.inl ⟨_, rfl⟩
  · split
    · exact Or.inl ⟨_, rfl⟩
    · exact Or.inr (Or.inl ⟨_, rfl, Or.inl rfl, hmsg _⟩)
    · exact Or.inr (Or.inr rfl)
  · exact Or.inr (Or.inr rfl)
  · split
    · split
      · exact Or.inr (Or.inr rfl)
      · rename_i text2 heq
        split
        · exact Or.inl ⟨_, rfl⟩
        · exact Or.inr (Or.inr rfl)
        · split
          · exact Or.inl ⟨_, rfl⟩
          · exact Or.inr (Or.inl ⟨_, rfl, Or.inr heq, hmsg _⟩)
          · exact Or.inr (Or.inr rfl)
    · split
      · exact Or.inl ⟨_, rfl⟩
      · exact Or.inr (Or.inl ⟨_, rfl, Or.inl rfl, hmsg _⟩)
      · exact Or.inr (Or.inr rfl)

/-- Witness for C4 at a concrete well-formed input. -/
theorem c4_parser_totality_witness :
    (∃ l, cleanJson "[1, 2]".data = CleanOut.ok l) ∨
    (∃ e, cleanJson "[1, 2]".data = CleanOut.raise e ∧
       (e.textAtFailure = pyStrip "[1, 2]".data ∨
        fixTruncatedJson (pyStrip "[1, 2]".data) = some e.textAtFailure) ∧
       (∃ excerpt suffix, cleanErrMsg e = cleanErrHeader ++ excerpt ++ suffix ∧
          excerpt = e.textAtFailure.take 1000 ∧ excerpt.length ≤ 1000)) ∨
    cleanJson "[1, 2]".data = CleanOut.fault :=
  c4_parser_totality "[1, 2]".data

/-- C4 counterexample to the original claim: on an input of 1001 opening
brackets the direct `json.loads` raises `RecursionError`, which the
`except json.JSONDecodeError` handler of line 744 does not catch, so
`_clean_json` propagates an unhandled fault instead of returning a list
or raising the explicit `ValueError`; and on the truncated input
`[\x7b"a":\x7d,\x7b` the raised error carries the repaired text of
line 748, so its excerpt is not the first 1000 characters of the
input. -/
theorem c4_counterexample :
    cleanJson (List.replicate 1001 lbrack) = CleanOut.fault ∧
    (∃ e, cleanJson "[\x7b\x22a\x22:\x7d,\x7b".data = CleanOut.raise e ∧
      fixTruncatedJson (pyStrip "[\x7b\x22a\x22:\x7d,\x7b".data) =
        some e.textAtFailure ∧
      e.textAtFailure ≠ ("[\x7b\x22a\x22:\x7d,\x7b".data).take 1000 ∧
      cleanErrMsg e ≠
        cleanErrHeader ++ ("[\x7b\x22a\x22:\x7d,\x7b".data).take 1000) := by
  constructor
  · have hj := jsonParseDeep 1001 (by decide)
    unfold cleanJson
    dsimp only
    rw [pyStripLbracks, hj]
  · refine ⟨_, rfl, by rfl, by decide, by decide⟩

end CodeAgent
